import Mathlib

/-!
Verification of the document-search ingestion and page-level text-analysis
pipeline (`app/services/pdf_processor.py`, `app/services/google_drive_service.py`,
`app/services/elastic_search_service.py`, `app/apis/search.py`).

Strings are modelled as `List Char`.  Python's regular-expression
substitutions are rendered as explicit left-to-right scanning functions
whose semantics were checked against `re.sub` (leftmost match, greedy
quantifiers with backtracking, scan resumes after the replaced span).
Whitespace is the ASCII fragment of Python's `\s` class and of
`str.strip`'s default chars.  External collaborators (the PyMuPDF decoder,
the Google Drive HTTP API, the Elasticsearch client) are modelled as
oracle functions supplied as parameters; an oracle returning `none` (or
`.raised`) stands for the corresponding Python exception.
-/

namespace DocSearch

/-! ## Character classes -/

/-- ASCII whitespace, the fragment of Python's `\s` class and of
`str.strip()` relevant to the source: space, tab, newline, carriage
return, vertical tab, form feed. -/
def isWS (c : Char) : Bool :=
  c = ' ' || c = '\t' || c = '\n' || c = '\r' || c = '\x0b' || c = '\x0c'

/-- The class `[ \t]` of the first cleaning rule. -/
def isSpTab (c : Char) : Bool :=
  c = ' ' || c = '\t'

/-- The punctuation class `[,.!?;:]` of the fourth cleaning rule. -/
def isPunctC (c : Char) : Bool :=
  c = ',' || c = '.' || c = '!' || c = '?' || c = ';' || c = ':'

/-- The sentence-terminator class `[.!?]` of the fifth cleaning rule. -/
def isSentEnd (c : Char) : Bool :=
  c = '.' || c = '!' || c = '?'

/-- The class `[A-Z]` of the fifth cleaning rule. -/
def isUpperAZ (c : Char) : Bool :=
  65 ≤ c.toNat && c.toNat ≤ 90

/-! ## Python string primitives -/

/-- Python `str.strip()`: drop leading and trailing whitespace. -/
def pyStrip (l : List Char) : List Char :=
  ((l.dropWhile isWS).reverse.dropWhile isWS).reverse

/-- Helper for `pySplit`: accumulate the current word. -/
def pySplitAux : List Char → List Char → List (List Char)
  | w, [] => if w = [] then [] else [w]
  | w, c :: rest =>
    if isWS c then
      if w = [] then pySplitAux [] rest else w :: pySplitAux [] rest
    else
      pySplitAux (w ++ [c]) rest

/-- Python `str.split()` with no argument: the maximal runs of
non-whitespace characters, leading/trailing/repeated separators ignored. -/
def pySplit (l : List Char) : List (List Char) :=
  pySplitAux [] l

/-- Python `' '.join(words)`. -/
def joinSpace (ws : List (List Char)) : List Char :=
  List.intercalate [' '] ws

/-- Python `str.lower()` (ASCII). -/
def pyLower (l : List Char) : List Char :=
  l.map Char.toLower

/-! ## The cleaning rules of `PDFProcessor._clean_text`

Each rule is one `re.sub` call, rendered as a single left-to-right pass.
The pending-run accumulators make each pass structurally recursive; their
equivalence with CPython's `re.sub` was checked exhaustively on small
inputs and on hundreds of thousands of random strings. -/

/-- Rule 1, `re.sub(r'[ \t]+', ' ', text)`: each maximal run of spaces and
tabs becomes a single space.  The flag records whether the previous
character was part of such a run. -/
def subSpTabAux : Bool → List Char → List Char
  | _, [] => []
  | inRun, c :: rest =>
    if isSpTab c then
      if inRun then subSpTabAux true rest else ' ' :: subSpTabAux true rest
    else
      c :: subSpTabAux false rest

/-- Rule 1 entry point. -/
def subSpTab (l : List Char) : List Char :=
  subSpTabAux false l

/-- The suffix of `l` strictly after its last `'\n'` (`l` itself when it
holds no newline). -/
def afterLastNl (l : List Char) : List Char :=
  (l.reverse.takeWhile (fun c => c ≠ '\n')).reverse

/-- Rule 2, `re.sub(r'\n\s*\n', '\n\n', text)`.  A greedy match starting at
a newline extends to the last newline of the following maximal whitespace
run; whatever whitespace trails that newline is left in place.  The state
holds the whitespace seen since the pending initial newline. -/
def subNlRunAux : Option (List Char) → List Char → List Char
  | none, [] => []
  | some w, [] =>
    if w.contains '\n' then '\n' :: '\n' :: afterLastNl w else '\n' :: w
  | none, c :: rest =>
    if c = '\n' then subNlRunAux (some []) rest else c :: subNlRunAux none rest
  | some w, c :: rest =>
    if isWS c then subNlRunAux (some (w ++ [c])) rest
    else if w.contains '\n' then
      '\n' :: '\n' :: (afterLastNl w ++ c :: subNlRunAux none rest)
    else
      '\n' :: (w ++ c :: subNlRunAux none rest)

/-- Rule 2 entry point. -/
def subNlRun (l : List Char) : List Char :=
  subNlRunAux none l

/-- Rule 3, `re.sub(r'\n ', '\n', text)`: one space immediately following a
newline is removed; scanning resumes after the match. -/
def subNlSpace : List Char → List Char
  | '\n' :: ' ' :: rest => '\n' :: subNlSpace rest
  | c :: rest => c :: subNlSpace rest
  | [] => []

/-- Rule 4, `re.sub(r'\s+([,.!?;:])', r'\1', text)`: a maximal whitespace
run immediately followed by punctuation is deleted.  The accumulator holds
the pending run not yet known to precede punctuation. -/
def subWsPunctAux : List Char → List Char → List Char
  | pend, [] => pend
  | pend, c :: rest =>
    if isWS c then subWsPunctAux (pend ++ [c]) rest
    else if isPunctC c && !(pend = []) then c :: subWsPunctAux [] rest
    else pend ++ c :: subWsPunctAux [] rest

/-- Rule 4 entry point. -/
def subWsPunct (l : List Char) : List Char :=
  subWsPunctAux [] l

/-- Rule 5, `re.sub(r'([.!?])\s*([A-Z])', r'\1 \2', text)`: a sentence
terminator, optional whitespace, and an upper-case letter are rewritten as
terminator, one space, letter.  The state holds the pending terminator and
the whitespace seen after it. -/
def subSentUpperAux : Option (Char × List Char) → List Char → List Char
  | none, [] => []
  | some (s, pend), [] => s :: pend
  | none, c :: rest =>
    if isSentEnd c then subSentUpperAux (some (c, [])) rest
    else c :: subSentUpperAux none rest
  | some (s, pend), c :: rest =>
    if isWS c then subSentUpperAux (some (s, pend ++ [c])) rest
    else if isUpperAZ c then s :: ' ' :: c :: subSentUpperAux none rest
    else if isSentEnd c then s :: (pend ++ subSentUpperAux (some (c, [])) rest)
    else s :: (pend ++ c :: subSentUpperAux none rest)

/-- Rule 5 entry point. -/
def subSentUpper (l : List Char) : List Char :=
  subSentUpperAux none l

/-- `PDFProcessor._clean_text`: the five substitutions in source order,
then `str.strip()`. -/
def clean_text (l : List Char) : List Char :=
  pyStrip (subSentUpper (subWsPunct (subNlSpace (subNlRun (subSpTab l)))))

/-! ## `PDFProcessor.extract_text` (full-text mode)

PyMuPDF's page iteration is modelled by handing the function the list of
raw per-page texts (`page.get_text()` for each page in document order);
the byte-level wrapper below adds the decoder oracle. -/

/-- The body of `extract_text`'s loop: pages whose stripped text is
non-empty are appended, each followed by one `'\n'`. -/
def extractFold (pages : List (List Char)) : List Char :=
  pages.foldl (fun acc p => if pyStrip p ≠ [] then acc ++ p ++ ['\n'] else acc) []

/-- `PDFProcessor.extract_text` over decoded pages: concatenate the
retained raw page texts, strip the result, return `none` (Python `None`)
when nothing remains. -/
def extract_text_pages (pages : List (List Char)) : Option (List Char) :=
  let final := pyStrip (extractFold pages)
  if final ≠ [] then some final else none

/-- `PDFProcessor.extract_text` from bytes: `fitz` is the decoder oracle,
`none` standing for a raised exception (caught, yielding `None`). -/
def extract_text (fitz : List Nat → Option (List (List Char))) (file_content : List Nat) :
    Option (List Char) :=
  match fitz file_content with
  | none => none
  | some pages => extract_text_pages pages

/-! ## `PDFProcessor.extract_text_with_pages` (page mode) -/

/-- One decoded page: the text `page.get_text()` returns, and the page
rectangle's rounded dimensions (opaque values, carried through). -/
structure RawPage where
  raw : List Char
  width : Int
  height : Int
deriving DecidableEq, Repr

/-- One entry of the list `extract_text_with_pages` returns. -/
structure PageInfo where
  page_number : Nat
  text : List Char
  raw_text : List Char
  word_count : Nat
  char_count : Nat
  width : Int
  height : Int
deriving DecidableEq, Repr

/-- `enumerate i l` pairs each element of `l` with its index, starting at `i`. -/
def enumerate : Nat → List α → List (Nat × α)
  | _, [] => []
  | i, a :: rest => (i, a) :: enumerate (i + 1) rest

/-- The per-page body of `extract_text_with_pages`'s loop: a page is kept
only when its stripped text is non-empty and longer than 10 characters;
the record's `text` is the cleaned stripped text while `raw_text`,
`word_count` and `char_count` all come from the stripped text before
cleaning. -/
def pageRecord (pr : Nat × RawPage) : Option PageInfo :=
  let text := pyStrip pr.2.raw
  if text ≠ [] && text.length > 10 then
    some { page_number := pr.1 + 1
           text := clean_text text
           raw_text := text
           word_count := (pySplit text).length
           char_count := text.length
           width := pr.2.width
           height := pr.2.height }
  else none

/-- `PDFProcessor.extract_text_with_pages` over decoded pages. -/
def extract_text_with_pages (pages : List RawPage) : List PageInfo :=
  (enumerate 0 pages).filterMap pageRecord

/-! ## `PDFProcessor.search_in_pages` and `_highlight_term` -/

/-- Does `nl` occur at offset `i` of `hay`?  (`hay[i:i+len(nl)] == nl`.) -/
def occAt (hay nl : List Char) (i : Nat) : Bool :=
  nl.isPrefixOf (hay.drop i)

/-- Python `hay.find(nl, start)`: the least `i ≥ start` at which `nl`
occurs, `none` when there is none (Python returns `-1`). -/
def findFrom (hay nl : List Char) (start : Nat) : Option Nat :=
  ((List.range (hay.length + 1)).filter
    (fun i => decide (start ≤ i) && occAt hay nl i)).head?

/-- The `while True` scan of `search_in_pages`: find the next occurrence,
record its position, resume searching at `pos + 1` (so occurrences that
overlap an earlier one are still found).  `fuel` bounds the iteration
count; `hay.length + 1` steps always suffice. -/
def scanPositions (hay nl : List Char) : Nat → Nat → List Nat
  | _, 0 => []
  | start, fuel + 1 =>
    match findFrom hay nl start with
    | none => []
    | some p => p :: scanPositions hay nl (p + 1) fuel

/-- All (lower-cased) occurrence positions of the search term in a page's
text, in scan order. -/
def pageOccs (text term : List Char) : List Nat :=
  scanPositions (pyLower text) (pyLower term) 0 (text.length + 1)

/-- The context slice around a match: up to 150 characters before the
match start and up to 150 after the match end, clamped to the page text
(`text[max(0, pos-150) : min(len(text), pos+len(term)+150)]`), then
whitespace-normalised by `' '.join(context.split())`. -/
def mkContext (text term : List Char) (pos : Nat) : List Char :=
  let cstart := pos - 150
  let cend := min text.length (pos + term.length + 150)
  joinSpace (pySplit ((text.drop cstart).take (cend - cstart)))

/-- `_highlight_term` for the empty pattern: `re.sub` with an empty
pattern inserts the replacement (here `"****"`) at every position.  The
callers guard against an empty term, but the model stays total and
faithful. -/
def highlightEmpty : List Char → List Char
  | [] => ['*', '*', '*', '*']
  | c :: rest => '*' :: '*' :: '*' :: '*' :: c :: highlightEmpty rest

/-- Case-insensitive literal prefix test used by `_highlight_term`. -/
def lowerHeadMatch (term text : List Char) : Bool :=
  (pyLower term).isPrefixOf (pyLower text)

/-- `_highlight_term` scan with fuel (each step consumes at least one
character, so `text.length` steps suffice for a non-empty term): every
case-insensitive occurrence of the term is wrapped in `**` markers,
keeping the matched text's original casing. -/
def highlightAux (term : List Char) : Nat → List Char → List Char
  | 0, text => text
  | _ + 1, [] => []
  | fuel + 1, c :: rest =>
    if lowerHeadMatch term (c :: rest) then
      '*' :: '*' :: ((c :: rest).take term.length ++ '*' :: '*' ::
        highlightAux term fuel ((c :: rest).drop term.length))
    else c :: highlightAux term fuel rest

/-- `PDFProcessor._highlight_term`. -/
def highlight_term (term text : List Char) : List Char :=
  match term with
  | [] => highlightEmpty text
  | _ :: _ => highlightAux term text.length text

/-- One entry of a matching page's `contexts` list. -/
structure OccurrenceInfo where
  position : Nat
  context : List Char
  snippet_length : Nat
deriving DecidableEq, Repr

/-- One entry of the list `search_in_pages` returns. -/
structure MatchingPage where
  page_number : Nat
  occurrences_count : Nat
  contexts : List OccurrenceInfo
  word_count : Nat
  char_count : Nat
  width : Int
  height : Int
deriving DecidableEq, Repr

/-- The occurrence record built for one match position. -/
def mkOccurrence (text term : List Char) (pos : Nat) : OccurrenceInfo :=
  let context := mkContext text term pos
  { position := pos
    context := highlight_term term context
    snippet_length := context.length }

/-- Python's `needle in hay` substring test. -/
def containsSub (hay nl : List Char) : Bool :=
  match hay with
  | [] => nl.isPrefixOf []
  | _ :: rest => nl.isPrefixOf hay || containsSub rest nl

/-- The per-page body of `search_in_pages`'s loop: a page whose
lower-cased text contains the lower-cased term yields a record holding
the total occurrence count, the first three occurrence contexts
(`occurrences[:3]`), and the page's statistics. -/
def pageMatch (search_term : List Char) (page : PageInfo) : Option MatchingPage :=
  if containsSub (pyLower page.text) (pyLower search_term) then
    let occs := (pageOccs page.text search_term).map (mkOccurrence page.text search_term)
    some { page_number := page.page_number
           occurrences_count := occs.length
           contexts := occs.take 3
           word_count := page.word_count
           char_count := page.char_count
           width := page.width
           height := page.height }
  else none

/-- `PDFProcessor.search_in_pages`: empty term or page list short-circuit
to `[]`; otherwise the matching pages, sorted by page number (Python's
stable `list.sort`, modelled by the stable `mergeSort`). -/
def search_in_pages (pages_content : List PageInfo) (search_term : List Char) :
    List MatchingPage :=
  if search_term = [] || pages_content = [] then []
  else
    (pages_content.filterMap (pageMatch search_term)).mergeSort
      (fun a b => a.page_number ≤ b.page_number)

/-! ## `GoogleDriveService`

The Drive HTTP API is an oracle: `fetchParent pid` models
`service.files().get(fileId=pid, fields="name,parents").execute()` with
the dict defaults already applied (`.get('name', '')`,
`.get('parents', [])`); `none` models a raised `HttpError`. -/

/-- Outcome of the parent-walk loop in `get_file_path`. -/
inductive WalkOut where
  | finished (parts : List (List Char))
  | httpError
deriving DecidableEq, Repr

/-- The `while current_parents:` loop of `get_file_path`: take the first
parent id, fetch its name and parents, prepend the name to `path_parts`,
continue from the fetched parents.  The loop itself has no bound; `fuel`
counts loop iterations and the outer `none` means the loop was still
running when the fuel ran out (the Python code would still be looping). -/
def walkParents (fetchParent : List Char → Option (List Char × List (List Char))) :
    List (List Char) → List (List Char) → Nat → Option WalkOut
  | parts, [], _ => some (.finished parts)
  | _, _ :: _, 0 => none
  | parts, pid :: _, fuel + 1 =>
    match fetchParent pid with
    | none => some .httpError
    | some (nm, ps) => walkParents fetchParent (nm :: parts) ps fuel

/-- `GoogleDriveService.get_file_path`: `"/"` for an empty parent list,
`"/" + "/".join(path_parts)` when the walk reaches a node without
parents, `"/"` when a lookup raises `HttpError`.  `none` when the walk
was still running after `fuel` iterations. -/
def get_file_path (fetchParent : List Char → Option (List Char × List (List Char)))
    (parents : List (List Char)) (fuel : Nat) : Option (List Char) :=
  if parents = [] then some ['/']
  else
    match walkParents fetchParent [] parents fuel with
    | none => none
    | some (.finished parts) => some ('/' :: List.intercalate ['/'] parts)
    | some .httpError => some ['/']

/-- The walk on the given parent graph terminates (for some fuel the loop
finishes or raises). -/
def walkTerminates (fetchParent : List Char → Option (List Char × List (List Char)))
    (parents : List (List Char)) : Prop :=
  ∃ fuel r, walkParents fetchParent [] parents fuel = some r

/-- A timezone-aware instant (`datetime.fromisoformat` result), opaque. -/
structure DTime where
  val : Int
deriving DecidableEq, Repr

/-- A Drive file listing entry, with the fields
`id,name,webViewLink,createdTime,modifiedTime,size,mimeType,parents`
requested by `list_pdf_files`. -/
structure FileInfo where
  id : List Char
  name : List Char
  webViewLink : List Char
  createdTime : List Char
  modifiedTime : List Char
  size : Option Nat
  mimeType : Option (List Char)
  parents : List (List Char)
deriving DecidableEq, Repr

/-- `app.models.document.Document`. -/
structure Document where
  id : List Char
  name : List Char
  content : List Char
  file_path : List Char
  web_view_link : List Char
  created_time : DTime
  modified_time : DTime
  size : Nat
  mime_type : Option (List Char)
deriving DecidableEq, Repr

/-- The external collaborators of `GoogleDriveService`:
`download` models `download_file_content` (`none` = `HttpError`, caught,
returning `None`); `fitz` models PyMuPDF decoding a byte string into raw
page texts (`none` = a raised decoding error); `fetchParent` as above;
`parseTime` models `datetime.fromisoformat` on the `Z`-normalised
timestamp (`none` = `ValueError`). -/
structure DriveEnv where
  download : List Char → Option (List Nat)
  fitz : List Nat → Option (List (List Char))
  fetchParent : List Char → Option (List Char × List (List Char))
  parseTime : List Char → Option DTime

/-- `GoogleDriveService.create_document_from_file`.  The outer `none`
means the parent walk was still running after `fuel` iterations (the
Python call would not have returned); `some none` models returning
`None` (failed/empty download, or an exception caught by the broad
`except`); `some (some d)` is a built document. -/
def create_document_from_file (env : DriveEnv) (fuel : Nat) (fi : FileInfo) :
    Option (Option Document) :=
  match env.download fi.id with
  | none => some none
  | some content =>
    if content = [] then some none
    else
      let text_content := (extract_text env.fitz content).getD []
      match get_file_path env.fetchParent fi.parents fuel with
      | none => none
      | some fpath =>
        match env.parseTime fi.createdTime, env.parseTime fi.modifiedTime with
        | some ct, some mt =>
          some (some { id := fi.id
                       name := fi.name
                       content := text_content
                       file_path := fpath ++ '/' :: fi.name
                       web_view_link := fi.webViewLink
                       created_time := ct
                       modified_time := mt
                       size := fi.size.getD 0
                       mime_type := fi.mimeType })
        | _, _ => some none

/-- The loop of `get_all_documents` over the listed files: documents that
failed to build (`None`) are dropped; `none` when some candidate's parent
walk was still running. -/
def docsLoop (env : DriveEnv) (fuel : Nat) : List FileInfo → Option (List Document)
  | [] => some []
  | fi :: rest =>
    match create_document_from_file env fuel fi with
    | none => none
    | some none => docsLoop env fuel rest
    | some (some d) => (docsLoop env fuel rest).map (d :: ·)

/-! ## The `/index` route (`DocumentSearchAPI.index_documents`) -/

/-- The JSON body the `/index` route returns on completion. -/
structure IndexResponse where
  total_documents : Nat
  indexed_documents : Nat
deriving DecidableEq, Repr

/-- The `/index` route body: fetch all documents, count those the backend
indexing call reports as successful, refresh, and report
`total_documents = len(documents)` and `indexed_documents` the success
count.  `backend` models `search_engine.index_document` (which never
raises, see the Elasticsearch binding below), so the route completes with
a response whenever every candidate's parent walk terminates. -/
def index_documents (env : DriveEnv) (fuel : Nat) (files : List FileInfo)
    (backend : Document → Bool) : Option IndexResponse :=
  match docsLoop env fuel files with
  | none => none
  | some documents =>
    some { total_documents := documents.length
           indexed_documents := (documents.filter backend).length }

/-- Did `create_document_from_file` produce a document for this file? -/
def buildsDoc (env : DriveEnv) (fuel : Nat) (fi : FileInfo) : Bool :=
  match create_document_from_file env fuel fi with
  | some (some _) => true
  | _ => false

/-! ## `ElasticsearchService`

Each client call either returns a response value or raises; `.raised`
models any raised exception (connection errors, `NotFoundError`,
transport errors alike). -/

/-- Outcome of one Elasticsearch client call. -/
inductive EsCall (α : Type) where
  | ok (val : α)
  | raised
deriving DecidableEq, Repr

/-- The body of an `es.index`/`es.delete` response: the `'result'` entry,
`none` modelling a response dict without that key (whose lookup raises
`KeyError`, caught by the broad `except`). -/
structure EsWriteResp where
  result : Option (List Char)
deriving DecidableEq, Repr

/-- One hit of an `es.search` response: the `_source` entries the service
reads (each possibly missing, raising `KeyError` on access), the
`_score`, and the optional highlight dict (field name, fragments). -/
structure EsHit where
  source_id : Option (List Char)
  source_name : Option (List Char)
  source_file_path : Option (List Char)
  source_web_view_link : Option (List Char)
  score : Int
  highlight : Option (List (List Char × List (List Char)))
deriving DecidableEq, Repr

/-- An `es.search` response: `response['hits']['hits']`. -/
structure EsSearchResp where
  hits : List EsHit
deriving DecidableEq, Repr

/-- The query body `ElasticsearchService.search` sends: a `multi_match`
over `name^2`, `content`, `file_path` with `best_fields` and `AUTO`
fuzziness, highlights on `content` and `name`, bounded by `size`. -/
structure SearchBody where
  query : List Char
  fields : List (List Char)
  matchType : List Char
  fuzziness : List Char
  highlightFields : List (List Char)
  size : Nat
deriving DecidableEq, Repr

/-- The wire query `search` builds for a query string and size. -/
def buildSearchBody (query : List Char) (size : Nat) : SearchBody :=
  { query := query
    fields := ["name^2".toList, "content".toList, "file_path".toList]
    matchType := "best_fields".toList
    fuzziness := "AUTO".toList
    highlightFields := ["content".toList, "name".toList]
    size := size }

/-- The Elasticsearch client as an oracle over the service's four calls. -/
structure EsEnv where
  indexResp : Document → EsCall EsWriteResp
  deleteResp : List Char → EsCall EsWriteResp
  existsResp : List Char → EsCall Bool
  searchResp : SearchBody → EsCall EsSearchResp

/-- One formatted result of `ElasticsearchService.search`. -/
structure EsResult where
  id : List Char
  name : List Char
  file_path : List Char
  web_view_link : List Char
  score : Int
  highlights : Option (List (List Char × List (List Char)))
deriving DecidableEq, Repr

/-- `ElasticsearchService.index_document`: `True` iff the call returned
and `response['result']` is `'created'` or `'updated'`; any raised error
(or missing key) yields `False`, never an exception. -/
def es_index_document (env : EsEnv) (d : Document) : Bool :=
  match env.indexResp d with
  | .raised => false
  | .ok resp =>
    match resp.result with
    | none => false
    | some r => r = "created".toList || r = "updated".toList

/-- `ElasticsearchService.delete_document`: `True` iff the call returned
and `response['result']` is `'deleted'`; `NotFoundError` and any other
raised error yield `False`. -/
def es_delete_document (env : EsEnv) (docId : List Char) : Bool :=
  match env.deleteResp docId with
  | .raised => false
  | .ok resp =>
    match resp.result with
    | none => false
    | some r => r = "deleted".toList

/-- `ElasticsearchService.document_exists`: the client's answer, `False`
on any raised error. -/
def es_document_exists (env : EsEnv) (docId : List Char) : Bool :=
  match env.existsResp docId with
  | .raised => false
  | .ok b => b

/-- Extracting one hit into a result dict; a missing `_source` field
raises `KeyError`, aborting the whole loop. -/
def extractHit (h : EsHit) : Option EsResult :=
  match h.source_id, h.source_name, h.source_file_path, h.source_web_view_link with
  | some i, some n, some fp, some wv =>
    some { id := i, name := n, file_path := fp, web_view_link := wv
           score := h.score, highlights := h.highlight }
  | _, _, _, _ => none

/-- `ElasticsearchService.search`: build the wire query, read the hits;
any raised error — from the call or from a malformed hit mid-loop —
yields `[]`, never an exception. -/
def es_search (env : EsEnv) (query : List Char) (size : Nat) : List EsResult :=
  match env.searchResp (buildSearchBody query size) with
  | .raised => []
  | .ok resp =>
    match resp.hits.mapM extractHit with
    | none => []
    | some rs => rs

/-! ## Concrete fixtures used by witnesses and counterexamples -/

/-- A page whose raw text has 11 characters but strips to 10. -/
def fixPageLen11 : RawPage :=
  { raw := "0123456789 ".toList, width := 0, height := 0 }

/-- A page whose stripped raw text (11 chars) differs from its cleaned
text (10 chars) in both character and word count. -/
def fixPageCounts : RawPage :=
  { raw := "aaaa , bbbb".toList, width := 0, height := 0 }

/-- The record `extract_text_with_pages [fixPageCounts]` produces. -/
def fixRecCounts : PageInfo :=
  { page_number := 1
    text := "aaaa, bbbb".toList
    raw_text := "aaaa , bbbb".toList
    word_count := 3
    char_count := 11
    width := 0
    height := 0 }

/-- Scenario A, page 1: `"Hello World"`. -/
def fixPageHello : PageInfo :=
  { page_number := 1, text := "Hello World".toList, raw_text := "Hello World".toList
    word_count := 2, char_count := 11, width := 0, height := 0 }

/-- Scenario A, page 2: `"No Match Here"`. -/
def fixPageNoMatch : PageInfo :=
  { page_number := 2, text := "No Match Here".toList, raw_text := "No Match Here".toList
    word_count := 3, char_count := 13, width := 0, height := 0 }

/-- The single matching page Scenario A returns for term `"hello"`. -/
def fixMatchHello : MatchingPage :=
  { page_number := 1
    occurrences_count := 1
    contexts := [{ position := 0, context := "**Hello** World".toList, snippet_length := 11 }]
    word_count := 2, char_count := 11, width := 0, height := 0 }

/-- A page whose text is `"a\nb"`: searching for the term `"a\nb"` finds
one occurrence, but whitespace collapse turns the context into `"a b"`,
in which the term no longer occurs, so nothing gets highlighted. -/
def fixPageNl : PageInfo :=
  { page_number := 1, text := "a\nb".toList, raw_text := "a\nb".toList
    word_count := 2, char_count := 3, width := 0, height := 0 }

/-- The matching page returned for `fixPageNl` and term `"a\nb"`: the
context `"a b"` carries no highlight marker at all. -/
def fixMatchNl : MatchingPage :=
  { page_number := 1
    occurrences_count := 1
    contexts := [{ position := 0, context := "a b".toList, snippet_length := 3 }]
    word_count := 2, char_count := 3, width := 0, height := 0 }

/-- A parent graph with a self-cycle at id `"A"`. -/
def fetchCyc (pid : List Char) : Option (List Char × List (List Char)) :=
  if pid = "A".toList then some ("a".toList, ["A".toList]) else none

/-- A two-level acyclic parent chain: `P1 → P0 → (root)`. -/
def fetchChain (pid : List Char) : Option (List Char × List (List Char)) :=
  if pid = "P1".toList then some ("sub".toList, ["P0".toList])
  else if pid = "P0".toList then some ("root".toList, [])
  else none

/-- A one-node parent graph used to instantiate the bounded-walk theorem. -/
def fetchLeaf (pid : List Char) : Option (List Char × List (List Char)) :=
  if pid = "B".toList then some ("b".toList, []) else none

/-- Batch fixture, candidate 1 (download succeeds). -/
def fixFile1 : FileInfo :=
  { id := "f1".toList, name := "n1".toList, webViewLink := "w1".toList
    createdTime := "t".toList, modifiedTime := "t".toList
    size := none, mimeType := none, parents := [] }

/-- Batch fixture, candidate 2 (its download fails). -/
def fixFile2 : FileInfo :=
  { id := "f2".toList, name := "n2".toList, webViewLink := "w2".toList
    createdTime := "t".toList, modifiedTime := "t".toList
    size := none, mimeType := none, parents := [] }

/-- Batch fixture, candidate 3 (download succeeds). -/
def fixFile3 : FileInfo :=
  { id := "f3".toList, name := "n3".toList, webViewLink := "w3".toList
    createdTime := "t".toList, modifiedTime := "t".toList
    size := none, mimeType := none, parents := [] }

/-- A Drive environment where exactly candidate `"f2"`'s download raises;
extraction yields no text (documents are still built, with empty
content), and timestamps parse. -/
def fixDriveEnv : DriveEnv :=
  { download := fun fid => if fid = "f2".toList then none else some [1]
    fitz := fun _ => some []
    fetchParent := fun _ => none
    parseTime := fun _ => some ⟨0⟩ }

/-- The document built for `fixFile1` under `fixDriveEnv`. -/
def fixDoc1 : Document :=
  { id := "f1".toList, name := "n1".toList, content := [], file_path := "//n1".toList
    web_view_link := "w1".toList, created_time := ⟨0⟩, modified_time := ⟨0⟩
    size := 0, mime_type := none }

/-- The document built for `fixFile3` under `fixDriveEnv`. -/
def fixDoc3 : Document :=
  { id := "f3".toList, name := "n3".toList, content := [], file_path := "//n3".toList
    web_view_link := "w3".toList, created_time := ⟨0⟩, modified_time := ⟨0⟩
    size := 0, mime_type := none }

/-- A document fixture for the Elasticsearch theorems. -/
def fixDoc : Document :=
  { id := "d1".toList, name := "n".toList, content := [], file_path := "/n".toList
    web_view_link := "w".toList, created_time := ⟨0⟩, modified_time := ⟨0⟩
    size := 0, mime_type := none }

/-- An Elasticsearch client on which every call raises (backend down). -/
def fixEsDown : EsEnv :=
  { indexResp := fun _ => .raised
    deleteResp := fun _ => .raised
    existsResp := fun _ => .raised
    searchResp := fun _ => .raised }

/-- An Elasticsearch client that answers every write with a soft
non-success outcome (`result = 'noop'`) and every search with no hits. -/
def fixEsNoop : EsEnv :=
  { indexResp := fun _ => .ok ⟨some ("noop".toList)⟩
    deleteResp := fun _ => .ok ⟨some ("noop".toList)⟩
    existsResp := fun _ => .ok false
    searchResp := fun _ => .ok ⟨[]⟩ }

/-! ## Invariant predicates of cleaned text

These predicates describe the shape of `_clean_text`'s output; each
cleaning rule leaves strings of this shape unchanged, which yields
idempotence of the cleaner. -/

/-- All adjacent pairs of the list satisfy `p`. -/
def chainOK (p : Char → Char → Bool) : List Char → Bool
  | a :: b :: rest => p a b && chainOK p (b :: rest)
  | _ => true

/-- The pair condition between a char and the head of the list after it. -/
def headOK (p : Char → Char → Bool) (a : Char) : List Char → Bool
  | [] => true
  | b :: _ => p a b

/-- No two adjacent space-or-tab characters (rule 1 finds nothing). -/
def pDbl (a b : Char) : Bool := !(isSpTab a && isSpTab b)

/-- No space directly after a newline (rule 3 finds nothing). -/
def pNlSp (a b : Char) : Bool := !(a = '\n' && b = ' ')

/-- No whitespace directly before punctuation (rule 4 finds nothing). -/
def pWsP (a b : Char) : Bool := !(isWS a && isPunctC b)

/-- No tab characters at all (rule 1 finds nothing). -/
def noTab (l : List Char) : Bool := l.all (fun c => c ≠ '\t')

/-- Rule 2's condition at one position: a newline's following whitespace
run either holds no newline, or starts with one and holds no other. -/
def ok2cond (c : Char) (rest : List Char) : Bool :=
  if c = '\n' then
    !((rest.takeWhile isWS).contains '\n')
      || ((rest.takeWhile isWS).head? = some '\n'
          && !((rest.takeWhile isWS).tail.contains '\n'))
  else true

/-- Rule 2 finds nothing to change anywhere in the list. -/
def ok2 : List Char → Bool
  | [] => true
  | c :: rest => ok2cond c rest && ok2 rest

/-- Rule 5's condition at one position: a sentence terminator whose
following whitespace run is followed by an upper-case letter carries
exactly one space. -/
def ok5cond (c : Char) (rest : List Char) : Bool :=
  if isSentEnd c then
    match (rest.drop (rest.takeWhile isWS).length).head? with
    | some u => if isUpperAZ u then rest.takeWhile isWS = [' '] else true
    | none => true
  else true

/-- Rule 5 finds nothing to change anywhere in the list. -/
def ok5 : List Char → Bool
  | [] => true
  | c :: rest => ok5cond c rest && ok5 rest

/-- The list does not start with whitespace. -/
def headNotWS : List Char → Bool
  | [] => true
  | c :: _ => !isWS c

/-! # Theorems

General-purpose lemmas first, then the per-claim results. -/

/-- Singleton lists are already sorted. -/
theorem mergeSort_singleton {α : Type} (le : α → α → Bool) (a : α) :
    [a].mergeSort le = [a] :=
  List.perm_singleton.mp (List.mergeSort_perm [a] le)

/-- Two strictly increasing lists of naturals with the same members are
equal. -/
theorem sorted_lt_eq_of_mem_iff :
    ∀ {l₁ l₂ : List Nat}, l₁.Pairwise (· < ·) → l₂.Pairwise (· < ·) →
      (∀ x, x ∈ l₁ ↔ x ∈ l₂) → l₁ = l₂
  | [], [], _, _, _ => rfl
  | [], b :: t₂, _, _, hm => absurd ((hm b).mpr (List.mem_cons_self b t₂)) (by simp)
  | a :: t₁, [], _, _, hm => absurd ((hm a).mp (List.mem_cons_self a t₁)) (by simp)
  | a :: t₁, b :: t₂, h₁, h₂, hm => by
    have hab : a = b := by
      have ha : a ∈ b :: t₂ := (hm a).mp (List.mem_cons_self a t₁)
      have hb : b ∈ a :: t₁ := (hm b).mpr (List.mem_cons_self b t₂)
      rcases List.mem_cons.mp ha with h | h
      · exact h
      · rcases List.mem_cons.mp hb with h' | h'
        · exact h'.symm
        · have : b < a := (List.rel_of_pairwise_cons h₂) h
          have : a < b := (List.rel_of_pairwise_cons h₁) h'
          omega
    subst hab
    have htails : ∀ x, x ∈ t₁ ↔ x ∈ t₂ := by
      intro x
      constructor
      · intro hx
        have hlt : a < x := (List.rel_of_pairwise_cons h₁) hx
        rcases List.mem_cons.mp ((hm x).mp (List.mem_cons_of_mem a hx)) with h | h
        · omega
        · exact h
      · intro hx
        have hlt : a < x := (List.rel_of_pairwise_cons h₂) hx
        rcases List.mem_cons.mp ((hm x).mpr (List.mem_cons_of_mem a hx)) with h | h
        · omega
        · exact h
    have := sorted_lt_eq_of_mem_iff (List.Pairwise.of_cons h₁ ) (List.Pairwise.of_cons h₂) htails
    rw [this]

/-! ## Lemmas on `pyStrip` and full-text extraction (claim C2) -/

/-- A list strips to `[]` exactly when all its characters are whitespace. -/
theorem pyStrip_eq_nil_iff {l : List Char} :
    pyStrip l = [] ↔ ∀ c ∈ l, isWS c = true := by
  unfold pyStrip
  rw [List.reverse_eq_nil_iff, List.dropWhile_eq_nil_iff]
  constructor
  · intro h c hc
    have hsplit : c ∈ l.takeWhile isWS ++ l.dropWhile isWS := by
      rw [List.takeWhile_append_dropWhile]; exact hc
    rcases List.mem_append.mp hsplit with h' | h'
    · exact List.mem_takeWhile_imp h'
    · exact h _ (List.mem_reverse.mpr h')
  · intro h c hc
    exact h c (List.dropWhile_subset isWS (List.mem_reverse.mp hc))

/-- A list is all-whitespace exactly when it strips to `[]`. -/
theorem all_isWS_iff_pyStrip {l : List Char} :
    l.all isWS = true ↔ pyStrip l = [] := by
  rw [List.all_eq_true]; exact pyStrip_eq_nil_iff.symm

/-- The fold of `extract_text` is all-whitespace exactly when the
accumulator is and every page is. -/
theorem extractFold_all_isWS (pages : List (List Char)) :
    ∀ acc : List Char,
      ((pages.foldl (fun acc p => if pyStrip p ≠ [] then acc ++ p ++ ['\n'] else acc) acc).all isWS)
        = (acc.all isWS && pages.all (fun p => p.all isWS)) := by
  induction pages with
  | nil => intro acc; simp
  | cons p rest ih =>
    intro acc
    by_cases hp : pyStrip p = []
    · have hpws : p.all isWS = true := all_isWS_iff_pyStrip.mpr hp
      simp only [List.foldl_cons, List.all_cons, hpws, Bool.true_and, hp]
      simp only [ne_eq, not_true_eq_false, if_false, ih]
    · have hpws : p.all isWS = false := by
        rw [Bool.eq_false_iff]
        intro hall
        exact hp (all_isWS_iff_pyStrip.mp hall)
      simp only [List.foldl_cons, if_pos (by simpa using hp), ih, List.all_append,
        List.all_cons, hpws]
      simp

/-- Claim C2, amended: full-text extraction returns the empty signal
(`None`) exactly when the document has zero pages or every page's raw
text is whitespace-only (strips to empty) — the 10-character page-mode
threshold plays no role in full-text mode. -/
theorem claim_C2_amended (pages : List (List Char)) :
    extract_text_pages pages = none ↔ (pages = [] ∨ ∀ p ∈ pages, pyStrip p = []) := by
  have hbase : extract_text_pages pages = none ↔ pyStrip (extractFold pages) = [] := by
    unfold extract_text_pages
    by_cases hf : pyStrip (extractFold pages) = []
    · simp [hf]
    · simp [hf]
  have hfold : pyStrip (extractFold pages) = [] ↔ ∀ p ∈ pages, pyStrip p = [] := by
    rw [← all_isWS_iff_pyStrip]
    rw [show extractFold pages = pages.foldl
      (fun acc p => if pyStrip p ≠ [] then acc ++ p ++ ['\n'] else acc) [] from rfl,
      extractFold_all_isWS pages []]
    simp only [List.all_nil, Bool.true_and, List.all_eq_true]
    constructor
    · intro h p hp
      exact pyStrip_eq_nil_iff.mpr (h p hp)
    · intro h p hp
      exact pyStrip_eq_nil_iff.mp (h p hp)
  rw [hbase, hfold]
  constructor
  · exact Or.inr
  · rintro (h | h)
    · subst h; intro p hp; cases hp
    · exact h

/-- Closed instance of the amended claim C2. -/
theorem claim_C2_amended_witness : extract_text_pages [" ".toList] = none :=
  (claim_C2_amended _).mpr (Or.inr (by decide))

/-- Claim C2, counterexample: a single page `"Hello"` (5 characters, at
or below the 10-character threshold) still yields non-empty full text, so
the claimed equivalence with the threshold is false. -/
theorem claim_C2_cex :
    ¬ (extract_text_pages ["Hello".toList] = none
        ↔ (["Hello".toList] = ([] : List (List Char))
            ∨ ∀ p ∈ ["Hello".toList], p.length ≤ 10)) := by
  decide

/-! ## Lemmas on page-mode extraction (claims C6, C7) -/

/-- Members of `enumerate` are members of the underlying list. -/
theorem enumerate_mem_snd {α : Type} :
    ∀ {l : List α} {k : Nat} {pr : Nat × α}, pr ∈ enumerate k l → pr.2 ∈ l := by
  intro l
  induction l with
  | nil => intro k pr h; cases h
  | cons a rest ih =>
    intro k pr h
    rcases List.mem_cons.mp h with h | h
    · subst h; exact List.mem_cons_self _ _
    · exact List.mem_cons_of_mem _ (ih h)

/-- Every member of the underlying list appears in `enumerate`. -/
theorem enumerate_mem_of_mem {α : Type} :
    ∀ {l : List α} {a : α}, a ∈ l → ∀ k : Nat, ∃ i, (i, a) ∈ enumerate k l := by
  intro l
  induction l with
  | nil => intro a h; cases h
  | cons b rest ih =>
    intro a h k
    rcases List.mem_cons.mp h with h | h
    · subst h; exact ⟨k, List.mem_cons_self _ _⟩
    · obtain ⟨i, hi⟩ := ih h (k + 1)
      exact ⟨i, List.mem_cons_of_mem _ hi⟩

/-- Claim C6, amended: a `PageRecord` exists exactly for the pages whose
raw text, after stripping leading and trailing whitespace, is longer than
10 characters (so a stripped length of exactly 10 yields no record and 11
yields one); every record carries that non-empty stripped text, and
dropped pages leave no empty record behind. -/
theorem claim_C6_amended (pages : List RawPage) :
    (∀ rec ∈ extract_text_with_pages pages,
        10 < rec.raw_text.length ∧ ∃ p ∈ pages, rec.raw_text = pyStrip p.raw)
    ∧ (∀ p ∈ pages, 10 < (pyStrip p.raw).length →
        ∃ rec ∈ extract_text_with_pages pages, rec.raw_text = pyStrip p.raw) := by
  constructor
  · intro rec hrec
    obtain ⟨pr, hpr, hbuild⟩ := List.mem_filterMap.mp hrec
    unfold pageRecord at hbuild
    by_cases hc : (pyStrip pr.2.raw ≠ [] && (pyStrip pr.2.raw).length > 10) = true
    · rw [if_pos hc] at hbuild
      have hrec' := Option.some.inj hbuild
      subst hrec'
      refine ⟨?_, pr.2, enumerate_mem_snd hpr, rfl⟩
      have hc' := hc
      simp only [Bool.and_eq_true, decide_eq_true_eq, gt_iff_lt] at hc'
      exact hc'.2
    · rw [if_neg hc] at hbuild
      cases hbuild
  · intro p hp hlen
    obtain ⟨i, hi⟩ := enumerate_mem_of_mem hp 0
    have hcond : (pyStrip p.raw ≠ [] && (pyStrip p.raw).length > 10) = true := by
      have hne : pyStrip p.raw ≠ [] := by
        intro h; rw [h] at hlen; simp at hlen
      simp [hne, hlen]
    have hsome : ∃ rec, pageRecord (i, p) = some rec ∧ rec.raw_text = pyStrip p.raw := by
      unfold pageRecord
      rw [if_pos hcond]
      exact ⟨_, rfl, rfl⟩
    obtain ⟨rec, hr, hraw⟩ := hsome
    exact ⟨rec, List.mem_filterMap.mpr ⟨(i, p), hi, hr⟩, hraw⟩

/-- Closed instance of the amended claim C6: a stripped length of 11 is
kept (and carries the stripped text), one of 10 is dropped. -/
theorem claim_C6_amended_witness :
    (∃ rec ∈ extract_text_with_pages [⟨"words words".toList, 0, 0⟩],
      rec.raw_text = pyStrip ("words words".toList)) ∧
    extract_text_with_pages [⟨"0123456789".toList, 0, 0⟩] = [] := by
  constructor
  · exact (claim_C6_amended _).2 _ (List.mem_cons_self _ _) (by decide)
  · decide

/-- Claim C6, counterexample: the page `"0123456789 "` has raw extracted
text of length 11, yet produces no record (its stripped text has length
10), refuting the claim that raw length 11 always yields a record. -/
theorem claim_C6_cex :
    fixPageLen11.raw.length = 11 ∧ extract_text_with_pages [fixPageLen11] = [] := by
  decide

/-- Claim C7, amended: every record's `word_count` and `char_count` are
the word and character counts of its `raw_text` (the stripped,
pre-normalisation text), not of the cleaned `text` field. -/
theorem claim_C7_amended (pages : List RawPage) :
    ∀ rec ∈ extract_text_with_pages pages,
      rec.word_count = (pySplit rec.raw_text).length
      ∧ rec.char_count = rec.raw_text.length := by
  intro rec hrec
  obtain ⟨pr, hpr, hbuild⟩ := List.mem_filterMap.mp hrec
  unfold pageRecord at hbuild
  by_cases hc : (pyStrip pr.2.raw ≠ [] && (pyStrip pr.2.raw).length > 10) = true
  · rw [if_pos hc] at hbuild
    have hrec' := Option.some.inj hbuild
    subst hrec'
    exact ⟨rfl, rfl⟩
  · rw [if_neg hc] at hbuild
    cases hbuild

/-- Closed instance of the amended claim C7. -/
theorem claim_C7_amended_witness :
    fixRecCounts ∈ extract_text_with_pages [fixPageCounts] ∧
    fixRecCounts.word_count = (pySplit fixRecCounts.raw_text).length ∧
    fixRecCounts.char_count = fixRecCounts.raw_text.length := by
  have hmem : fixRecCounts ∈ extract_text_with_pages [fixPageCounts] := by decide
  exact ⟨hmem, claim_C7_amended [fixPageCounts] fixRecCounts hmem⟩

/-- Claim C7, counterexample: for the page `"aaaa , bbbb"` the produced
record has `char_count = 11` and `word_count = 3`, while its cleaned
`text` field `"aaaa, bbbb"` has length 10 and 2 words — the counts do not
derive from the normalised text. -/
theorem claim_C7_cex :
    extract_text_with_pages [fixPageCounts] = [fixRecCounts]
    ∧ fixRecCounts.char_count ≠ fixRecCounts.text.length
    ∧ fixRecCounts.word_count ≠ (pySplit fixRecCounts.text).length := by
  decide

/-! ## Lemmas on the occurrence scan (claims C8, C4, C5) -/

/-- A boolean prefix implies a length bound. -/
theorem isPrefixOf_length :
    ∀ {l₁ l₂ : List Char}, l₁.isPrefixOf l₂ = true → l₁.length ≤ l₂.length
  | [], _, _ => Nat.zero_le _
  | _ :: _, [], h => by cases h
  | a :: t₁, b :: t₂, h => by
    rw [show (a :: t₁).isPrefixOf (b :: t₂) = ((a == b) && t₁.isPrefixOf t₂) from rfl] at h
    have h2 := ((Bool.and_eq_true _ _) ▸ h).2
    have : t₁.length ≤ t₂.length := isPrefixOf_length h2
    simpa using Nat.succ_le_succ this

/-- An occurrence of a non-empty needle fits inside the haystack. -/
theorem occAt_le_length {hay nl : List Char} {i : Nat} (hnl : nl ≠ [])
    (h : occAt hay nl i = true) : i + nl.length ≤ hay.length := by
  have hlen := isPrefixOf_length h
  rw [List.length_drop] at hlen
  have : 1 ≤ nl.length := by
    cases nl with
    | nil => exact absurd rfl hnl
    | cons a t => simp
  omega

/-- What `findFrom` returns is an occurrence at or after `start`, inside
the haystack. -/
theorem findFrom_some {hay nl : List Char} {start p : Nat}
    (h : findFrom hay nl start = some p) :
    start ≤ p ∧ occAt hay nl p = true ∧ p ≤ hay.length := by
  unfold findFrom at h
  rcases hl : (List.range (hay.length + 1)).filter
      (fun i => decide (start ≤ i) && occAt hay nl i) with _ | ⟨a, t⟩
  · rw [hl] at h; cases h
  · rw [hl] at h
    rw [List.head?_cons] at h
    have hp : p = a := (Option.some.inj h).symm
    subst hp
    have hmem : p ∈ (List.range (hay.length + 1)).filter
        (fun i => decide (start ≤ i) && occAt hay nl i) := by
      rw [hl]; exact List.mem_cons_self _ _
    obtain ⟨hrange, hcond⟩ := List.mem_filter.mp hmem
    have hcond' := (Bool.and_eq_true _ _) ▸ hcond
    refine ⟨by simpa using hcond'.1, hcond'.2, ?_⟩
    have := List.mem_range.mp hrange
    omega

/-- `findFrom` returns the least occurrence at or after `start`. -/
theorem findFrom_least {hay nl : List Char} {start p : Nat}
    (h : findFrom hay nl start = some p) :
    ∀ j, start ≤ j → j < p → occAt hay nl j = false := by
  intro j hstart hlt
  by_contra hocc
  have hocc' : occAt hay nl j = true := by
    cases hoc : occAt hay nl j with
    | false => exact absurd hoc hocc
    | true => rfl
  have hp := findFrom_some h
  have hjrange : j ∈ List.range (hay.length + 1) := List.mem_range.mpr (by omega)
  have hjmem : j ∈ (List.range (hay.length + 1)).filter
      (fun i => decide (start ≤ i) && occAt hay nl i) :=
    List.mem_filter.mpr ⟨hjrange, by simp [hstart, hocc']⟩
  unfold findFrom at h
  rcases hl : (List.range (hay.length + 1)).filter
      (fun i => decide (start ≤ i) && occAt hay nl i) with _ | ⟨a, t⟩
  · rw [hl] at hjmem; cases hjmem
  · rw [hl] at h
    have hpa : a = p := Option.some.inj h
    subst hpa
    have hsorted : ((List.range (hay.length + 1)).filter
        (fun i => decide (start ≤ i) && occAt hay nl i)).Pairwise (· < ·) :=
      (List.pairwise_lt_range _).filter _
    rw [hl] at hsorted
    rw [hl] at hjmem
    rcases List.mem_cons.mp hjmem with hj | hj
    · omega
    · have := (List.rel_of_pairwise_cons hsorted) hj
      omega

/-- When `findFrom` fails there is no occurrence at or after `start`. -/
theorem findFrom_none {hay nl : List Char} {start : Nat}
    (h : findFrom hay nl start = none) :
    ∀ j, start ≤ j → j ≤ hay.length → occAt hay nl j = false := by
  intro j hstart hle
  by_contra hocc
  have hocc' : occAt hay nl j = true := by
    cases hoc : occAt hay nl j with
    | false => exact absurd hoc hocc
    | true => rfl
  unfold findFrom at h
  rw [List.head?_eq_none_iff] at h
  have hjmem : j ∈ (List.range (hay.length + 1)).filter
      (fun i => decide (start ≤ i) && occAt hay nl i) :=
    List.mem_filter.mpr ⟨List.mem_range.mpr (by omega), by simp [hstart, hocc']⟩
  rw [h] at hjmem
  cases hjmem

/-- Every position the scan reports is at or after its start. -/
theorem scanPositions_ge {hay nl : List Char} :
    ∀ fuel start, ∀ i ∈ scanPositions hay nl start fuel, start ≤ i := by
  intro fuel
  induction fuel with
  | zero => intro start i hi; cases hi
  | succ fuel ih =>
    intro start i hi
    unfold scanPositions at hi
    rcases hf : findFrom hay nl start with _ | p
    · rw [hf] at hi; cases hi
    · rw [hf] at hi
      obtain ⟨hstart, _, _⟩ := findFrom_some hf
      rcases List.mem_cons.mp hi with hi | hi
      · omega
      · have := ih (p + 1) i hi
        omega

/-- The scan reports positions in strictly increasing order. -/
theorem scanPositions_sorted {hay nl : List Char} :
    ∀ fuel start, (scanPositions hay nl start fuel).Pairwise (· < ·) := by
  intro fuel
  induction fuel with
  | zero => intro start; exact List.Pairwise.nil
  | succ fuel ih =>
    intro start
    unfold scanPositions
    rcases hf : findFrom hay nl start with _ | p
    · exact List.Pairwise.nil
    · refine List.pairwise_cons.mpr ⟨?_, ih (p + 1)⟩
      intro i hi
      have := scanPositions_ge fuel (p + 1) i hi
      omega

/-- With enough fuel the scan reports exactly the occurrence positions at
or after its start. -/
theorem scanPositions_mem {hay nl : List Char} :
    ∀ fuel start, hay.length + 1 ≤ fuel + start →
      ∀ i, (i ∈ scanPositions hay nl start fuel
        ↔ (start ≤ i ∧ occAt hay nl i = true ∧ i ≤ hay.length)) := by
  intro fuel
  induction fuel with
  | zero =>
    intro start hfuel i
    simp only [scanPositions]
    constructor
    · intro h; cases h
    · intro ⟨h1, _, h3⟩; omega
  | succ fuel ih =>
    intro start hfuel i
    unfold scanPositions
    rcases hf : findFrom hay nl start with _ | p
    · constructor
      · intro h; cases h
      · intro ⟨h1, h2, h3⟩
        have := findFrom_none hf i h1 h3
        rw [this] at h2; cases h2
    · obtain ⟨hps, hpo, hpl⟩ := findFrom_some hf
      have hinv : hay.length + 1 ≤ fuel + (p + 1) := by omega
      constructor
      · intro h
        rcases List.mem_cons.mp h with h | h
        · subst h; exact ⟨hps, hpo, hpl⟩
        · obtain ⟨h1, h2, h3⟩ := (ih (p + 1) hinv i).mp h
          exact ⟨by omega, h2, h3⟩
      · intro ⟨h1, h2, h3⟩
        rcases Nat.lt_or_ge i p with hlt | hge
        · have := findFrom_least hf i h1 hlt
          rw [this] at h2; cases h2
        · rcases Nat.eq_or_lt_of_le hge with heq | hlt
          · exact heq ▸ List.mem_cons_self _ _
          · exact List.mem_cons_of_mem _ ((ih (p + 1) hinv i).mpr ⟨by omega, h2, h3⟩)

/-- The full scan equals the filter of all positions: the `pos + 1`
resumption makes the `while` loop enumerate every occurrence position,
overlapping ones included, in ascending order. -/
theorem scanPositions_eq_filter (hay nl : List Char) :
    scanPositions hay nl 0 (hay.length + 1)
      = (List.range (hay.length + 1)).filter (occAt hay nl) := by
  apply sorted_lt_eq_of_mem_iff (scanPositions_sorted _ _)
    ((List.pairwise_lt_range _).filter _)
  intro i
  rw [scanPositions_mem (hay.length + 1) 0 (by omega) i, List.mem_filter, List.mem_range]
  constructor
  · intro ⟨_, h2, h3⟩; exact ⟨by omega, h2⟩
  · intro ⟨h1, h2⟩; exact ⟨Nat.zero_le _, h2, by omega⟩

/-- `pageOccs` in filter form. -/
theorem pageOccs_spec (text term : List Char) :
    pageOccs text term
      = (List.range (text.length + 1)).filter (occAt (pyLower text) (pyLower term)) := by
  unfold pageOccs
  have hlen : text.length = (pyLower text).length := (List.length_map _ _).symm
  rw [hlen]
  exact scanPositions_eq_filter _ _

/-- Claim C8: for every page text and non-empty term, the left-to-right
scan that resumes at `match_start + 1` reports exactly the set of all
(case-folded) occurrence positions — so occurrences overlapping an
earlier match are still found and counted — in strictly increasing
order. -/
theorem claim_C8 (text term : List Char) (hterm : term ≠ []) :
    (∀ i, i ∈ pageOccs text term ↔ occAt (pyLower text) (pyLower term) i = true)
    ∧ (pageOccs text term).Pairwise (· < ·) := by
  have hnl : pyLower term ≠ [] := by
    cases term with
    | nil => exact absurd rfl hterm
    | cons a t => simp [pyLower]
  constructor
  · intro i
    rw [pageOccs_spec, List.mem_filter, List.mem_range]
    constructor
    · intro ⟨_, h⟩; exact h
    · intro h
      refine ⟨?_, h⟩
      have h1 := occAt_le_length hnl h
      have h2 : (pyLower text).length = text.length := by simp [pyLower]
      rw [h2] at h1
      omega
  · rw [pageOccs_spec]
    exact (List.pairwise_lt_range _).filter _

/-- Closed instance of claim C8: in `"aaa"` the term `"aa"` is found at
positions 0 and 1 — the second occurrence overlaps the first. -/
theorem claim_C8_witness :
    (1 ∈ pageOccs ("aaa".toList) ("aa".toList)
      ↔ occAt (pyLower ("aaa".toList)) (pyLower ("aa".toList)) 1 = true)
    ∧ pageOccs ("aaa".toList) ("aa".toList) = [0, 1] :=
  ⟨(claim_C8 ("aaa".toList) ("aa".toList) (by decide)).1 1, by decide⟩

/-- Python's `in` test succeeds exactly when the needle occurs somewhere. -/
theorem containsSub_iff :
    ∀ (hay nl : List Char), containsSub hay nl = true ↔ ∃ i, occAt hay nl i = true := by
  intro hay
  induction hay with
  | nil =>
    intro nl
    constructor
    · intro h; exact ⟨0, h⟩
    · intro ⟨i, hi⟩
      unfold occAt at hi
      rw [List.drop_nil] at hi
      exact hi
  | cons c rest ih =>
    intro nl
    unfold containsSub
    rw [Bool.or_eq_true]
    constructor
    · rintro (h | h)
      · exact ⟨0, h⟩
      · obtain ⟨j, hj⟩ := (ih nl).mp h
        exact ⟨j + 1, hj⟩
    · rintro ⟨i, hi⟩
      cases i with
      | zero => exact Or.inl hi
      | succ j => exact Or.inr ((ih nl).mpr ⟨j, hi⟩)

/-- What `pageMatch` returns for a matching page, explicitly. -/
theorem pageMatch_eq_some {term : List Char} {page : PageInfo} {mp : MatchingPage}
    (h : pageMatch term page = some mp) :
    containsSub (pyLower page.text) (pyLower term) = true
    ∧ mp.page_number = page.page_number
    ∧ mp.occurrences_count = (pageOccs page.text term).length
    ∧ mp.contexts = ((pageOccs page.text term).map (mkOccurrence page.text term)).take 3
    ∧ mp.word_count = page.word_count ∧ mp.char_count = page.char_count := by
  unfold pageMatch at h
  by_cases hc : containsSub (pyLower page.text) (pyLower term) = true
  · rw [if_pos hc] at h
    have := Option.some.inj h
    subst this
    refine ⟨hc, rfl, ?_, ?_, rfl, rfl⟩
    · simp
    · simp

  · rw [if_neg hc] at h
    cases h

/-- Membership in the search result, unfolded to the matching page list. -/
theorem mem_search_in_pages {pages : List PageInfo} {term : List Char} {mp : MatchingPage}
    (h : mp ∈ search_in_pages pages term) :
    term ≠ [] ∧ ∃ page ∈ pages, pageMatch term page = some mp := by
  unfold search_in_pages at h
  by_cases hguard : (term = [] || pages = []) = true
  · rw [if_pos hguard] at h; cases h
  · rw [if_neg hguard] at h
    have hterm : term ≠ [] := by
      intro he
      exact hguard (by simp [he])
    have hmem : mp ∈ pages.filterMap (pageMatch term) :=
      ((List.mergeSort_perm _ _).mem_iff).mp h
    obtain ⟨page, hpage, hpm⟩ := List.mem_filterMap.mp hmem
    exact ⟨hterm, page, hpage, hpm⟩

/-- Claim C4: `search_in_pages` returns only pages with at least one
occurrence, in ascending `page_number` order; each record's
`occurrences_count` is the true total of (possibly overlapping)
occurrence positions on that page, its `contexts` are the first at most
three occurrences in ascending position order, so
`contexts.length ≤ 3 ≤ occurrences_count` bounds hold. -/
theorem claim_C4 (pages : List PageInfo) (term : List Char) :
    (search_in_pages pages term).Pairwise (fun a b => a.page_number ≤ b.page_number)
    ∧ ∀ mp ∈ search_in_pages pages term,
        1 ≤ mp.occurrences_count
        ∧ mp.contexts.length ≤ 3
        ∧ mp.contexts.length ≤ mp.occurrences_count
        ∧ ∃ page ∈ pages, mp.page_number = page.page_number
            ∧ mp.occurrences_count = ((List.range (page.text.length + 1)).filter
                (occAt (pyLower page.text) (pyLower term))).length
            ∧ mp.contexts = (((List.range (page.text.length + 1)).filter
                (occAt (pyLower page.text) (pyLower term))).map
                  (mkOccurrence page.text term)).take 3
            ∧ ((List.range (page.text.length + 1)).filter
                (occAt (pyLower page.text) (pyLower term))).Pairwise (· < ·) := by
  constructor
  · unfold search_in_pages
    by_cases hguard : (term = [] || pages = []) = true
    · rw [if_pos hguard]; exact List.Pairwise.nil
    · rw [if_neg hguard]
      have hs := @List.sorted_mergeSort MatchingPage
        (fun a b : MatchingPage => decide (a.page_number ≤ b.page_number))
        (fun a b c hab hbc => by
          simp only [decide_eq_true_eq] at hab hbc ⊢; omega)
        (fun a b => by
          simp only [Bool.or_eq_true, decide_eq_true_eq]; omega)
        (pages.filterMap (pageMatch term))
      exact hs.imp (by intro a b h; simpa using h)
  · intro mp hmp
    obtain ⟨hterm, page, hpage, hpm⟩ := mem_search_in_pages hmp
    obtain ⟨hcontains, hnum, hcount, hctx, _, _⟩ := pageMatch_eq_some hpm
    have hnl : pyLower term ≠ [] := by
      cases term with
      | nil => exact absurd rfl hterm
      | cons a t => simp [pyLower]
    have hspec := pageOccs_spec page.text term
    have hpos : 1 ≤ (pageOccs page.text term).length := by
      obtain ⟨i, hi⟩ := (containsSub_iff _ _).mp hcontains
      have hle := occAt_le_length hnl hi
      have hlen : (pyLower page.text).length = page.text.length := by simp [pyLower]
      rw [hlen] at hle
      have himem : i ∈ pageOccs page.text term := by
        rw [hspec]
        exact List.mem_filter.mpr ⟨List.mem_range.mpr (by omega), hi⟩
      have := List.length_pos.mpr (List.ne_nil_of_mem himem)
      omega
    refine ⟨by rw [hcount]; exact hpos, ?_, ?_, page, hpage, hnum, ?_, ?_, ?_⟩
    · rw [hctx, List.length_take, List.length_map]
      omega
    · rw [hctx, hcount, List.length_take, List.length_map]
      omega
    · rw [hcount, hspec]
    · rw [hctx, hspec]
    · rw [← hspec]
      rw [pageOccs_spec]
      exact (List.pairwise_lt_range _).filter _

/-- Closed instance of claim C4 at Scenario A's input. -/
theorem claim_C4_witness :
    (search_in_pages [fixPageHello, fixPageNoMatch] ("hello".toList)).Pairwise
      (fun a b => a.page_number ≤ b.page_number)
    ∧ 1 ≤ fixMatchHello.occurrences_count ∧ fixMatchHello.contexts.length ≤ 3 := by
  have h := claim_C4 [fixPageHello, fixPageNoMatch] ("hello".toList)
  have hmem : fixMatchHello ∈ search_in_pages [fixPageHello, fixPageNoMatch] ("hello".toList) := by
    have heval : [fixPageHello, fixPageNoMatch].filterMap (pageMatch ("hello".toList))
        = [fixMatchHello] := by decide
    unfold search_in_pages
    rw [if_neg (by decide), heval, mergeSort_singleton]
    exact List.mem_cons_self _ _
  obtain ⟨h1, h2⟩ := h
  obtain ⟨ha, hb, _⟩ := h2 fixMatchHello hmem
  exact ⟨h1, ha, hb⟩

/-- Filtering `≠ '*'` drops a leading star. -/
theorem filter_star_cons (l : List Char) :
    (('*' :: l).filter (fun c => c ≠ '*')) = l.filter (fun c => c ≠ '*') := by
  simp

/-- Filtering `≠ '*'` keeps a leading non-star. -/
theorem filter_star_cons_ne {c : Char} (h : c ≠ '*') (l : List Char) :
    ((c :: l).filter (fun c => c ≠ '*')) = c :: l.filter (fun c => c ≠ '*') := by
  simp [List.filter_cons, h]

/-- Erasing the `*` characters of a highlighted text recovers the
original, provided the original held no `*` itself: the highlighter only
inserts marker characters, preserving the matched text's casing. -/
theorem highlightAux_erase (term : List Char) :
    ∀ fuel text, ('*' : Char) ∉ text →
      (highlightAux term fuel text).filter (fun c => c ≠ '*') = text := by
  intro fuel
  induction fuel with
  | zero =>
    intro text hstar
    unfold highlightAux
    rw [List.filter_eq_self]
    intro c hc
    simp only [decide_eq_true_eq]
    intro he
    exact hstar (he ▸ hc)
  | succ fuel ih =>
    intro text hstar
    cases text with
    | nil => rfl
    | cons c rest =>
      unfold highlightAux
      by_cases hm : lowerHeadMatch term (c :: rest) = true
      · rw [if_pos hm]
        rw [filter_star_cons, filter_star_cons, List.filter_append,
          filter_star_cons, filter_star_cons]
        have htake : ((c :: rest).take term.length).filter (fun c => c ≠ '*')
            = (c :: rest).take term.length := by
          rw [List.filter_eq_self]
          intro a ha
          simp only [decide_eq_true_eq]
          intro he
          exact hstar (he ▸ List.take_subset _ _ ha)
        have hdrop : ('*' : Char) ∉ (c :: rest).drop term.length := by
          intro h
          exact hstar (List.drop_subset _ _ h)
        rw [htake, ih _ hdrop, List.take_append_drop]
      · rw [if_neg hm]
        have hc : c ≠ '*' := by
          intro he
          exact hstar (he ▸ List.mem_cons_self _ _)
        rw [filter_star_cons_ne hc, ih rest (fun h => hstar (List.mem_cons_of_mem _ h))]

/-- Erasure for the empty-pattern highlighter. -/
theorem highlightEmpty_erase :
    ∀ text : List Char, ('*' : Char) ∉ text →
      (highlightEmpty text).filter (fun c => c ≠ '*') = text := by
  intro text
  induction text with
  | nil => intro _; rfl
  | cons c rest ih =>
    intro hstar
    unfold highlightEmpty
    have hc : c ≠ '*' := by
      intro he
      exact hstar (he ▸ List.mem_cons_self _ _)
    rw [filter_star_cons, filter_star_cons, filter_star_cons, filter_star_cons,
      filter_star_cons_ne hc, ih (fun h => hstar (List.mem_cons_of_mem _ h))]

/-- Erasure for `_highlight_term` itself. -/
theorem highlight_term_erase (term text : List Char) (h : ('*' : Char) ∉ text) :
    (highlight_term term text).filter (fun c => c ≠ '*') = text := by
  cases term with
  | nil => exact highlightEmpty_erase text h
  | cons a t => exact highlightAux_erase (a :: t) text.length text h

/-- Scenario A evaluated: one matching page, one occurrence, context
`"**Hello** World"`. -/
theorem scenarioA_eval :
    search_in_pages [fixPageHello, fixPageNoMatch] ("hello".toList) = [fixMatchHello] := by
  have heval : [fixPageHello, fixPageNoMatch].filterMap (pageMatch ("hello".toList))
      = [fixMatchHello] := by decide
  unfold search_in_pages
  rw [if_neg (by decide), heval, mergeSort_singleton]

/-- The newline-term case evaluated: one occurrence whose whitespace-collapsed
context no longer contains the term, so nothing is highlighted. -/
theorem nlCase_eval :
    search_in_pages [fixPageNl] ("a\nb".toList) = [fixMatchNl] := by
  have heval : [fixPageNl].filterMap (pageMatch ("a\nb".toList)) = [fixMatchNl] := by decide
  unfold search_in_pages
  rw [if_neg (by decide), heval, mergeSort_singleton]

/-- Claim C5, amended: each retained occurrence's context is the
whitespace-collapsed window of up to 150 characters on each side of the
match (clamped to the page), in which every case-insensitive occurrence
of the term that survives the collapse — possibly none, possibly several —
is wrapped in `**` markers; the markers are the only characters added
(casing preserved), and `snippet_length` measures the collapsed window
before highlighting.  Scenario A returns exactly one match on page 1 with
`occurrences_count = 1` and context `"**Hello** World"`. -/
theorem claim_C5_amended :
    (∀ (pages : List PageInfo) (term : List Char) (mp : MatchingPage),
      mp ∈ search_in_pages pages term →
      ∀ o ∈ mp.contexts, ∃ page ∈ pages,
        mp.page_number = page.page_number
        ∧ occAt (pyLower page.text) (pyLower term) o.position = true
        ∧ o.context = highlight_term term (mkContext page.text term o.position)
        ∧ o.snippet_length = (mkContext page.text term o.position).length
        ∧ (('*' : Char) ∉ mkContext page.text term o.position →
            o.context.filter (fun c => c ≠ '*') = mkContext page.text term o.position))
    ∧ search_in_pages [fixPageHello, fixPageNoMatch] ("hello".toList) = [fixMatchHello] := by
  constructor
  · intro pages term mp hmp o ho
    obtain ⟨hterm, page, hpage, hpm⟩ := mem_search_in_pages hmp
    obtain ⟨hcontains, hnum, hcount, hctx, _, _⟩ := pageMatch_eq_some hpm
    rw [hctx] at ho
    have ho' := List.take_subset _ _ ho
    obtain ⟨pos, hpos, hmk⟩ := List.mem_map.mp ho'
    have hocc : occAt (pyLower page.text) (pyLower term) pos = true := by
      rw [pageOccs_spec] at hpos
      exact (List.mem_filter.mp hpos).2
    subst hmk
    refine ⟨page, hpage, hnum, ?_, ?_, ?_, ?_⟩
    · simpa [mkOccurrence] using hocc
    · simp [mkOccurrence]
    · simp [mkOccurrence]
    · intro hstar
      simp only [mkOccurrence] at hstar ⊢
      exact highlight_term_erase term _ hstar
  · exact scenarioA_eval

/-- Closed instance of the amended claim C5, at Scenario A's single
occurrence. -/
theorem claim_C5_amended_witness :
    ∃ page ∈ [fixPageHello, fixPageNoMatch],
      fixMatchHello.page_number = page.page_number
      ∧ occAt (pyLower page.text) (pyLower ("hello".toList))
          (fixMatchHello.contexts.head (by decide)).position = true := by
  have h := claim_C5_amended
  have hmem : fixMatchHello ∈ search_in_pages [fixPageHello, fixPageNoMatch] ("hello".toList) := by
    rw [h.2]; exact List.mem_cons_self _ _
  obtain ⟨page, hpage, h1, h2, _⟩ :=
    h.1 [fixPageHello, fixPageNoMatch] ("hello".toList) fixMatchHello hmem
      (fixMatchHello.contexts.head (by decide)) (by decide)
  exact ⟨page, hpage, h1, h2⟩

/-- Claim C5, counterexample: for the page `"a\nb"` and term `"a\nb"` the
only occurrence's context is `"a b"` — whitespace collapse destroyed the
match, so the matched substring is wrapped in no highlight marker at all,
refuting "the matched substring wrapped in highlight markers". -/
theorem claim_C5_cex :
    search_in_pages [fixPageNl] ("a\nb".toList) = [fixMatchNl]
    ∧ fixMatchNl.occurrences_count = 1
    ∧ (fixMatchNl.contexts.map (fun o => o.context)) = ["a b".toList]
    ∧ (fixMatchNl.contexts.map (fun o => o.context.contains '*')) = [false] :=
  ⟨nlCase_eval, by decide, by decide, by decide⟩

/-! ## Lemmas on the parent-path walk (claim C9) -/

/-- On the self-cycle graph the walk loop never finishes, whatever the
fuel: each iteration returns to parent id `"A"`. -/
theorem walkCyc_none : ∀ fuel parts, walkParents fetchCyc parts ["A".toList] fuel = none := by
  intro fuel
  induction fuel with
  | zero => intro parts; rfl
  | succ fuel ih =>
    intro parts
    have hstep : walkParents fetchCyc parts ["A".toList] (fuel + 1)
        = walkParents fetchCyc ("a".toList :: parts) ["A".toList] fuel := rfl
    rw [hstep, ih]

/-- Claim C9, counterexample: on a parent graph with a cycle the walk
does not terminate — no amount of fuel finishes the loop — instead of
truncating the path. -/
theorem claim_C9_cex : ¬ walkTerminates fetchCyc ["A".toList] := by
  rintro ⟨fuel, r, h⟩
  rw [walkCyc_none fuel []] at h
  cases h

/-- The walk finishes within `n + 1` iterations whenever a measure drops
strictly along fetched parent links. -/
theorem walk_measure_term (fetch : List Char → Option (List Char × List (List Char)))
    (μ : List Char → Nat)
    (hdec : ∀ pid nm q ps, fetch pid = some (nm, q :: ps) → μ q < μ pid) :
    ∀ (n : Nat) (q : List Char) (rest parts : List (List Char)), μ q ≤ n →
      ∃ out, walkParents fetch parts (q :: rest) (n + 1) = some out := by
  intro n
  induction n with
  | zero =>
    intro q rest parts hq
    rcases hf : fetch q with _ | ⟨nm, ps⟩
    · exact ⟨.httpError, by unfold walkParents; rw [hf]⟩
    · cases ps with
      | nil =>
        exact ⟨.finished (nm :: parts), by unfold walkParents; rw [hf]; rfl⟩
      | cons q' ps' =>
        have := hdec q nm q' ps' hf
        omega
  | succ n ih =>
    intro q rest parts hq
    rcases hf : fetch q with _ | ⟨nm, ps⟩
    · exact ⟨.httpError, by unfold walkParents; rw [hf]⟩
    · cases ps with
      | nil =>
        exact ⟨.finished (nm :: parts), by unfold walkParents; rw [hf]; rfl⟩
      | cons q' ps' =>
        have hlt := hdec q nm q' ps' hf
        obtain ⟨out, hout⟩ := ih q' ps' (nm :: parts) (by omega)
        refine ⟨out, ?_⟩
        have hstep : walkParents fetch parts (q :: rest) (n + 1 + 1)
            = match fetch q with
              | none => some .httpError
              | some (nm, ps) => walkParents fetch (nm :: parts) ps (n + 1) := rfl
        rw [hstep, hf]
        exact hout

/-- Claim C9, amended: the walk builds the `/`-joined path innermost
first (the concrete two-level chain `P1 → P0` resolves to `"/root/sub"`);
a missing parent ends the walk with the truncated path `"/"`; and the
walk terminates whenever the parent graph admits a strictly decreasing
depth measure — but (see the counterexample) a cyclic graph makes the
loop run forever rather than truncate. -/
theorem claim_C9_amended :
    (∀ (fetch : List Char → Option (List Char × List (List Char))) (p : List Char)
        (rest : List (List Char)) (fuel : Nat), fetch p = none →
        get_file_path fetch (p :: rest) (fuel + 1) = some ['/'])
    ∧ (∀ (fetch : List Char → Option (List Char × List (List Char))) (μ : List Char → Nat),
        (∀ pid nm q ps, fetch pid = some (nm, q :: ps) → μ q < μ pid) →
        ∀ parents, ∃ fuel s, get_file_path fetch parents fuel = some s)
    ∧ get_file_path fetchChain ["P1".toList] 2 = some ("/root/sub".toList) := by
  refine ⟨?_, ?_, by decide⟩
  · intro fetch p rest fuel hp
    unfold get_file_path
    rw [if_neg (by simp)]
    have : walkParents fetch [] (p :: rest) (fuel + 1) = some .httpError := by
      unfold walkParents
      rw [hp]
    rw [this]
  · intro fetch μ hdec parents
    cases parents with
    | nil => exact ⟨0, ['/'], by unfold get_file_path; rw [if_pos rfl]⟩
    | cons q rest =>
      obtain ⟨out, hout⟩ := walk_measure_term fetch μ hdec (μ q) q rest [] (Nat.le_refl _)
      refine ⟨μ q + 1, ?_⟩
      unfold get_file_path
      rw [if_neg (by simp), hout]
      cases out with
      | finished parts => exact ⟨_, rfl⟩
      | httpError => exact ⟨['/'], rfl⟩

/-- Closed instance of the amended claim C9: a missing parent yields
`"/"`, and on the one-node graph the walk terminates. -/
theorem claim_C9_amended_witness :
    get_file_path fetchLeaf ["Z".toList] 1 = some ['/']
    ∧ ∃ fuel s, get_file_path fetchLeaf ["B".toList] fuel = some s := by
  have hvac : ∀ pid nm q ps, fetchLeaf pid = some (nm, q :: ps) → (fun _ => 0) q < (fun _ => 0) pid := by
    intro pid nm q ps h
    unfold fetchLeaf at h
    by_cases hp : pid = "B".toList
    · rw [if_pos hp] at h
      cases Option.some.inj h
    · rw [if_neg hp] at h
      cases h
  exact ⟨claim_C9_amended.1 fetchLeaf ("Z".toList) [] 0 (by decide),
    claim_C9_amended.2.1 fetchLeaf (fun _ => 0) hvac ["B".toList]⟩

/-! ## Lemmas on the ingestion batch (claim C1) -/

/-- The documents a batch builds are exactly counted by the per-candidate
build outcomes: failed candidates contribute nothing. -/
theorem docsLoop_length (env : DriveEnv) (fuel : Nat) :
    ∀ (files : List FileInfo) (docs : List Document),
      docsLoop env fuel files = some docs →
      docs.length = (files.filter (buildsDoc env fuel)).length := by
  intro files
  induction files with
  | nil =>
    intro docs h
    have : docs = [] := (Option.some.inj h).symm
    subst this
    rfl
  | cons fi rest ih =>
    intro docs h
    unfold docsLoop at h
    rcases hc : create_document_from_file env fuel fi with _ | ⟨_ | d⟩
    · rw [hc] at h; cases h
    · rw [hc] at h
      have hb : buildsDoc env fuel fi = false := by
        unfold buildsDoc; rw [hc]
      rw [List.filter_cons, hb]
      exact ih docs h
    · rw [hc] at h
      rcases hrest : docsLoop env fuel rest with _ | docs'
      · rw [hrest] at h; cases h
      · rw [hrest] at h
        have hdocs : docs = d :: docs' := (Option.some.inj h).symm
        subst hdocs
        have hb : buildsDoc env fuel fi = true := by
          unfold buildsDoc; rw [hc]
        rw [List.filter_cons, hb]
        simp only [List.length_cons]
        rw [ih docs' hrest]
        simp

/-- Claim C1, amended: a candidate whose download fails builds no
document and is dropped from the batch before counting, so the completed
batch reports `total_documents` = number of successfully built documents
(not the number of candidates) and `indexed_documents` = number the
backend accepted; in the 3-candidate scenario with one failed download
and an accepting backend the report is `total = 2, indexed = 2` — the
batch completes rather than failing. -/
theorem claim_C1_amended :
    (∀ (env : DriveEnv) (fuel : Nat) (files : List FileInfo) (backend : Document → Bool)
        (docs : List Document), docsLoop env fuel files = some docs →
        index_documents env fuel files backend
          = some { total_documents := docs.length
                   indexed_documents := (docs.filter backend).length }
        ∧ docs.length = (files.filter (buildsDoc env fuel)).length)
    ∧ (∀ (env : DriveEnv) (fuel : Nat) (fi : FileInfo), env.download fi.id = none →
        buildsDoc env fuel fi = false)
    ∧ index_documents fixDriveEnv 1 [fixFile1, fixFile2, fixFile3] (fun _ => true)
      = some { total_documents := 2, indexed_documents := 2 } := by
  refine ⟨?_, ?_, by decide⟩
  · intro env fuel files backend docs h
    constructor
    · unfold index_documents
      rw [h]
    · exact docsLoop_length env fuel files docs h
  · intro env fuel fi h
    unfold buildsDoc create_document_from_file
    rw [h]

/-- Closed instance of the amended claim C1 on the 3-candidate batch. -/
theorem claim_C1_amended_witness :
    index_documents fixDriveEnv 1 [fixFile1, fixFile2, fixFile3] (fun _ => true)
      = some { total_documents := 2, indexed_documents := 2 }
    ∧ (2 : Nat) = ([fixFile1, fixFile2, fixFile3].filter (buildsDoc fixDriveEnv 1)).length
    ∧ buildsDoc fixDriveEnv 1 fixFile2 = false := by
  have h := claim_C1_amended.1 fixDriveEnv 1 [fixFile1, fixFile2, fixFile3]
    (fun _ => true) [fixDoc1, fixDoc3] (by decide)
  refine ⟨?_, ?_, claim_C1_amended.2.1 fixDriveEnv 1 fixFile2 (by decide)⟩
  · rw [h.1]; decide
  · exact h.2

/-- Claim C1, counterexample: in the batch of 3 candidates where
candidate 2's download fails and the other two index successfully, the
completed batch reports `total_documents = 2` (the failed candidate is
not counted as attempted), not the claimed `attempted = 3`. -/
theorem claim_C1_cex :
    index_documents fixDriveEnv 1 [fixFile1, fixFile2, fixFile3] (fun _ => true)
      = some { total_documents := 2, indexed_documents := 2 }
    ∧ index_documents fixDriveEnv 1 [fixFile1, fixFile2, fixFile3] (fun _ => true)
      ≠ some { total_documents := 3, indexed_documents := 2 } := by
  constructor
  · decide
  · decide

/-! ## The Elasticsearch binding (claim C10) -/

/-- Claim C10: every public operation of the Elasticsearch binding is
exception-free: on any raised client error, `index_document`,
`delete_document` and `document_exists` return `false` and `search`
returns `[]`; a backend-down client and a soft-failing client are
observationally identical on all four operations. -/
theorem claim_C10 :
    (∀ (env : EsEnv) (d : Document), env.indexResp d = .raised →
      es_index_document env d = false)
    ∧ (∀ (env : EsEnv) (i : List Char), env.deleteResp i = .raised →
      es_delete_document env i = false)
    ∧ (∀ (env : EsEnv) (i : List Char), env.existsResp i = .raised →
      es_document_exists env i = false)
    ∧ (∀ (env : EsEnv) (q : List Char) (size : Nat),
      env.searchResp (buildSearchBody q size) = .raised → es_search env q size = [])
    ∧ (∀ d, es_index_document fixEsDown d = es_index_document fixEsNoop d)
    ∧ (∀ i, es_delete_document fixEsDown i = es_delete_document fixEsNoop i)
    ∧ (∀ i, es_document_exists fixEsDown i = es_document_exists fixEsNoop i)
    ∧ (∀ q size, es_search fixEsDown q size = es_search fixEsNoop q size) := by
  refine ⟨?_, ?_, ?_, ?_, ?_, ?_, ?_, ?_⟩
  · intro env d h; unfold es_index_document; rw [h]
  · intro env i h; unfold es_delete_document; rw [h]
  · intro env i h; unfold es_document_exists; rw [h]
  · intro env q size h; unfold es_search; rw [h]
  · intro d; rfl
  · intro i; rfl
  · intro i; rfl
  · intro q size; rfl

/-- Closed instance of claim C10 on the backend-down client. -/
theorem claim_C10_witness :
    es_index_document fixEsDown fixDoc = false
    ∧ es_delete_document fixEsDown ("d1".toList) = false
    ∧ es_document_exists fixEsDown ("d1".toList) = false
    ∧ es_search fixEsDown ("q".toList) 10 = [] :=
  ⟨claim_C10.1 fixEsDown fixDoc rfl,
   claim_C10.2.1 fixEsDown ("d1".toList) rfl,
   claim_C10.2.2.1 fixEsDown ("d1".toList) rfl,
   claim_C10.2.2.2.1 fixEsDown ("q".toList) 10 rfl⟩

/-! ## Cleaning idempotence (claim C3): generic list lemmas -/

/-- `contains` agrees with membership on characters. -/
theorem contains_iff {l : List Char} {c : Char} : l.contains c = true ↔ c ∈ l :=
  List.elem_iff

/-- Dropping the length of the whitespace run is `dropWhile`. -/
theorem drop_takeWhile_length (p : Char → Bool) :
    ∀ l : List Char, l.drop (l.takeWhile p).length = l.dropWhile p := by
  intro l
  induction l with
  | nil => rfl
  | cons a rest ih =>
    by_cases hp : p a = true
    · simp only [List.takeWhile_cons, hp, if_pos, List.dropWhile_cons, List.length_cons,
        List.drop_succ_cons]
      exact ih
    · simp only [List.takeWhile_cons, List.dropWhile_cons, hp]
      simp

/-- A list all of whose characters satisfy `p` is its own `takeWhile`. -/
theorem takeWhile_all {p : Char → Bool} :
    ∀ {l : List Char}, (∀ c ∈ l, p c = true) → l.takeWhile p = l := by
  intro l
  induction l with
  | nil => intro _; rfl
  | cons a rest ih =>
    intro h
    rw [List.takeWhile_cons, if_pos (h a (List.mem_cons_self _ _))]
    rw [ih (fun c hc => h c (List.mem_cons_of_mem _ hc))]

/-- The whitespace run of `u ++ x :: v` is `u` when `u` is all-`p` and
`x` fails `p`. -/
theorem takeWhile_all_append {p : Char → Bool} {u : List Char} {x : Char} (v : List Char)
    (hu : ∀ c ∈ u, p c = true) (hx : p x = false) :
    (u ++ x :: v).takeWhile p = u := by
  induction u with
  | nil => simp [List.takeWhile_cons, hx]
  | cons a u' ih =>
    rw [List.cons_append, List.takeWhile_cons, if_pos (hu a (List.mem_cons_self _ _))]
    rw [ih (fun c hc => hu c (List.mem_cons_of_mem _ hc))]

/-- `takeWhile` does not look past the first failing character. -/
theorem takeWhile_stop {p : Char → Bool} {x : Char} (hx : p x = false) :
    ∀ (u v : List Char), (u ++ x :: v).takeWhile p = (u ++ [x]).takeWhile p := by
  intro u
  induction u with
  | nil => intro v; simp [List.takeWhile_cons, hx]
  | cons a u' ih =>
    intro v
    by_cases hp : p a = true
    · simp only [List.cons_append, List.takeWhile_cons, hp, if_pos]
      rw [ih v]
    · simp only [List.cons_append, List.takeWhile_cons, hp]
      simp

/-- Nor does the head after the whitespace run. -/
theorem drop_run_head_stop {p : Char → Bool} {x : Char} (hx : p x = false) :
    ∀ (u v : List Char),
      ((u ++ x :: v).drop ((u ++ x :: v).takeWhile p).length).head?
        = ((u ++ [x]).drop ((u ++ [x]).takeWhile p).length).head? := by
  intro u
  induction u with
  | nil =>
    intro v
    simp [List.takeWhile_cons, hx]
  | cons a u' ih =>
    intro v
    by_cases hp : p a = true
    · simp only [List.cons_append, List.takeWhile_cons, hp, if_pos, List.length_cons,
        List.drop_succ_cons]
      exact ih v
    · simp only [List.cons_append, List.takeWhile_cons, hp]
      simp

/-- `chainOK` unfolded one step. -/
theorem chainOK_cons (p : Char → Char → Bool) (a : Char) (l : List Char) :
    chainOK p (a :: l) = (headOK p a l && chainOK p l) := by
  cases l with
  | nil => rfl
  | cons b rest => rfl

/-- `chainOK` restricted to a suffix. -/
theorem chainOK_append_right {p : Char → Char → Bool} :
    ∀ {u v : List Char}, chainOK p (u ++ v) = true → chainOK p v = true := by
  intro u
  induction u with
  | nil => intro v h; exact h
  | cons a u' ih =>
    intro v h
    rw [List.cons_append, chainOK_cons] at h
    exact ih (((Bool.and_eq_true _ _) ▸ h).2)

/-- `chainOK` restricted to a prefix. -/
theorem chainOK_append_left {p : Char → Char → Bool} :
    ∀ {u v : List Char}, chainOK p (u ++ v) = true → chainOK p u = true := by
  intro u
  induction u with
  | nil => intro v _; rfl
  | cons a u' ih =>
    intro v h
    rw [List.cons_append, chainOK_cons] at h
    have h' := (Bool.and_eq_true _ _) ▸ h
    rw [chainOK_cons]
    refine (Bool.and_eq_true _ _).symm ▸ ⟨?_, ih h'.2⟩
    cases u' with
    | nil => rfl
    | cons b u'' =>
      exact h'.1

/-- `chainOK` of a list split at a distinguished element. -/
theorem chainOK_split (p : Char → Char → Bool) (x : Char) :
    ∀ (u v : List Char),
      chainOK p (u ++ x :: v) = (chainOK p (u ++ [x]) && chainOK p (x :: v)) := by
  intro u
  induction u with
  | nil =>
    intro v
    simp only [List.nil_append]
    have h1 : chainOK p [x] = true := rfl
    rw [h1, Bool.true_and]
  | cons a u' ih =>
    intro v
    rw [List.cons_append, List.cons_append, chainOK_cons, chainOK_cons, ih v]
    have hhead : headOK p a (u' ++ x :: v) = headOK p a (u' ++ [x]) := by
      cases u' with
      | nil => rfl
      | cons b u'' => rfl
    rw [hhead, Bool.and_assoc]

/-- `ok2` restricted to a suffix. -/
theorem ok2_append_right :
    ∀ {u v : List Char}, ok2 (u ++ v) = true → ok2 v = true := by
  intro u
  induction u with
  | nil => intro v h; exact h
  | cons a u' ih =>
    intro v h
    rw [List.cons_append, show ok2 (a :: (u' ++ v)) = (ok2cond a (u' ++ v) && ok2 (u' ++ v)) from rfl] at h
    exact ih (((Bool.and_eq_true _ _) ▸ h).2)

/-- `ok5` restricted to a suffix. -/
theorem ok5_append_right :
    ∀ {u v : List Char}, ok5 (u ++ v) = true → ok5 v = true := by
  intro u
  induction u with
  | nil => intro v h; exact h
  | cons a u' ih =>
    intro v h
    rw [List.cons_append, show ok5 (a :: (u' ++ v)) = (ok5cond a (u' ++ v) && ok5 (u' ++ v)) from rfl] at h
    exact ih (((Bool.and_eq_true _ _) ▸ h).2)

/-- `ok2cond` only inspects the following whitespace run. -/
theorem ok2cond_stop {x : Char} (hx : isWS x = false) (c : Char) (u v : List Char) :
    ok2cond c (u ++ x :: v) = ok2cond c (u ++ [x]) := by
  unfold ok2cond
  rw [takeWhile_stop hx u v]

/-- `ok5cond` only inspects the run and the character after it. -/
theorem ok5cond_stop {x : Char} (hx : isWS x = false) (c : Char) (u v : List Char) :
    ok5cond c (u ++ x :: v) = ok5cond c (u ++ [x]) := by
  unfold ok5cond
  rw [drop_run_head_stop hx u v, takeWhile_stop hx u v]

/-- `ok2` of a list split at a non-whitespace element. -/
theorem ok2_split {x : Char} (hx : isWS x = false) :
    ∀ (u v : List Char), ok2 (u ++ x :: v) = (ok2 (u ++ [x]) && ok2 (x :: v)) := by
  intro u
  induction u with
  | nil =>
    intro v
    simp only [List.nil_append]
    show (ok2cond x v && ok2 v) = ((ok2cond x [] && ok2 []) && (ok2cond x v && ok2 v))
    have hcx : ok2cond x v = true := by
      unfold ok2cond
      rw [if_neg (by intro he; rw [he] at hx; exact absurd hx (by decide))]
    have hcx0 : ok2cond x [] = true := by
      unfold ok2cond
      rw [if_neg (by intro he; rw [he] at hx; exact absurd hx (by decide))]
    rw [hcx, hcx0]
    simp [ok2]
  | cons a u' ih =>
    intro v
    rw [List.cons_append, List.cons_append]
    show (ok2cond a (u' ++ x :: v) && ok2 (u' ++ x :: v))
      = ((ok2cond a (u' ++ [x]) && ok2 (u' ++ [x])) && ok2 (x :: v))
    rw [ok2cond_stop hx a u' v, ih v, Bool.and_assoc]

/-- An upper-case letter is not whitespace. -/
theorem upper_not_ws {c : Char} (h : isUpperAZ c = true) : isWS c = false := by
  cases hw : isWS c with
  | false => rfl
  | true =>
    exfalso
    simp only [isWS, Bool.or_eq_true, decide_eq_true_eq] at hw
    rcases hw with ((((rfl | rfl) | rfl) | rfl) | rfl) | rfl <;> exact absurd h (by decide)

/-- A sentence terminator is not whitespace. -/
theorem sentEnd_not_ws {c : Char} (h : isSentEnd c = true) : isWS c = false := by
  simp only [isSentEnd, Bool.or_eq_true, decide_eq_true_eq] at h
  rcases h with (rfl | rfl) | rfl <;> rfl

/-- A sentence terminator is not a newline. -/
theorem sentEnd_ne_nl {c : Char} (h : isSentEnd c = true) : c ≠ '\n' := by
  simp only [isSentEnd, Bool.or_eq_true, decide_eq_true_eq] at h
  rcases h with (rfl | rfl) | rfl <;> decide

/-- A space-or-tab character that is not a tab is a space. -/
theorem sptab_not_tab {c : Char} (h : isSpTab c = true) (ht : c ≠ '\t') : c = ' ' := by
  simp only [isSpTab, Bool.or_eq_true, decide_eq_true_eq] at h
  rcases h with rfl | rfl
  · rfl
  · exact absurd rfl ht

/-- In a chain over `u ++ c :: v` with `u` non-empty, `c` has a
predecessor in `u` it forms a pair with. -/
theorem chainOK_last {p : Char → Char → Bool} :
    ∀ (u : List Char) (c : Char) (v : List Char), u ≠ [] →
      chainOK p (u ++ c :: v) = true → ∃ a ∈ u, p a c = true := by
  intro u
  induction u with
  | nil => intro c v h; exact absurd rfl h
  | cons a u' ih =>
    intro c v _ h
    cases u' with
    | nil =>
      have h' : (p a c && chainOK p (c :: v)) = true := h
      exact ⟨a, List.mem_cons_self _ _, ((Bool.and_eq_true _ _) ▸ h').1⟩
    | cons b u'' =>
      rw [List.cons_append, chainOK_cons] at h
      obtain ⟨x, hx, hp⟩ := ih c v (by simp) (((Bool.and_eq_true _ _) ▸ h).2)
      exact ⟨x, List.mem_cons_of_mem _ hx, hp⟩

/-- `dropWhile` never lengthens a list. -/
theorem dropWhile_length_le (p : Char → Bool) (l : List Char) :
    (l.dropWhile p).length ≤ l.length := by
  conv_rhs => rw [← List.takeWhile_append_dropWhile (p := p) (l := l)]
  rw [List.length_append]
  omega

/-- `ok5` of a list split at a non-whitespace element. -/
theorem ok5_split {x : Char} (hx : isWS x = false) :
    ∀ (u v : List Char), ok5 (u ++ x :: v) = (ok5 (u ++ [x]) && ok5 (x :: v)) := by
  intro u
  induction u with
  | nil =>
    intro v
    simp only [List.nil_append]
    have h1 : ok5 [x] = true := by
      show (ok5cond x [] && ok5 []) = true
      have hc : ok5cond x [] = true := by
        unfold ok5cond
        by_cases hs : isSentEnd x = true
        · rw [if_pos hs]; rfl
        · rw [if_neg hs]
      rw [hc]
      rfl
    rw [h1, Bool.true_and]
  | cons a u' ih =>
    intro v
    rw [List.cons_append, List.cons_append]
    show (ok5cond a (u' ++ x :: v) && ok5 (u' ++ x :: v))
      = ((ok5cond a (u' ++ [x]) && ok5 (u' ++ [x])) && ok5 (x :: v))
    rw [ok5cond_stop hx a u' v, ih v, Bool.and_assoc]

/-! ## Fixed points of the individual cleaning rules -/

/-- A string with no tab and no adjacent space pair passes rule 1
unchanged (in either scanner state, provided the incoming state is
consistent with the head). -/
theorem subSpTabAux_fix :
    ∀ l, noTab l = true → chainOK pDbl l = true →
      subSpTabAux false l = l
      ∧ (headOK pDbl ' ' l = true → subSpTabAux true l = l) := by
  intro l
  induction l with
  | nil => exact fun _ _ => ⟨rfl, fun _ => rfl⟩
  | cons c rest ih =>
    intro htab hch
    have htab' : noTab rest = true := by
      simp only [noTab, List.all_cons] at htab
      exact (((Bool.and_eq_true _ _) ▸ htab)).2
    have hc : c ≠ '\t' := by
      simp only [noTab, List.all_cons] at htab
      have := (((Bool.and_eq_true _ _) ▸ htab)).1
      simpa using this
    rw [chainOK_cons] at hch
    have hch' := (Bool.and_eq_true _ _) ▸ hch
    obtain ⟨ihf, iht⟩ := ih htab' hch'.2
    constructor
    · show subSpTabAux false (c :: rest) = c :: rest
      by_cases hsp : isSpTab c = true
      · have hcsp : c = ' ' := sptab_not_tab hsp hc
        subst hcsp
        show (if isSpTab ' ' then
          (if false then subSpTabAux true rest else ' ' :: subSpTabAux true rest)
          else ' ' :: subSpTabAux false rest) = ' ' :: rest
        rw [if_pos (by decide), if_neg (by simp)]
        rw [iht hch'.1]
      · show (if isSpTab c then
          (if false then subSpTabAux true rest else ' ' :: subSpTabAux true rest)
          else c :: subSpTabAux false rest) = c :: rest
        rw [if_neg (by simp [hsp]), ihf]
    · intro hhead
      have hnsp : isSpTab c = false := by
        cases hs : isSpTab c with
        | false => rfl
        | true =>
          exfalso
          simp only [headOK, pDbl, hs, Bool.and_true] at hhead
          exact absurd hhead (by decide)
      show (if isSpTab c then
        (if true then subSpTabAux true rest else ' ' :: subSpTabAux true rest)
        else c :: subSpTabAux false rest) = c :: rest
      rw [if_neg (by simp [hnsp]), ihf]

/-- Rule 1 fixed point. -/
theorem subSpTab_fix {l : List Char} (htab : noTab l = true) (hch : chainOK pDbl l = true) :
    subSpTab l = l :=
  (subSpTabAux_fix l htab hch).1

/-- Rule 3 fixed point: no newline-space pair, nothing to delete. -/
theorem subNlSpace_fix : ∀ l, chainOK pNlSp l = true → subNlSpace l = l := by
  intro l
  induction l using subNlSpace.induct with
  | case1 rest ih =>
    intro h
    have h' : (pNlSp '\n' ' ' && chainOK pNlSp (' ' :: rest)) = true := h
    exact absurd (((Bool.and_eq_true _ _) ▸ h')).1 (by decide)
  | case2 c rest hne ih =>
    intro h
    rw [chainOK_cons] at h
    have heq : subNlSpace (c :: rest) = c :: subNlSpace rest := by
      simp only [subNlSpace]
    rw [heq, ih (((Bool.and_eq_true _ _) ▸ h)).2]
  | case3 => intro _; rfl

/-- Rule 4 fixed point, with pending state: no whitespace-punctuation
adjacency, nothing to delete. -/
theorem subWsPunctAux_fix :
    ∀ (l pend : List Char), (∀ c ∈ pend, isWS c = true) →
      chainOK pWsP (pend ++ l) = true →
      subWsPunctAux pend l = pend ++ l := by
  intro l
  induction l with
  | nil => intro pend _ _; show pend = pend ++ []; simp
  | cons c rest ih =>
    intro pend hpend hch
    show (if isWS c then subWsPunctAux (pend ++ [c]) rest
      else if isPunctC c && !(pend = []) then c :: subWsPunctAux [] rest
      else pend ++ c :: subWsPunctAux [] rest) = pend ++ c :: rest
    by_cases hws : isWS c = true
    · rw [if_pos hws]
      have : subWsPunctAux (pend ++ [c]) rest = (pend ++ [c]) ++ rest := by
        apply ih
        · intro a ha
          rcases List.mem_append.mp ha with h | h
          · exact hpend a h
          · rw [List.mem_singleton.mp h]; exact hws
        · rw [List.append_assoc]; simpa using hch
      rw [this, List.append_assoc]
      rfl
    · rw [if_neg (by simp [hws])]
      have hrest : chainOK pWsP (c :: rest) = true := chainOK_append_right hch
      have hfix : subWsPunctAux [] rest = rest := by
        apply ih [] (by intro a ha; cases ha)
        rw [List.nil_append]
        rw [chainOK_cons] at hrest
        exact (((Bool.and_eq_true _ _) ▸ hrest)).2
      by_cases hpc : (isPunctC c && !(pend = [])) = true
      · exfalso
        have hpc' := (Bool.and_eq_true _ _) ▸ hpc
        have hpend_ne : pend ≠ [] := by simpa using hpc'.2
        obtain ⟨a, ha, hpa⟩ := chainOK_last pend c rest hpend_ne hch
        simp only [pWsP, hpend a ha, hpc'.1] at hpa
        simpa using hpa
      · rw [if_neg hpc, hfix]

/-- Rule 4 fixed point. -/
theorem subWsPunct_fix {l : List Char} (hch : chainOK pWsP l = true) :
    subWsPunct l = l := by
  have := subWsPunctAux_fix l [] (by intro a ha; cases ha) (by simpa using hch)
  simpa using this

/-- Rule 2 bridge: the scanner in pending state resolves on the whole
following whitespace run at once. -/
theorem subNlRunAux_bridge :
    ∀ (l w : List Char), (∀ c ∈ w, isWS c = true) →
      subNlRunAux (some w) l =
        (if (w ++ l.takeWhile isWS).contains '\n'
         then '\n' :: '\n' :: afterLastNl (w ++ l.takeWhile isWS)
         else '\n' :: (w ++ l.takeWhile isWS))
        ++ subNlRunAux none (l.dropWhile isWS) := by
  intro l
  induction l with
  | nil =>
    intro w hw
    show (if w.contains '\n' then '\n' :: '\n' :: afterLastNl w else '\n' :: w)
      = (if (w ++ [].takeWhile isWS).contains '\n'
         then '\n' :: '\n' :: afterLastNl (w ++ [].takeWhile isWS)
         else '\n' :: (w ++ [].takeWhile isWS)) ++ subNlRunAux none ([].dropWhile isWS)
    rw [show subNlRunAux none ([].dropWhile isWS) = [] from rfl]
    simp
  | cons c rest ih =>
    intro w hw
    by_cases hws : isWS c = true
    · show (if isWS c then subNlRunAux (some (w ++ [c])) rest
        else if w.contains '\n' then
          '\n' :: '\n' :: (afterLastNl w ++ c :: subNlRunAux none rest)
        else '\n' :: (w ++ c :: subNlRunAux none rest))
        = _
      rw [if_pos hws]
      have hw' : ∀ a ∈ w ++ [c], isWS a = true := by
        intro a ha
        rcases List.mem_append.mp ha with h | h
        · exact hw a h
        · rw [List.mem_singleton.mp h]; exact hws
      rw [ih (w ++ [c]) hw']
      rw [List.takeWhile_cons, List.dropWhile_cons, hws]
      simp only [if_true, List.append_assoc, List.singleton_append]
    · have hws' : isWS c = false := by
        cases h : isWS c
        · rfl
        · exact absurd h hws
      show (if isWS c then subNlRunAux (some (w ++ [c])) rest
        else if w.contains '\n' then
          '\n' :: '\n' :: (afterLastNl w ++ c :: subNlRunAux none rest)
        else '\n' :: (w ++ c :: subNlRunAux none rest))
        = _
      rw [if_neg hws, List.takeWhile_cons, List.dropWhile_cons, hws']
      have hstep : subNlRunAux none (c :: rest) = c :: subNlRunAux none rest := by
        show (if c = '\n' then subNlRunAux (some []) rest else c :: subNlRunAux none rest)
          = c :: subNlRunAux none rest
        rw [if_neg (by intro he; rw [he] at hws'; exact absurd hws' (by decide))]
      simp only [Bool.false_eq_true, if_false]
      rw [hstep, List.append_nil]
      by_cases hnl : w.contains '\n' = true
      · rw [if_pos hnl, if_pos hnl]
        simp [List.append_assoc]
      · rw [if_neg hnl, if_neg hnl]
        simp [List.append_assoc]

/-- The suffix after the last newline of `'\n' :: u` is `u` itself when
`u` holds no newline. -/
theorem afterLastNl_cons_noNl {u : List Char} (h : ('\n' : Char) ∉ u) :
    afterLastNl ('\n' :: u) = u := by
  unfold afterLastNl
  rw [List.reverse_cons]
  rw [takeWhile_all_append ([] : List Char) (fun c hc => by
    simp only [decide_eq_true_eq]
    intro he
    exact h (by rw [← he]; exact List.mem_reverse.mp hc)) (by simp)]
  · simp

/-- Rule 2 fixed point. -/
theorem subNlRun_fix : ∀ n l, l.length ≤ n → ok2 l = true → subNlRunAux none l = l := by
  intro n
  induction n with
  | zero =>
    intro l hl _
    have : l = [] := List.length_eq_zero.mp (by omega)
    subst this
    rfl
  | succ n ih =>
    intro l hl hok
    cases l with
    | nil => rfl
    | cons c rest =>
      have hok' := (Bool.and_eq_true _ _) ▸ (hok : (ok2cond c rest && ok2 rest) = true)
      by_cases hnl : c = '\n'
      · subst hnl
        show (if ('\n' : Char) = '\n' then subNlRunAux (some []) rest
          else '\n' :: subNlRunAux none rest) = '\n' :: rest
        rw [if_pos rfl]
        rw [subNlRunAux_bridge rest [] (by intro a ha; cases ha)]
        simp only [List.nil_append]
        have hrest_eq : rest.takeWhile isWS ++ rest.dropWhile isWS = rest :=
          List.takeWhile_append_dropWhile _ _
        have hdrop_fix : subNlRunAux none (rest.dropWhile isWS) = rest.dropWhile isWS := by
          apply ih
          · have := dropWhile_length_le isWS rest
            simp only [List.length_cons] at hl
            omega
          · have : ok2 (rest.takeWhile isWS ++ rest.dropWhile isWS) = true := by
              rw [hrest_eq]; exact hok'.2
            exact ok2_append_right this
        have hcond : ok2cond '\n' rest = true := hok'.1
        unfold ok2cond at hcond
        rw [if_pos rfl] at hcond
        rcases (Bool.or_eq_true _ _) ▸ hcond with hno | hyes
        · have hno' : (rest.takeWhile isWS).contains '\n' = false := by simpa using hno
          rw [if_neg (by rw [hno']; simp), hdrop_fix, List.cons_append, hrest_eq]
        · have hyes' := (Bool.and_eq_true _ _) ▸ hyes
          rcases htw : rest.takeWhile isWS with _ | ⟨a, tl⟩
          · rw [htw] at hyes'
            exact absurd hyes'.1 (by simp)
          · have ha : a = '\n' := by
              rw [htw] at hyes'
              have := hyes'.1
              simpa using this
            subst ha
            have htl : ('\n' : Char) ∉ tl := by
              rw [htw] at hyes'
              have := hyes'.2
              simp only [List.tail_cons] at this
              intro hm
              rw [show tl.contains '\n' = true from contains_iff.mpr hm] at this
              simpa using this
            have hcontains : ('\n' :: tl).contains '\n' = true :=
              contains_iff.mpr (List.mem_cons_self _ _)
            rw [if_pos hcontains, afterLastNl_cons_noNl htl, hdrop_fix]
            have hre : ('\n' :: tl) ++ rest.dropWhile isWS = rest := by
              rw [← htw]
              exact hrest_eq
            rw [show ('\n' :: '\n' :: tl) ++ rest.dropWhile isWS
              = '\n' :: (('\n' :: tl) ++ rest.dropWhile isWS) from rfl, hre]
      · show (if c = '\n' then subNlRunAux (some []) rest
          else c :: subNlRunAux none rest) = c :: rest
        rw [if_neg hnl]
        have : rest.length ≤ n := by
          simp only [List.length_cons] at hl
          omega
        rw [ih rest this hok'.2]

/-- Rule 5 fixed point, in either scanner state. -/
theorem subSentUpperAux_fix :
    ∀ n l, l.length ≤ n →
      (ok5 l = true → subSentUpperAux none l = l)
      ∧ (∀ s pend, (∀ c ∈ pend, isWS c = true) → isSentEnd s = true →
          ok5 (s :: (pend ++ l)) = true →
          subSentUpperAux (some (s, pend)) l = s :: (pend ++ l)) := by
  intro n
  induction n with
  | zero =>
    intro l hl
    have : l = [] := List.length_eq_zero.mp (by omega)
    subst this
    refine ⟨fun _ => rfl, fun s pend _ _ _ => ?_⟩
    show s :: pend = s :: (pend ++ [])
    rw [List.append_nil]
  | succ n ih =>
    intro l hl
    constructor
    · intro hok
      cases l with
      | nil => rfl
      | cons c rest =>
        have hrest : rest.length ≤ n := by
          simp only [List.length_cons] at hl; omega
        have hok' := (Bool.and_eq_true _ _) ▸ (hok : (ok5cond c rest && ok5 rest) = true)
        by_cases hs : isSentEnd c = true
        · show (if isSentEnd c then subSentUpperAux (some (c, [])) rest
            else c :: subSentUpperAux none rest) = c :: rest
          rw [if_pos hs]
          have := (ih rest hrest).2 c [] (by intro a ha; cases ha) hs (by simpa using hok)
          simpa using this
        · show (if isSentEnd c then subSentUpperAux (some (c, [])) rest
            else c :: subSentUpperAux none rest) = c :: rest
          rw [if_neg hs, (ih rest hrest).1 hok'.2]
    · intro s pend hpend hsent hok
      cases l with
      | nil =>
        show s :: pend = s :: (pend ++ [])
        rw [List.append_nil]
      | cons c rest =>
        have hrest : rest.length ≤ n := by
          simp only [List.length_cons] at hl; omega
        have hsuffix : ok5 (c :: rest) = true := by
          have : ok5 ((s :: pend) ++ (c :: rest)) = true := by simpa using hok
          exact ok5_append_right this
        have hok5rest : ok5 rest = true :=
          (((Bool.and_eq_true _ _) ▸ (hsuffix : (ok5cond c rest && ok5 rest) = true))).2
        by_cases hws : isWS c = true
        · show (if isWS c then subSentUpperAux (some (s, pend ++ [c])) rest
            else if isUpperAZ c then s :: ' ' :: c :: subSentUpperAux none rest
            else if isSentEnd c then s :: (pend ++ subSentUpperAux (some (c, [])) rest)
            else s :: (pend ++ c :: subSentUpperAux none rest)) = s :: (pend ++ c :: rest)
          rw [if_pos hws]
          have hpend' : ∀ a ∈ pend ++ [c], isWS a = true := by
            intro a ha
            rcases List.mem_append.mp ha with h | h
            · exact hpend a h
            · rw [List.mem_singleton.mp h]; exact hws
          have := (ih rest hrest).2 s (pend ++ [c]) hpend' hsent
            (by rw [List.append_assoc]; simpa using hok)
          rw [this, List.append_assoc]
          rfl
        · have hws' : isWS c = false := by
            cases h : isWS c
            · rfl
            · exact absurd h hws
          show (if isWS c then subSentUpperAux (some (s, pend ++ [c])) rest
            else if isUpperAZ c then s :: ' ' :: c :: subSentUpperAux none rest
            else if isSentEnd c then s :: (pend ++ subSentUpperAux (some (c, [])) rest)
            else s :: (pend ++ c :: subSentUpperAux none rest)) = s :: (pend ++ c :: rest)
          rw [if_neg hws]
          by_cases hup : isUpperAZ c = true
          · rw [if_pos hup]
            have hcond : ok5cond s (pend ++ c :: rest) = true :=
              (((Bool.and_eq_true _ _) ▸
                (hok : (ok5cond s (pend ++ c :: rest) && ok5 (pend ++ c :: rest)) = true))).1
            unfold ok5cond at hcond
            rw [if_pos hsent, takeWhile_all_append (v := rest) hpend hws'] at hcond
            rw [show ((pend ++ c :: rest).drop pend.length) = c :: rest from
              List.drop_left pend (c :: rest)] at hcond
            rw [List.head?_cons] at hcond
            have hpend_sp : pend = [' '] := by
              have := hcond
              simp only [hup, if_pos] at this
              simpa using this
            subst hpend_sp
            rw [(ih rest hrest).1 hok5rest]
            rfl
          · rw [if_neg hup]
            by_cases hsc : isSentEnd c = true
            · rw [if_pos hsc]
              have := (ih rest hrest).2 c [] (by intro a ha; cases ha) hsc
                (by simpa using hsuffix)
              rw [this]
              simp
            · rw [if_neg hsc, (ih rest hrest).1 hok5rest]


/-- Rule 5 fixed point. -/
theorem subSentUpper_fix {l : List Char} (hok : ok5 l = true) : subSentUpper l = l :=
  (subSentUpperAux_fix l.length l (Nat.le_refl _)).1 hok

/-- `dropWhile` is the identity when the head already fails the test. -/
theorem dropWhile_eq_self_of_head {l : List Char} (h : headNotWS l = true) :
    l.dropWhile isWS = l := by
  cases l with
  | nil => rfl
  | cons c rest =>
    have hc : isWS c = false := by
      simp only [headNotWS] at h
      simpa using h
    rw [List.dropWhile_cons, hc]
    simp

/-- Strip fixed point: a string with non-whitespace ends is unchanged. -/
theorem pyStrip_fix {l : List Char} (h1 : headNotWS l = true)
    (h2 : headNotWS l.reverse = true) : pyStrip l = l := by
  unfold pyStrip
  rw [dropWhile_eq_self_of_head h1, dropWhile_eq_self_of_head h2, List.reverse_reverse]

/-! ## What rule 1 establishes -/

/-- Whether a list starts with a space-or-tab character. -/
def headNoSpTab : List Char → Bool
  | [] => true
  | c :: _ => !isSpTab c

/-- After rule 1 processes inside a run, the next emitted character is
not a space or tab. -/
theorem subSpTabAux_headTrue : ∀ l, headNoSpTab (subSpTabAux true l) = true := by
  intro l
  induction l with
  | nil => rfl
  | cons c rest ih =>
    show headNoSpTab (if isSpTab c then
      (if true then subSpTabAux true rest else ' ' :: subSpTabAux true rest)
      else c :: subSpTabAux false rest) = true
    by_cases hc : isSpTab c = true
    · rw [if_pos hc, if_pos rfl]
      exact ih
    · rw [if_neg hc]
      show (!isSpTab c) = true
      simp [hc]

/-- Rule 1 output has no tab. -/
theorem subSpTabAux_noTab : ∀ (l : List Char) (b : Bool), noTab (subSpTabAux b l) = true := by
  intro l
  induction l with
  | nil => intro b; rfl
  | cons c rest ih =>
    intro b
    show noTab (if isSpTab c then
      (if b then subSpTabAux true rest else ' ' :: subSpTabAux true rest)
      else c :: subSpTabAux false rest) = true
    by_cases hc : isSpTab c = true
    · rw [if_pos hc]
      cases b with
      | true => rw [if_pos rfl]; exact ih true
      | false =>
        rw [if_neg (by simp)]
        have h1 := ih true
        simp only [noTab] at h1
        rw [List.all_eq_true] at h1
        simp only [noTab, List.all_cons, Bool.and_eq_true, List.all_eq_true,
          decide_eq_true_eq]
        exact ⟨by decide, fun x hx => by simpa using h1 x hx⟩
    · rw [if_neg hc]
      have hct : c ≠ '\t' := by
        intro he
        rw [he] at hc
        exact hc (by decide)
      have h0 := ih false
      simp only [noTab] at h0
      rw [List.all_eq_true] at h0
      simp only [noTab, List.all_cons, Bool.and_eq_true, List.all_eq_true,
        decide_eq_true_eq]
      exact ⟨hct, fun x hx => by simpa using h0 x hx⟩

/-- Rule 1 output has no adjacent space-or-tab pair. -/
theorem subSpTabAux_chain : ∀ (l : List Char) (b : Bool),
    chainOK pDbl (subSpTabAux b l) = true := by
  intro l
  induction l with
  | nil => intro b; rfl
  | cons c rest ih =>
    intro b
    show chainOK pDbl (if isSpTab c then
      (if b then subSpTabAux true rest else ' ' :: subSpTabAux true rest)
      else c :: subSpTabAux false rest) = true
    by_cases hc : isSpTab c = true
    · rw [if_pos hc]
      cases b with
      | true => rw [if_pos rfl]; exact ih true
      | false =>
        rw [if_neg (by simp), chainOK_cons]
        have hhead : headOK pDbl ' ' (subSpTabAux true rest) = true := by
          have := subSpTabAux_headTrue rest
          cases hout : subSpTabAux true rest with
          | nil => rfl
          | cons d out =>
            rw [hout] at this
            show pDbl ' ' d = true
            simp only [headNoSpTab] at this
            simp only [pDbl]
            rw [show isSpTab d = false by simpa using this]
            simp
        rw [hhead, ih true]
        rfl
    · rw [if_neg hc, chainOK_cons]
      have hhead : headOK pDbl c (subSpTabAux false rest) = true := by
        cases hout : subSpTabAux false rest with
        | nil => rfl
        | cons d out =>
          show pDbl c d = true
          simp only [pDbl]
          rw [show isSpTab c = false by simpa using hc]
          simp
      rw [hhead, ih false]
      rfl

/-! ## What rule 2 establishes and preserves -/

/-- A list without newlines trivially satisfies rule 2's condition. -/
theorem ok2_noNl_append :
    ∀ (u : List Char), (∀ a ∈ u, a ≠ '\n') → ∀ out, ok2 out = true →
      ok2 (u ++ out) = true := by
  intro u
  induction u with
  | nil => intro _ out h; exact h
  | cons a u' ih =>
    intro ha out hout
    show (ok2cond a (u' ++ out) && ok2 (u' ++ out)) = true
    have hcond : ok2cond a (u' ++ out) = true := by
      unfold ok2cond
      rw [if_neg (ha a (List.mem_cons_self _ _))]
    rw [hcond, ih (fun x hx => ha x (List.mem_cons_of_mem _ hx)) out hout]
    rfl

/-- A list without newlines satisfies `ok2`. -/
theorem ok2_of_noNl (l : List Char) (h : ∀ a ∈ l, a ≠ '\n') : ok2 l = true := by
  have := ok2_noNl_append l h [] rfl
  simpa using this

/-- The head of `dropWhile` fails the test. -/
theorem head_dropWhile_false (p : Char → Bool) :
    ∀ (l : List Char) {c : Char} {rest : List Char},
      l.dropWhile p = c :: rest → p c = false := by
  intro l
  induction l with
  | nil => intro c rest h; cases h
  | cons a l' ih =>
    intro c rest h
    rw [List.dropWhile_cons] at h
    by_cases hp : p a = true
    · rw [if_pos hp] at h
      exact ih h
    · rw [if_neg hp] at h
      have : a = c := (List.cons.injEq _ _ _ _ ▸ h).1
      subst this
      cases hpa : p a with
      | false => rfl
      | true => exact absurd hpa hp

/-- `afterLastNl` is a suffix of its argument. -/
theorem afterLastNl_decomp (w : List Char) : ∃ v, v ++ afterLastNl w = w := by
  refine ⟨(w.reverse.dropWhile (fun c => c ≠ '\n')).reverse, ?_⟩
  unfold afterLastNl
  rw [← List.reverse_append, List.takeWhile_append_dropWhile, List.reverse_reverse]

/-- Members of `afterLastNl` are members. -/
theorem afterLastNl_mem {w : List Char} {x : Char} (h : x ∈ afterLastNl w) : x ∈ w := by
  obtain ⟨v, hv⟩ := afterLastNl_decomp w
  rw [← hv]
  exact List.mem_append.mpr (Or.inr h)

/-- `afterLastNl` holds no newline. -/
theorem afterLastNl_noNl (w : List Char) : ∀ x ∈ afterLastNl w, x ≠ '\n' := by
  intro x hx
  unfold afterLastNl at hx
  have := List.mem_takeWhile_imp (List.mem_reverse.mp hx)
  simpa using this

/-- `headOK` only depends on the head. -/
theorem headOK_congr {p : Char → Char → Bool} {a : Char} {l₁ l₂ : List Char}
    (h : l₁.head? = l₂.head?) : headOK p a l₁ = headOK p a l₂ := by
  cases l₁ with
  | nil =>
    cases l₂ with
    | nil => rfl
    | cons b t => simp at h
  | cons b t =>
    cases l₂ with
    | nil => simp at h
    | cons b' t' =>
      simp only [List.head?_cons, Option.some.injEq] at h
      subst h
      rfl

/-- Rule 2 keeps the head of the text. -/
theorem subNlRun_head : ∀ l : List Char, (subNlRunAux none l).head? = l.head? := by
  intro l
  cases l with
  | nil => rfl
  | cons c rest =>
    by_cases hc : c = '\n'
    · subst hc
      show (subNlRunAux (some []) rest).head? = _
      rw [subNlRunAux_bridge rest [] (by intro a ha; cases ha)]
      simp only [List.nil_append]
      by_cases hnl : (rest.takeWhile isWS).contains '\n' = true
      · rw [if_pos hnl]
        rfl
      · rw [if_neg hnl]
        rfl
    · show (if c = '\n' then subNlRunAux (some []) rest
        else c :: subNlRunAux none rest).head? = _
      rw [if_neg hc]
      rfl

/-- A list whose head fails the test has an empty `takeWhile`. -/
theorem takeWhile_eq_nil_of_head {p : Char → Bool} {l : List Char}
    (h : ∀ c, l.head? = some c → p c = false) : l.takeWhile p = [] := by
  cases l with
  | nil => rfl
  | cons a t =>
    rw [List.takeWhile_cons, h a rfl]
    simp

/-- Rule 2's resolved block satisfies `ok2` in front of any `ok2` text
that starts with no whitespace. -/
theorem ok2_resolution (W out : List Char) (hW : ∀ c ∈ W, isWS c = true)
    (htw : out.takeWhile isWS = []) (hout : ok2 out = true) :
    ok2 ((if W.contains '\n' then '\n' :: '\n' :: afterLastNl W else '\n' :: W) ++ out)
      = true := by
  have hWtw : ∀ (u : List Char), (∀ c ∈ u, isWS c = true) →
      (u ++ out).takeWhile isWS = u := by
    intro u hu
    rw [List.takeWhile_append]
    rw [takeWhile_all hu]
    simp [htw]
  by_cases hnl : W.contains '\n' = true
  · rw [if_pos hnl]
    have hA := afterLastNl_noNl W
    have hAws : ∀ c ∈ afterLastNl W, isWS c = true :=
      fun c hc => hW c (afterLastNl_mem hc)
    show (ok2cond '\n' ('\n' :: (afterLastNl W ++ out))
      && ok2 ('\n' :: (afterLastNl W ++ out))) = true
    have hc1 : ok2cond '\n' ('\n' :: (afterLastNl W ++ out)) = true := by
      unfold ok2cond
      rw [if_pos rfl]
      have : (('\n' :: (afterLastNl W ++ out))).takeWhile isWS
          = '\n' :: afterLastNl W := by
        rw [show ('\n' :: (afterLastNl W ++ out)) = ('\n' :: afterLastNl W) ++ out from rfl]
        exact hWtw ('\n' :: afterLastNl W) (by
          intro c hc
          rcases List.mem_cons.mp hc with rfl | hc
          · rfl
          · exact hAws c hc)
      rw [this]
      have hcontains : ('\n' :: afterLastNl W).contains '\n' = true :=
        contains_iff.mpr (List.mem_cons_self _ _)
      rw [hcontains]
      have htail : (('\n' :: afterLastNl W).tail).contains '\n' = false := by
        simp only [List.tail_cons]
        cases hc : (afterLastNl W).contains '\n' with
        | false => rfl
        | true => exact absurd rfl (hA '\n' (contains_iff.mp hc))
      rw [List.tail_cons] at htail ⊢
      rw [htail]
      simp
    rw [hc1]
    have hc2 : ok2cond '\n' (afterLastNl W ++ out) = true := by
      unfold ok2cond
      rw [if_pos rfl, hWtw (afterLastNl W) hAws]
      cases hc : (afterLastNl W).contains '\n' with
      | false => simp
      | true => exact absurd rfl (hA '\n' (contains_iff.mp hc))
    show (ok2cond '\n' (afterLastNl W ++ out) && ok2 (afterLastNl W ++ out)) = true
    rw [hc2, ok2_noNl_append (afterLastNl W) hA out hout]
    rfl
  · rw [if_neg hnl]
    have hWnl : ∀ a ∈ W, a ≠ '\n' := by
      intro a ha he
      subst he
      exact hnl (contains_iff.mpr ha)
    show (ok2cond '\n' (W ++ out) && ok2 (W ++ out)) = true
    have hc : ok2cond '\n' (W ++ out) = true := by
      unfold ok2cond
      rw [if_pos rfl, hWtw W hW]
      rw [show W.contains '\n' = false by
        cases hc : W.contains '\n' with
        | false => rfl
        | true => exact absurd rfl (hWnl '\n' (contains_iff.mp hc))]
      simp
    rw [hc, ok2_noNl_append W hWnl out hout]
    rfl

/-- Rule 2's output satisfies `ok2`: collapsed newline runs are exactly
the shape rule 2 leaves alone. -/
theorem subNlRun_ok2 : ∀ n l, l.length ≤ n → ok2 (subNlRunAux none l) = true := by
  intro n
  induction n with
  | zero =>
    intro l hl
    have : l = [] := List.length_eq_zero.mp (by omega)
    subst this
    rfl
  | succ n ih =>
    intro l hl
    cases l with
    | nil => rfl
    | cons c rest =>
      by_cases hc : c = '\n'
      · subst hc
        show ok2 (subNlRunAux (some []) rest) = true
        rw [subNlRunAux_bridge rest [] (by intro a ha; cases ha)]
        simp only [List.nil_append]
        apply ok2_resolution
        · intro a ha
          exact List.mem_takeWhile_imp ha
        · apply takeWhile_eq_nil_of_head
          intro d hd
          rw [subNlRun_head] at hd
          rcases hr : rest.dropWhile isWS with _ | ⟨x, t⟩
          · rw [hr] at hd; cases hd
          · rw [hr] at hd
            rw [List.head?_cons] at hd
            have : x = d := Option.some.inj hd
            subst this
            exact head_dropWhile_false isWS rest hr
        · apply ih
          have h1 := dropWhile_length_le isWS rest
          simp only [List.length_cons] at hl
          omega
      · show ok2 (if c = '\n' then subNlRunAux (some []) rest
          else c :: subNlRunAux none rest) = true
        rw [if_neg hc]
        show (ok2cond c (subNlRunAux none rest) && ok2 (subNlRunAux none rest)) = true
        have hcond : ok2cond c (subNlRunAux none rest) = true := by
          unfold ok2cond
          rw [if_neg hc]
        rw [hcond, ih rest (by simp only [List.length_cons] at hl; omega)]
        rfl

/-- Pair chains transfer along an append when the appended tail changes
but keeps its head and its own chain. -/
theorem chainOK_append_congr {p : Char → Char → Bool} :
    ∀ (u : List Char) {v₁ v₂ : List Char}, chainOK p (u ++ v₁) = true →
      v₁.head? = v₂.head? → chainOK p v₂ = true → chainOK p (u ++ v₂) = true := by
  intro u
  induction u with
  | nil => intro v₁ v₂ _ _ h2; exact h2
  | cons a u' ih =>
    intro v₁ v₂ h hhead h2
    rw [List.cons_append, chainOK_cons] at h ⊢
    have h' := (Bool.and_eq_true _ _) ▸ h
    have hho : headOK p a (u' ++ v₂) = headOK p a (u' ++ v₁) := by
      apply headOK_congr
      cases u' with
      | nil => exact hhead.symm
      | cons b u'' => rfl
    rw [hho, h'.1, ih h'.2 hhead h2]
    rfl

/-- Rule 2's resolved block keeps a pair chain, for pair conditions that
never constrain what follows a newline. -/
theorem chainOK_resolution {p : Char → Char → Bool} (hp : ∀ b, p '\n' b = true)
    (W out : List Char) (h : chainOK p ('\n' :: (W ++ out)) = true) :
    chainOK p ((if W.contains '\n' then '\n' :: '\n' :: afterLastNl W else '\n' :: W) ++ out)
      = true := by
  by_cases hnl : W.contains '\n' = true
  · rw [if_pos hnl]
    obtain ⟨v, hv⟩ := afterLastNl_decomp W
    have htail : chainOK p (afterLastNl W ++ out) = true := by
      have h1 : chainOK p (W ++ out) = true := by
        have := chainOK_cons p '\n' (W ++ out) ▸ h
        exact (((Bool.and_eq_true _ _) ▸ this)).2
      rw [← hv, List.append_assoc] at h1
      exact chainOK_append_right h1
    show chainOK p ('\n' :: '\n' :: (afterLastNl W ++ out)) = true
    rw [chainOK_cons, chainOK_cons]
    rw [show headOK p '\n' ('\n' :: (afterLastNl W ++ out)) = true from hp '\n']
    rw [show headOK p '\n' (afterLastNl W ++ out) = true by
      cases hA : afterLastNl W ++ out with
      | nil => rfl
      | cons d t => exact hp d]
    rw [htail]
    rfl
  · rw [if_neg hnl]
    exact h

/-- Rule 2 preserves any pair chain whose condition never constrains what
follows a newline (no-tab pairs, no-double-space pairs). -/
theorem subNlRun_chain {p : Char → Char → Bool} (hp : ∀ b, p '\n' b = true) :
    ∀ n l, l.length ≤ n → chainOK p l = true →
      chainOK p (subNlRunAux none l) = true := by
  intro n
  induction n with
  | zero =>
    intro l hl _
    have : l = [] := List.length_eq_zero.mp (by omega)
    subst this
    rfl
  | succ n ih =>
    intro l hl hch
    cases l with
    | nil => rfl
    | cons c rest =>
      rw [chainOK_cons] at hch
      have hch' := (Bool.and_eq_true _ _) ▸ hch
      by_cases hc : c = '\n'
      · subst hc
        show chainOK p (subNlRunAux (some []) rest) = true
        rw [subNlRunAux_bridge rest [] (by intro a ha; cases ha)]
        simp only [List.nil_append]
        apply chainOK_resolution hp
        have hsplit : rest.takeWhile isWS ++ rest.dropWhile isWS = rest :=
          List.takeWhile_append_dropWhile _ _
        have hfix : chainOK p (subNlRunAux none (rest.dropWhile isWS)) = true := by
          apply ih
          · have := dropWhile_length_le isWS rest
            simp only [List.length_cons] at hl
            omega
          · have : chainOK p (rest.takeWhile isWS ++ rest.dropWhile isWS) = true := by
              rw [hsplit]; exact hch'.2
            exact chainOK_append_right this
        rw [chainOK_cons]
        rw [show headOK p '\n'
          (rest.takeWhile isWS ++ subNlRunAux none (rest.dropWhile isWS)) = true by
          cases hA : rest.takeWhile isWS ++ subNlRunAux none (rest.dropWhile isWS) with
          | nil => rfl
          | cons d t => exact hp d]
        have := @chainOK_append_congr p (rest.takeWhile isWS)
          (rest.dropWhile isWS) (subNlRunAux none (rest.dropWhile isWS))
          (by
            rw [hsplit]
            exact hch'.2)
          (subNlRun_head _).symm hfix
        rw [this]
        rfl
      · show chainOK p (if c = '\n' then subNlRunAux (some []) rest
          else c :: subNlRunAux none rest) = true
        rw [if_neg hc, chainOK_cons]
        rw [headOK_congr (subNlRun_head rest), hch'.1,
          ih rest (by simp only [List.length_cons] at hl; omega) hch'.2]
        rfl

/-- Every character rule 2 emits is an input character or a newline. -/
theorem subNlRun_mem : ∀ n l, l.length ≤ n →
    ∀ c ∈ subNlRunAux none l, c ∈ l ∨ c = '\n' := by
  intro n
  induction n with
  | zero =>
    intro l hl c hc
    have : l = [] := List.length_eq_zero.mp (by omega)
    subst this
    cases hc
  | succ n ih =>
    intro l hl c hc
    cases l with
    | nil => cases hc
    | cons a rest =>
      by_cases ha : a = '\n'
      · subst ha
        rw [show subNlRunAux none ('\n' :: rest) = subNlRunAux (some []) rest from rfl,
          subNlRunAux_bridge rest [] (by intro x hx; cases hx)] at hc
        simp only [List.nil_append] at hc
        have hrun : ∀ x ∈ rest.takeWhile isWS, x ∈ rest :=
          fun x hx => List.takeWhile_subset _ hx
        rcases List.mem_append.mp hc with hr | ho
        · by_cases hnl : (rest.takeWhile isWS).contains '\n' = true
          · rw [if_pos hnl] at hr
            rcases List.mem_cons.mp hr with rfl | hr
            · exact Or.inr rfl
            · rcases List.mem_cons.mp hr with rfl | hr
              · exact Or.inr rfl
              · exact Or.inl (List.mem_cons_of_mem _ (hrun c (afterLastNl_mem hr)))
          · rw [if_neg hnl] at hr
            rcases List.mem_cons.mp hr with rfl | hr
            · exact Or.inr rfl
            · exact Or.inl (List.mem_cons_of_mem _ (hrun c hr))
        · have hlen : (rest.dropWhile isWS).length ≤ n := by
            have := dropWhile_length_le isWS rest
            simp only [List.length_cons] at hl
            omega
          rcases ih (rest.dropWhile isWS) hlen c ho with h | h
          · exact Or.inl (List.mem_cons_of_mem _ (List.dropWhile_subset _ h))
          · exact Or.inr h
      · rw [show subNlRunAux none (a :: rest)
          = (if a = '\n' then subNlRunAux (some []) rest
             else a :: subNlRunAux none rest) from rfl, if_neg ha] at hc
        rcases List.mem_cons.mp hc with rfl | hc
        · exact Or.inl (List.mem_cons_self _ _)
        · rcases ih rest (by simp only [List.length_cons] at hl; omega) c hc with h | h
          · exact Or.inl (List.mem_cons_of_mem _ h)
          · exact Or.inr h

/-- Rule 2 preserves tab-freeness. -/
theorem subNlRun_noTab {l : List Char} (h : noTab l = true) :
    noTab (subNlRunAux none l) = true := by
  simp only [noTab, List.all_eq_true] at h ⊢
  intro c hc
  rcases subNlRun_mem l.length l (Nat.le_refl _) c hc with hm | hm
  · exact h c hm
  · subst hm; decide

/-! ## What rule 3 establishes and preserves -/

/-- Rule 3 passes over a character that is not a newline. -/
theorem subNlSpace_cons_ne {c : Char} (h : c ≠ '\n') (t : List Char) :
    subNlSpace (c :: t) = c :: subNlSpace t :=
  subNlSpace.eq_2 c t (fun _ hc _ => h hc)

/-- Rule 3 passes over a newline not followed by a space. -/
theorem subNlSpace_nl_ne {d : Char} (h : d ≠ ' ') (t : List Char) :
    subNlSpace ('\n' :: d :: t) = '\n' :: subNlSpace (d :: t) :=
  subNlSpace.eq_2 '\n' (d :: t) (fun _ _ hr => h (by injection hr))

/-- Rule 3 keeps the head of the text. -/
theorem subNlSpace_head (l : List Char) : (subNlSpace l).head? = l.head? := by
  cases l with
  | nil => rfl
  | cons c t =>
    by_cases hc : c = '\n'
    · subst hc
      cases t with
      | nil => rfl
      | cons d t' =>
        by_cases hd : d = ' '
        · subst hd; rfl
        · rw [subNlSpace_nl_ne hd]; rfl
    · rw [subNlSpace_cons_ne hc]; rfl

/-- Rule 3 only deletes characters. -/
theorem subNlSpace_mem : ∀ l, ∀ c ∈ subNlSpace l, c ∈ l := by
  intro l
  induction l using subNlSpace.induct with
  | case1 rest ih =>
    intro c hc
    rcases List.mem_cons.mp hc with rfl | hc
    · exact List.mem_cons_self _ _
    · exact List.mem_cons_of_mem _ (List.mem_cons_of_mem _ (ih c hc))
  | case2 a rest hne ih =>
    intro c hc
    rw [subNlSpace.eq_2 a rest hne] at hc
    rcases List.mem_cons.mp hc with rfl | hc
    · exact List.mem_cons_self _ _
    · exact List.mem_cons_of_mem _ (ih c hc)
  | case3 => intro c hc; cases hc

/-- Rule 3 preserves tab-freeness. -/
theorem subNlSpace_noTab {l : List Char} (h : noTab l = true) :
    noTab (subNlSpace l) = true := by
  simp only [noTab, List.all_eq_true] at h ⊢
  exact fun c hc => h c (subNlSpace_mem l c hc)

/-- Rule 3 preserves any pair chain whose condition never constrains what
follows a newline. -/
theorem subNlSpace_chain {p : Char → Char → Bool} (hp : ∀ b, p '\n' b = true) :
    ∀ l, chainOK p l = true → chainOK p (subNlSpace l) = true := by
  intro l
  induction l using subNlSpace.induct with
  | case1 rest ih =>
    intro h
    rw [chainOK_cons] at h
    have h' := (Bool.and_eq_true _ _) ▸ h
    have h'' := (Bool.and_eq_true _ _) ▸ (chainOK_cons p ' ' rest ▸ h'.2)
    show chainOK p ('\n' :: subNlSpace rest) = true
    rw [chainOK_cons]
    rw [show headOK p '\n' (subNlSpace rest) = true by
      cases subNlSpace rest with
      | nil => rfl
      | cons d t => exact hp d]
    rw [ih h''.2]
    rfl
  | case2 a rest hne ih =>
    intro h
    rw [chainOK_cons] at h
    have h' := (Bool.and_eq_true _ _) ▸ h
    rw [subNlSpace.eq_2 a rest hne, chainOK_cons,
      headOK_congr (subNlSpace_head rest), h'.1, ih h'.2]
    rfl
  | case3 => intro _; rfl

/-- Rule 3 leaves no space directly after a newline, given no adjacent
space-or-tab pair. -/
theorem subNlSpace_pNlSp :
    ∀ l, chainOK pDbl l = true → chainOK pNlSp (subNlSpace l) = true := by
  intro l
  induction l using subNlSpace.induct with
  | case1 rest ih =>
    intro h
    rw [chainOK_cons] at h
    have h' := (Bool.and_eq_true _ _) ▸ h
    have h'' := (Bool.and_eq_true _ _) ▸ (chainOK_cons pDbl ' ' rest ▸ h'.2)
    show chainOK pNlSp ('\n' :: subNlSpace rest) = true
    rw [chainOK_cons]
    rw [show headOK pNlSp '\n' (subNlSpace rest) = true by
      have hh := subNlSpace_head rest
      cases hsr : subNlSpace rest with
      | nil => rfl
      | cons d t =>
        rw [hsr] at hh
        show pNlSp '\n' d = true
        have hd : d ≠ ' ' := by
          cases rest with
          | nil => cases hh
          | cons e rest' =>
            have : d = e := by
              simp only [List.head?_cons, Option.some.injEq] at hh
              exact hh
            subst this
            have : pDbl ' ' d = true := h''.1
            simp only [pDbl, Bool.not_eq_true', Bool.and_eq_false_iff] at this
            rcases this with h1 | h1
            · exact absurd h1 (by decide)
            · intro he; subst he; exact absurd h1 (by decide)
        simp [pNlSp, hd]]
    rw [ih h''.2]
    rfl
  | case2 a rest hne ih =>
    intro h
    rw [chainOK_cons] at h
    have h' := (Bool.and_eq_true _ _) ▸ h
    rw [subNlSpace.eq_2 a rest hne, chainOK_cons]
    rw [show headOK pNlSp a (subNlSpace rest) = true by
      have hh := subNlSpace_head rest
      cases hsr : subNlSpace rest with
      | nil => rfl
      | cons d t =>
        show pNlSp a d = true
        by_cases ha : a = '\n'
        · subst ha
          rw [hsr] at hh
          have hd : d ≠ ' ' := by
            cases rest with
            | nil => cases hh
            | cons e rest' =>
              have : d = e := by
                simp only [List.head?_cons, Option.some.injEq] at hh
                exact hh
              subst this
              intro he
              exact hne rest' rfl (by rw [he])
          simp [pNlSp, hd]
        · simp [pNlSp, ha]]
    rw [ih h'.2]
    rfl
  | case3 => intro _; rfl

/-- Rule 3 commutes past a newline-free prefix. -/
theorem subNlSpace_append_noNl :
    ∀ (W : List Char), (∀ c ∈ W, c ≠ '\n') → ∀ X,
      subNlSpace (W ++ X) = W ++ subNlSpace X := by
  intro W
  induction W with
  | nil => intro _ X; rfl
  | cons w W' ih =>
    intro h X
    rw [List.cons_append, subNlSpace_cons_ne (h w (List.mem_cons_self _ _)),
      ih (fun c hc => h c (List.mem_cons_of_mem _ hc)) X, List.cons_append]

/-- Rule 3's action at a newline whose following whitespace run holds no
newline: at most one space is deleted, and the remaining run survives as
the output run. -/
theorem subNlSpace_shape (rest : List Char)
    (hnl : (rest.takeWhile isWS).contains '\n' = false) :
    ∃ S, (∀ c ∈ S, isWS c = true) ∧ (∀ c ∈ S, c ≠ '\n') ∧
      subNlSpace ('\n' :: rest) = '\n' :: (S ++ subNlSpace (rest.dropWhile isWS)) ∧
      (S ++ subNlSpace (rest.dropWhile isWS)).takeWhile isWS = S := by
  have hR : ∀ c ∈ rest.takeWhile isWS, c ≠ '\n' := by
    intro c hc he
    subst he
    have h2 := contains_iff.mpr hc
    rw [hnl] at h2
    exact absurd h2 (by decide)
  have hRws : ∀ c ∈ rest.takeWhile isWS, isWS c = true :=
    fun c hc => List.mem_takeWhile_imp hc
  have htw0 : (subNlSpace (rest.dropWhile isWS)).takeWhile isWS = [] := by
    apply takeWhile_eq_nil_of_head
    intro d hd
    rw [subNlSpace_head] at hd
    rcases hr : rest.dropWhile isWS with _ | ⟨x, t⟩
    · rw [hr] at hd; cases hd
    · rw [hr] at hd
      have : x = d := Option.some.inj (List.head?_cons ▸ hd)
      subst this
      exact head_dropWhile_false isWS rest hr
  have htwS : ∀ (S : List Char), (∀ c ∈ S, isWS c = true) →
      (S ++ subNlSpace (rest.dropWhile isWS)).takeWhile isWS = S := by
    intro S hS
    rw [List.takeWhile_append, takeWhile_all hS]
    simp [htw0]
  cases rest with
  | nil =>
    refine ⟨[], ?_, ?_, rfl, htw0⟩
    · intro c hc; cases hc
    · intro c hc; cases hc
  | cons d t =>
    by_cases hdws : isWS d = true
    · have hmemd : d ∈ (d :: t).takeWhile isWS := by
        rw [List.takeWhile_cons, if_pos hdws]
        exact List.mem_cons_self _ _
      have hdrop : (d :: t).dropWhile isWS = t.dropWhile isWS := by
        rw [List.dropWhile_cons, if_pos hdws]
      have htT : ∀ c ∈ t.takeWhile isWS, c ∈ (d :: t).takeWhile isWS := by
        intro c hc
        rw [List.takeWhile_cons, if_pos hdws]
        exact List.mem_cons_of_mem _ hc
      by_cases hd : d = ' '
      · subst hd
        refine ⟨t.takeWhile isWS, fun c hc => List.mem_takeWhile_imp hc,
          fun c hc => hR c (htT c hc), ?_, ?_⟩
        · rw [show subNlSpace ('\n' :: ' ' :: t) = '\n' :: subNlSpace t from rfl, hdrop]
          have : subNlSpace t
              = t.takeWhile isWS ++ subNlSpace (t.dropWhile isWS) := by
            rw [show subNlSpace (t.dropWhile isWS)
                = subNlSpace (t.dropWhile isWS) from rfl]
            have := subNlSpace_append_noNl (t.takeWhile isWS)
              (fun c hc => hR c (htT c hc)) (t.dropWhile isWS)
            rw [List.takeWhile_append_dropWhile] at this
            exact this
          rw [this]
        · rw [hdrop]
          exact htwS _ (fun c hc => List.mem_takeWhile_imp hc)
      · refine ⟨(d :: t).takeWhile isWS, hRws, hR, ?_, htwS _ hRws⟩
        rw [subNlSpace_nl_ne hd]
        have := subNlSpace_append_noNl ((d :: t).takeWhile isWS) hR
          ((d :: t).dropWhile isWS)
        rw [List.takeWhile_append_dropWhile] at this
        rw [this]
    · have hdrop : (d :: t).dropWhile isWS = d :: t := by
        rw [List.dropWhile_cons, if_neg hdws]
      refine ⟨[], ?_, ?_, ?_, ?_⟩
      · intro c hc; cases hc
      · intro c hc; cases hc
      · rw [List.nil_append, hdrop]
        have hd : d ≠ ' ' := by
          intro he; subst he; exact hdws (by decide)
        rw [subNlSpace_nl_ne hd]
      · rw [List.nil_append]
        exact htw0

/-- Rule 3 preserves rule 2's fixed-point condition. -/
theorem subNlSpace_ok2 : ∀ n l, l.length ≤ n → ok2 l = true →
    ok2 (subNlSpace l) = true := by
  intro n
  induction n with
  | zero =>
    intro l hl _
    have : l = [] := List.length_eq_zero.mp (by omega)
    subst this
    rfl
  | succ n ih =>
    intro l hl hok
    cases l with
    | nil => rfl
    | cons c rest =>
      have hok' := (Bool.and_eq_true _ _) ▸
        (show (ok2cond c rest && ok2 rest) = true from hok)
      by_cases hc : c = '\n'
      · subst hc
        have hcond := hok'.1
        unfold ok2cond at hcond
        rw [if_pos rfl] at hcond
        rcases (Bool.or_eq_true _ _) ▸ hcond with hno | hyes
        · have hnl : (rest.takeWhile isWS).contains '\n' = false := by
            simpa using hno
          obtain ⟨S, hSws, hSnl, heq, htw⟩ := subNlSpace_shape rest hnl
          rw [heq]
          show (ok2cond '\n' (S ++ subNlSpace (rest.dropWhile isWS))
            && ok2 (S ++ subNlSpace (rest.dropWhile isWS))) = true
          have hc1 : ok2cond '\n' (S ++ subNlSpace (rest.dropWhile isWS)) = true := by
            unfold ok2cond
            rw [if_pos rfl, htw]
            rw [show S.contains '\n' = false by
              cases hcs : S.contains '\n' with
              | false => rfl
              | true => exact absurd rfl (hSnl '\n' (contains_iff.mp hcs))]
            simp
          rw [hc1]
          have hrec : ok2 (subNlSpace (rest.dropWhile isWS)) = true := by
            apply ih
            · have := dropWhile_length_le isWS rest
              simp only [List.length_cons] at hl
              omega
            · have : ok2 (rest.takeWhile isWS ++ rest.dropWhile isWS) = true := by
                rw [List.takeWhile_append_dropWhile]
                exact hok'.2
              exact ok2_append_right this
          rw [ok2_noNl_append S hSnl _ hrec]
          rfl
        · have hyes' := (Bool.and_eq_true _ _) ▸ hyes
          have hhead : (rest.takeWhile isWS).head? = some '\n' := by
            have := hyes'.1
            simpa using this
          have htail : ((rest.takeWhile isWS).tail).contains '\n' = false := by
            simpa using hyes'.2
          cases rest with
          | nil => cases hhead
          | cons e rest' =>
            have hews : isWS e = true := by
              by_cases h : isWS e = true
              · exact h
              · rw [List.takeWhile_cons, if_neg h] at hhead
                cases hhead
            have he : e = '\n' := by
              rw [List.takeWhile_cons, if_pos hews] at hhead
              exact Option.some.inj (List.head?_cons ▸ hhead)
            subst he
            rw [List.takeWhile_cons, if_pos hews, List.tail_cons] at htail
            obtain ⟨S, hSws, hSnl, heq, htw⟩ := subNlSpace_shape rest' htail
            rw [subNlSpace_nl_ne (by decide) rest', heq]
            have hX : ok2 (subNlSpace (rest'.dropWhile isWS)) = true := by
              apply ih
              · have := dropWhile_length_le isWS rest'
                simp only [List.length_cons] at hl
                omega
              · have h2 : ok2 ('\n' :: rest') = true := hok'.2
                have h3 : ok2 rest' =
                    true := ((Bool.and_eq_true _ _) ▸
                      (show (ok2cond '\n' rest' && ok2 rest') = true from h2)).2
                have : ok2 (rest'.takeWhile isWS ++ rest'.dropWhile isWS) = true := by
                  rw [List.takeWhile_append_dropWhile]
                  exact h3
                exact ok2_append_right this
            have hSnoNl : S.contains '\n' = false := by
              cases hcs : S.contains '\n' with
              | false => rfl
              | true => exact absurd rfl (hSnl '\n' (contains_iff.mp hcs))
            show (ok2cond '\n' ('\n' :: (S ++ subNlSpace (rest'.dropWhile isWS)))
              && ok2 ('\n' :: (S ++ subNlSpace (rest'.dropWhile isWS)))) = true
            have hc1 : ok2cond '\n'
                ('\n' :: (S ++ subNlSpace (rest'.dropWhile isWS))) = true := by
              unfold ok2cond
              rw [if_pos rfl]
              rw [show (('\n' :: (S ++ subNlSpace (rest'.dropWhile isWS)))).takeWhile isWS
                  = '\n' :: S by
                rw [List.takeWhile_cons, if_pos (by decide), htw]]
              simp only [List.head?_cons, List.tail_cons]
              rw [hSnoNl]
              simp
            have hc2 : ok2cond '\n' (S ++ subNlSpace (rest'.dropWhile isWS)) = true := by
              unfold ok2cond
              rw [if_pos rfl, htw, hSnoNl]
              simp
            rw [hc1]
            show (ok2cond '\n' (S ++ subNlSpace (rest'.dropWhile isWS))
              && ok2 (S ++ subNlSpace (rest'.dropWhile isWS))) = true
            rw [hc2, ok2_noNl_append S hSnl _ hX]
            rfl
      · rw [subNlSpace_cons_ne hc]
        show (ok2cond c (subNlSpace rest) && ok2 (subNlSpace rest)) = true
        have hcond : ok2cond c (subNlSpace rest) = true := by
          unfold ok2cond
          rw [if_neg hc]
        rw [hcond, ih rest (by simp only [List.length_cons] at hl; omega) hok'.2]
        rfl

/-! ## What rule 4 establishes and preserves -/

/-- Whitespace is never punctuation. -/
theorem ws_not_punct {c : Char} (h : isWS c = true) : isPunctC c = false := by
  simp only [isWS, Bool.or_eq_true, decide_eq_true_eq] at h
  rcases h with ((((rfl | rfl) | rfl) | rfl) | rfl) | rfl <;> decide

/-- Punctuation is never whitespace. -/
theorem punct_not_ws {c : Char} (h : isPunctC c = true) : isWS c = false := by
  cases hw : isWS c with
  | false => rfl
  | true => rw [ws_not_punct hw] at h; cases h

/-- Rule 4's scanner accumulates a whole whitespace run. -/
theorem subWsPunctAux_acc :
    ∀ (W : List Char), (∀ c ∈ W, isWS c = true) → ∀ pend l,
      subWsPunctAux pend (W ++ l) = subWsPunctAux (pend ++ W) l := by
  intro W
  induction W with
  | nil => intro _ pend l; rw [List.nil_append, List.append_nil]
  | cons w W' ih =>
    intro h pend l
    rw [List.cons_append]
    show (if isWS w then subWsPunctAux (pend ++ [w]) (W' ++ l)
      else if isPunctC w && !(pend = []) then w :: subWsPunctAux [] (W' ++ l)
      else pend ++ w :: subWsPunctAux [] (W' ++ l)) = _
    rw [if_pos (h w (List.mem_cons_self _ _)),
      ih (fun c hc => h c (List.mem_cons_of_mem _ hc)) (pend ++ [w]) l,
      List.append_assoc]
    rfl

/-- An all-whitespace list satisfies the no-whitespace-before-punctuation
chain. -/
theorem chainOK_pWsP_allWS :
    ∀ (u : List Char), (∀ c ∈ u, isWS c = true) → chainOK pWsP u = true := by
  intro u
  induction u with
  | nil => intro _; rfl
  | cons a u' ih =>
    intro h
    rw [chainOK_cons]
    rw [show headOK pWsP a u' = true by
      cases u' with
      | nil => rfl
      | cons b t =>
        show pWsP a b = true
        simp [pWsP, ws_not_punct (h b (List.mem_cons_of_mem _ (List.mem_cons_self _ _)))]]
    rw [ih (fun c hc => h c (List.mem_cons_of_mem _ hc))]
    rfl

/-- An all-whitespace list followed by one non-punctuation character
satisfies the no-whitespace-before-punctuation chain. -/
theorem chainOK_pWsP_wsSnoc :
    ∀ (u : List Char), (∀ c ∈ u, isWS c = true) → ∀ {x : Char}, isPunctC x = false →
      chainOK pWsP (u ++ [x]) = true := by
  intro u
  induction u with
  | nil => intro _ x _; rfl
  | cons a u' ih =>
    intro h x hx
    rw [List.cons_append, chainOK_cons]
    rw [show headOK pWsP a (u' ++ [x]) = true by
      cases u' with
      | nil => show pWsP a x = true; simp [pWsP, hx]
      | cons b t =>
        show pWsP a b = true
        simp [pWsP, ws_not_punct (h b (List.mem_cons_of_mem _ (List.mem_cons_self _ _)))]]
    rw [ih (fun c hc => h c (List.mem_cons_of_mem _ hc)) hx]
    rfl

/-- Rule 4 resolved on the leading whitespace run. -/
theorem subWsPunct_resolve (l : List Char) :
    subWsPunctAux [] l = subWsPunctAux (l.takeWhile isWS) (l.dropWhile isWS) := by
  have hacc := subWsPunctAux_acc (l.takeWhile isWS)
    (fun c hc => List.mem_takeWhile_imp hc) [] (l.dropWhile isWS)
  rw [List.takeWhile_append_dropWhile, List.nil_append] at hacc
  exact hacc

/-- Rule 4's output starts with the input's head or with punctuation. -/
theorem subWsPunct_head (l : List Char) :
    (subWsPunctAux [] l).head? = l.head?
      ∨ ∃ q, (subWsPunctAux [] l).head? = some q ∧ isPunctC q = true := by
  have hsplit : l.takeWhile isWS ++ l.dropWhile isWS = l :=
    List.takeWhile_append_dropWhile _ _
  rw [subWsPunct_resolve l]
  rcases hd : l.dropWhile isWS with _ | ⟨c, rest0⟩
  · left
    rw [hd, List.append_nil] at hsplit
    show (subWsPunctAux (l.takeWhile isWS) []).head? = l.head?
    rw [show subWsPunctAux (l.takeWhile isWS) [] = l.takeWhile isWS from rfl, hsplit]
  · have hws : isWS c = false := head_dropWhile_false isWS l hd
    have hstep : subWsPunctAux (l.takeWhile isWS) (c :: rest0)
        = (if isWS c then subWsPunctAux (l.takeWhile isWS ++ [c]) rest0
           else if isPunctC c && !(l.takeWhile isWS = []) then c :: subWsPunctAux [] rest0
           else l.takeWhile isWS ++ c :: subWsPunctAux [] rest0) := rfl
    rw [hstep, if_neg (by simp [hws])]
    by_cases hpc : (isPunctC c && !(l.takeWhile isWS = [])) = true
    · right
      exact ⟨c, by rw [if_pos hpc]; rfl, ((Bool.and_eq_true _ _) ▸ hpc).1⟩
    · left
      rw [if_neg hpc]
      have hl2 : l.takeWhile isWS ++ c :: rest0 = l := by rw [← hd]; exact hsplit
      rcases hw : l.takeWhile isWS with _ | ⟨w, W'⟩
      · rw [hw] at hl2
        rw [← hl2]
        rfl
      · rw [hw] at hl2
        rw [← hl2]
        rfl

/-- Rule 4's output whitespace run is the input's run or empty. -/
theorem subWsPunct_run (l : List Char) :
    (subWsPunctAux [] l).takeWhile isWS = l.takeWhile isWS
      ∨ (subWsPunctAux [] l).takeWhile isWS = [] := by
  rw [subWsPunct_resolve l]
  have hWws : ∀ c ∈ l.takeWhile isWS, isWS c = true :=
    fun c hc => List.mem_takeWhile_imp hc
  rcases hd : l.dropWhile isWS with _ | ⟨c, rest0⟩
  · left
    rw [show subWsPunctAux (l.takeWhile isWS) [] = l.takeWhile isWS from rfl]
    exact takeWhile_all hWws
  · have hws : isWS c = false := head_dropWhile_false isWS l hd
    have hstep : subWsPunctAux (l.takeWhile isWS) (c :: rest0)
        = (if isWS c then subWsPunctAux (l.takeWhile isWS ++ [c]) rest0
           else if isPunctC c && !(l.takeWhile isWS = []) then c :: subWsPunctAux [] rest0
           else l.takeWhile isWS ++ c :: subWsPunctAux [] rest0) := rfl
    rw [hstep, if_neg (by simp [hws])]
    by_cases hpc : (isPunctC c && !(l.takeWhile isWS = [])) = true
    · right
      rw [if_pos hpc, List.takeWhile_cons, hws]
      simp
    · left
      rw [if_neg hpc]
      exact takeWhile_all_append _ hWws hws

/-- Rule 4's output has no whitespace directly before punctuation. -/
theorem subWsPunct_pWsP : ∀ n l pend, l.length ≤ n →
    (∀ c ∈ pend, isWS c = true) →
    chainOK pWsP (subWsPunctAux pend l) = true := by
  intro n
  induction n with
  | zero =>
    intro l pend hl hpend
    have : l = [] := List.length_eq_zero.mp (by omega)
    subst this
    exact chainOK_pWsP_allWS pend hpend
  | succ n ih =>
    intro l pend hl hpend
    cases l with
    | nil => exact chainOK_pWsP_allWS pend hpend
    | cons c rest =>
      show chainOK pWsP (if isWS c then subWsPunctAux (pend ++ [c]) rest
        else if isPunctC c && !(pend = []) then c :: subWsPunctAux [] rest
        else pend ++ c :: subWsPunctAux [] rest) = true
      by_cases hws : isWS c = true
      · rw [if_pos hws]
        apply ih rest (pend ++ [c]) (by simp only [List.length_cons] at hl; omega)
        intro a ha
        rcases List.mem_append.mp ha with h | h
        · exact hpend a h
        · rw [List.mem_singleton.mp h]; exact hws
      · rw [if_neg hws]
        have hrec : chainOK pWsP (subWsPunctAux [] rest) = true :=
          ih rest [] (by simp only [List.length_cons] at hl; omega)
            (by intro a ha; cases ha)
        have hcX : chainOK pWsP (c :: subWsPunctAux [] rest) = true := by
          rw [chainOK_cons]
          rw [show headOK pWsP c (subWsPunctAux [] rest) = true by
            cases subWsPunctAux [] rest with
            | nil => rfl
            | cons d t => show pWsP c d = true; simp [pWsP, hws]]
          rw [hrec]
          rfl
        by_cases hpc : (isPunctC c && !(pend = [])) = true
        · rw [if_pos hpc]
          exact hcX
        · rw [if_neg hpc, chainOK_split]
          rw [hcX, Bool.and_true]
          rcases hpd : pend with _ | ⟨a, pend'⟩
          · rfl
          · have hnp : isPunctC c = false := by
              cases hip : isPunctC c with
              | false => rfl
              | true =>
                exfalso
                apply hpc
                rw [hip, hpd]
                simp
            rw [← hpd]
            exact chainOK_pWsP_wsSnoc pend hpend hnp

/-- Rule 4 preserves any pair chain whose condition never constrains
what comes before punctuation. -/
theorem subWsPunct_chain {p : Char → Char → Bool}
    (hp : ∀ a b, isPunctC b = true → p a b = true) :
    ∀ n l pend, l.length ≤ n → chainOK p (pend ++ l) = true →
      chainOK p (subWsPunctAux pend l) = true := by
  intro n
  induction n with
  | zero =>
    intro l pend hl hch
    have : l = [] := List.length_eq_zero.mp (by omega)
    subst this
    rw [List.append_nil] at hch
    exact hch
  | succ n ih =>
    intro l pend hl hch
    cases l with
    | nil =>
      rw [List.append_nil] at hch
      exact hch
    | cons c rest =>
      show chainOK p (if isWS c then subWsPunctAux (pend ++ [c]) rest
        else if isPunctC c && !(pend = []) then c :: subWsPunctAux [] rest
        else pend ++ c :: subWsPunctAux [] rest) = true
      have hcrest : chainOK p (c :: rest) = true := chainOK_append_right hch
      have hcrest' := (Bool.and_eq_true _ _) ▸ (chainOK_cons p c rest ▸ hcrest)
      have hrest : chainOK p rest = true := hcrest'.2
      have hrec : chainOK p (subWsPunctAux [] rest) = true :=
        ih rest [] (by simp only [List.length_cons] at hl; omega)
          (by rw [List.nil_append]; exact hrest)
      have hhead : headOK p c (subWsPunctAux [] rest) = true := by
        rcases subWsPunct_head rest with hh | ⟨q, hq, hqp⟩
        · rw [headOK_congr hh]
          exact hcrest'.1
        · cases hout : subWsPunctAux [] rest with
          | nil => rfl
          | cons d t =>
            rw [hout] at hq
            have : d = q := Option.some.inj (List.head?_cons ▸ hq)
            subst this
            exact hp c d hqp
      have hcX : chainOK p (c :: subWsPunctAux [] rest) = true := by
        rw [chainOK_cons, hhead, hrec]
        rfl
      by_cases hws : isWS c = true
      · rw [if_pos hws]
        apply ih rest (pend ++ [c]) (by simp only [List.length_cons] at hl; omega)
        rw [show (pend ++ [c]) ++ rest = pend ++ c :: rest by simp]
        exact hch
      · rw [if_neg hws]
        by_cases hpc : (isPunctC c && !(pend = [])) = true
        · rw [if_pos hpc]
          exact hcX
        · rw [if_neg hpc, chainOK_split]
          rw [hcX, Bool.and_true]
          have := chainOK_split p c pend rest ▸ hch
          exact ((Bool.and_eq_true _ _) ▸ this).1

/-- Rule 4 preserves rule 2's fixed-point condition. -/
theorem subWsPunct_ok2 : ∀ n l pend, l.length ≤ n → ok2 (pend ++ l) = true →
    ok2 (subWsPunctAux pend l) = true := by
  intro n
  induction n with
  | zero =>
    intro l pend hl hok
    have : l = [] := List.length_eq_zero.mp (by omega)
    subst this
    rw [List.append_nil] at hok
    exact hok
  | succ n ih =>
    intro l pend hl hok
    cases l with
    | nil =>
      rw [List.append_nil] at hok
      exact hok
    | cons c rest =>
      show ok2 (if isWS c then subWsPunctAux (pend ++ [c]) rest
        else if isPunctC c && !(pend = []) then c :: subWsPunctAux [] rest
        else pend ++ c :: subWsPunctAux [] rest) = true
      have hcrest : ok2 (c :: rest) = true := ok2_append_right hok
      have hcrest' := (Bool.and_eq_true _ _) ▸
        (show (ok2cond c rest && ok2 rest) = true from hcrest)
      have hrec : ok2 (subWsPunctAux [] rest) = true :=
        ih rest [] (by simp only [List.length_cons] at hl; omega)
          (by rw [List.nil_append]; exact hcrest'.2)
      by_cases hws : isWS c = true
      · rw [if_pos hws]
        apply ih rest (pend ++ [c]) (by simp only [List.length_cons] at hl; omega)
        rw [show (pend ++ [c]) ++ rest = pend ++ c :: rest by simp]
        exact hok
      · rw [if_neg hws]
        have hcnl : c ≠ '\n' := by
          intro he; subst he; exact hws (by decide)
        have hcond : ok2cond c (subWsPunctAux [] rest) = true := by
          by_cases hc : c = '\n'
          · exact absurd hc hcnl
          · unfold ok2cond; rw [if_neg hc]
        have hcX : ok2 (c :: subWsPunctAux [] rest) = true := by
          show (ok2cond c (subWsPunctAux [] rest) && ok2 (subWsPunctAux [] rest)) = true
          rw [hcond, hrec]
          rfl
        have hws' : isWS c = false := by
          cases h : isWS c with
          | false => rfl
          | true => exact absurd h hws
        by_cases hpc : (isPunctC c && !(pend = [])) = true
        · rw [if_pos hpc]
          exact hcX
        · rw [if_neg hpc, ok2_split hws']
          rw [hcX, Bool.and_true]
          have := ok2_split hws' pend rest ▸ hok
          exact ((Bool.and_eq_true _ _) ▸ this).1

/-- Every character rule 4 emits is an input character. -/
theorem subWsPunct_mem : ∀ n l pend, l.length ≤ n →
    ∀ c ∈ subWsPunctAux pend l, c ∈ pend ++ l := by
  intro n
  induction n with
  | zero =>
    intro l pend hl c hc
    have : l = [] := List.length_eq_zero.mp (by omega)
    subst this
    simpa using hc
  | succ n ih =>
    intro l pend hl c hc
    cases l with
    | nil => simpa using hc
    | cons a rest =>
      rw [show subWsPunctAux pend (a :: rest)
          = (if isWS a then subWsPunctAux (pend ++ [a]) rest
             else if isPunctC a && !(pend = []) then a :: subWsPunctAux [] rest
             else pend ++ a :: subWsPunctAux [] rest) from rfl] at hc
      have hlen : rest.length ≤ n := by simp only [List.length_cons] at hl; omega
      by_cases hws : isWS a = true
      · rw [if_pos hws] at hc
        have := ih rest (pend ++ [a]) hlen c hc
        rw [show (pend ++ [a]) ++ rest = pend ++ a :: rest by simp] at this
        exact this
      · rw [if_neg hws] at hc
        by_cases hpc : (isPunctC a && !(pend = [])) = true
        · rw [if_pos hpc] at hc
          rcases List.mem_cons.mp hc with rfl | hc
          · exact List.mem_append.mpr (Or.inr (List.mem_cons_self _ _))
          · have := ih rest [] hlen c hc
            rw [List.nil_append] at this
            exact List.mem_append.mpr
              (Or.inr (List.mem_cons_of_mem _ this))
        · rw [if_neg hpc] at hc
          rcases List.mem_append.mp hc with h | h
          · exact List.mem_append.mpr (Or.inl h)
          · rcases List.mem_cons.mp h with rfl | h
            · exact List.mem_append.mpr (Or.inr (List.mem_cons_self _ _))
            · have := ih rest [] hlen c h
              rw [List.nil_append] at this
              exact List.mem_append.mpr
                (Or.inr (List.mem_cons_of_mem _ this))

/-- Rule 4 preserves tab-freeness. -/
theorem subWsPunct_noTab {l : List Char} (h : noTab l = true) :
    noTab (subWsPunctAux [] l) = true := by
  simp only [noTab, List.all_eq_true] at h ⊢
  intro c hc
  have := subWsPunct_mem l.length l [] (Nat.le_refl _) c hc
  rw [List.nil_append] at this
  exact h c this

/-! ## What rule 5 establishes and preserves -/

/-- A sentence terminator is not a space or tab. -/
theorem sentEnd_not_sptab {c : Char} (h : isSentEnd c = true) : isSpTab c = false := by
  simp only [isSentEnd, Bool.or_eq_true, decide_eq_true_eq] at h
  rcases h with (rfl | rfl) | rfl <;> decide

/-- An upper-case letter is not a space or tab. -/
theorem upper_not_sptab {c : Char} (h : isUpperAZ c = true) : isSpTab c = false := by
  cases hs : isSpTab c with
  | false => rfl
  | true =>
    simp only [isSpTab, Bool.or_eq_true, decide_eq_true_eq] at hs
    rcases hs with rfl | rfl <;> simp [isUpperAZ] at h

/-- An upper-case letter is not punctuation. -/
theorem upper_not_punct {c : Char} (h : isUpperAZ c = true) : isPunctC c = false := by
  cases hs : isPunctC c with
  | false => rfl
  | true =>
    simp only [isPunctC, Bool.or_eq_true, decide_eq_true_eq] at hs
    rcases hs with ((((rfl | rfl) | rfl) | rfl) | rfl) | rfl <;> simp [isUpperAZ] at h

/-- An upper-case letter is not a sentence terminator. -/
theorem upper_not_sentEnd {c : Char} (h : isUpperAZ c = true) : isSentEnd c = false := by
  cases hs : isSentEnd c with
  | false => rfl
  | true =>
    simp only [isSentEnd, Bool.or_eq_true, decide_eq_true_eq] at hs
    rcases hs with (rfl | rfl) | rfl <;> simp [isUpperAZ] at h

/-- Whitespace is never a sentence terminator. -/
theorem ws_not_sentEnd {c : Char} (h : isWS c = true) : isSentEnd c = false := by
  cases hs : isSentEnd c with
  | false => rfl
  | true => rw [sentEnd_not_ws hs] at h; cases h

/-- A sentence terminator is not a newline. -/
theorem sentEnd_not_nl {c : Char} (h : isSentEnd c = true) : c ≠ '\n' := by
  intro he
  subst he
  cases h

/-- `dropWhile` past an all-satisfying prefix stops at the first failure. -/
theorem dropWhile_all_append {p : Char → Bool} :
    ∀ (u : List Char), (∀ c ∈ u, p c = true) → ∀ {x : Char}, p x = false →
      ∀ v, (u ++ x :: v).dropWhile p = x :: v := by
  intro u
  induction u with
  | nil =>
    intro _ x hx v
    rw [List.nil_append, List.dropWhile_cons, hx]
    simp
  | cons a u' ih =>
    intro h x hx v
    rw [List.cons_append, List.dropWhile_cons, h a (List.mem_cons_self _ _)]
    simp only [if_pos]
    exact ih (fun c hc => h c (List.mem_cons_of_mem _ hc)) hx v

/-- A prefix with no sentence terminator is invisible to `ok5`. -/
theorem ok5_noSE_append :
    ∀ (u : List Char), (∀ a ∈ u, isSentEnd a = false) → ∀ {v}, ok5 v = true →
      ok5 (u ++ v) = true := by
  intro u
  induction u with
  | nil => intro _ v h; exact h
  | cons a u' ih =>
    intro ha v hv
    show (ok5cond a (u' ++ v) && ok5 (u' ++ v)) = true
    have hcond : ok5cond a (u' ++ v) = true := by
      unfold ok5cond
      rw [if_neg (by simp [ha a (List.mem_cons_self _ _)])]
    rw [hcond, ih (fun x hx => ha x (List.mem_cons_of_mem _ hx)) hv]
    rfl

/-- Rule 5's scanner in pending state always emits the pending terminator
first. -/
theorem subSentUpperAux_some_head :
    ∀ (l : List Char) (s : Char) (pend : List Char),
      ∃ t, subSentUpperAux (some (s, pend)) l = s :: t := by
  intro l
  induction l with
  | nil => intro s pend; exact ⟨pend, rfl⟩
  | cons c rest ih =>
    intro s pend
    show ∃ t, (if isWS c then subSentUpperAux (some (s, pend ++ [c])) rest
      else if isUpperAZ c then s :: ' ' :: c :: subSentUpperAux none rest
      else if isSentEnd c then s :: (pend ++ subSentUpperAux (some (c, [])) rest)
      else s :: (pend ++ c :: subSentUpperAux none rest)) = s :: t
    by_cases hws : isWS c = true
    · rw [if_pos hws]
      exact ih s (pend ++ [c])
    · rw [if_neg hws]
      by_cases hup : isUpperAZ c = true
      · rw [if_pos hup]
        exact ⟨_, rfl⟩
      · rw [if_neg hup]
        by_cases hse : isSentEnd c = true
        · rw [if_pos hse]
          exact ⟨_, rfl⟩
        · rw [if_neg hse]
          exact ⟨_, rfl⟩

/-- Rule 5 keeps the head of the text. -/
theorem subSentUpper_head (l : List Char) :
    (subSentUpperAux none l).head? = l.head? := by
  cases l with
  | nil => rfl
  | cons c rest =>
    show ((if isSentEnd c then subSentUpperAux (some (c, [])) rest
      else c :: subSentUpperAux none rest)).head? = some c
    by_cases hse : isSentEnd c = true
    · rw [if_pos hse]
      obtain ⟨t, ht⟩ := subSentUpperAux_some_head rest c []
      rw [ht]
      rfl
    · rw [if_neg hse]
      rfl

/-- Rule 5's output whitespace run is the input's. -/
theorem subSentUpper_takeWhile : ∀ (l : List Char),
    (subSentUpperAux none l).takeWhile isWS = l.takeWhile isWS := by
  intro l
  induction l with
  | nil => rfl
  | cons c rest ih =>
    show ((if isSentEnd c then subSentUpperAux (some (c, [])) rest
      else c :: subSentUpperAux none rest)).takeWhile isWS = _
    by_cases hse : isSentEnd c = true
    · rw [if_pos hse]
      obtain ⟨t, ht⟩ := subSentUpperAux_some_head rest c []
      rw [ht, List.takeWhile_cons, List.takeWhile_cons,
        sentEnd_not_ws hse]
      simp
    · rw [if_neg hse]
      rw [List.takeWhile_cons, List.takeWhile_cons]
      by_cases hws : isWS c = true
      · rw [hws]
        simp only [if_pos]
        rw [ih]
      · rw [show isWS c = false by
          cases h : isWS c with
          | false => rfl
          | true => exact absurd h hws]
        simp

/-- Every character rule 5 emits is an input character or a space. -/
theorem subSentUpper_mem : ∀ n l, l.length ≤ n →
    (∀ c ∈ subSentUpperAux none l, c ∈ l ∨ c = ' ') ∧
    (∀ s pend, ∀ c ∈ subSentUpperAux (some (s, pend)) l,
      c ∈ s :: (pend ++ l) ∨ c = ' ') := by
  intro n
  induction n with
  | zero =>
    intro l hl
    have : l = [] := List.length_eq_zero.mp (by omega)
    subst this
    constructor
    · intro c hc; cases hc
    · intro s pend c hc
      rcases List.mem_cons.mp hc with rfl | hc
      · exact Or.inl (List.mem_cons_self _ _)
      · exact Or.inl (List.mem_cons_of_mem _ (by simpa using hc))
  | succ n ih =>
    intro l hl
    cases l with
    | nil =>
      constructor
      · intro c hc; cases hc
      · intro s pend c hc
        rcases List.mem_cons.mp hc with rfl | hc
        · exact Or.inl (List.mem_cons_self _ _)
        · exact Or.inl (List.mem_cons_of_mem _ (by simpa using hc))
    | cons a rest =>
      have hlen : rest.length ≤ n := by simp only [List.length_cons] at hl; omega
      constructor
      · intro c hc
        rw [show subSentUpperAux none (a :: rest)
            = (if isSentEnd a then subSentUpperAux (some (a, [])) rest
               else a :: subSentUpperAux none rest) from rfl] at hc
        by_cases hse : isSentEnd a = true
        · rw [if_pos hse] at hc
          rcases (ih rest hlen).2 a [] c hc with h | h
          · rcases List.mem_cons.mp h with rfl | h
            · exact Or.inl (List.mem_cons_self _ _)
            · exact Or.inl (List.mem_cons_of_mem _ (by simpa using h))
          · exact Or.inr h
        · rw [if_neg hse] at hc
          rcases List.mem_cons.mp hc with rfl | hc
          · exact Or.inl (List.mem_cons_self _ _)
          · rcases (ih rest hlen).1 c hc with h | h
            · exact Or.inl (List.mem_cons_of_mem _ h)
            · exact Or.inr h
      · intro s pend c hc
        rw [show subSentUpperAux (some (s, pend)) (a :: rest)
            = (if isWS a then subSentUpperAux (some (s, pend ++ [a])) rest
               else if isUpperAZ a then s :: ' ' :: a :: subSentUpperAux none rest
               else if isSentEnd a then s :: (pend ++ subSentUpperAux (some (a, [])) rest)
               else s :: (pend ++ a :: subSentUpperAux none rest)) from rfl] at hc
        by_cases hws : isWS a = true
        · rw [if_pos hws] at hc
          rcases (ih rest hlen).2 s (pend ++ [a]) c hc with h | h
          · rcases List.mem_cons.mp h with rfl | h
            · exact Or.inl (List.mem_cons_self _ _)
            · left
              apply List.mem_cons_of_mem
              rcases List.mem_append.mp h with h | h
              · rcases List.mem_append.mp h with h | h
                · exact List.mem_append.mpr (Or.inl h)
                · rw [List.mem_singleton.mp h]
                  exact List.mem_append.mpr (Or.inr (List.mem_cons_self _ _))
              · exact List.mem_append.mpr (Or.inr (List.mem_cons_of_mem _ h))
          · exact Or.inr h
        · rw [if_neg hws] at hc
          have hmem_none : ∀ x ∈ subSentUpperAux none rest,
              x ∈ s :: (pend ++ a :: rest) ∨ x = ' ' := by
            intro x hx
            rcases (ih rest hlen).1 x hx with h | h
            · exact Or.inl (List.mem_cons_of_mem _
                (List.mem_append.mpr (Or.inr (List.mem_cons_of_mem _ h))))
            · exact Or.inr h
          by_cases hup : isUpperAZ a = true
          · rw [if_pos hup] at hc
            rcases List.mem_cons.mp hc with rfl | hc
            · exact Or.inl (List.mem_cons_self _ _)
            · rcases List.mem_cons.mp hc with rfl | hc
              · exact Or.inr rfl
              · rcases List.mem_cons.mp hc with rfl | hc
                · exact Or.inl (List.mem_cons_of_mem _
                    (List.mem_append.mpr (Or.inr (List.mem_cons_self _ _))))
                · exact hmem_none c hc
          · rw [if_neg hup] at hc
            by_cases hse : isSentEnd a = true
            · rw [if_pos hse] at hc
              rcases List.mem_cons.mp hc with rfl | hc
              · exact Or.inl (List.mem_cons_self _ _)
              · rcases List.mem_append.mp hc with h | h
                · exact Or.inl (List.mem_cons_of_mem _
                    (List.mem_append.mpr (Or.inl h)))
                · rcases (ih rest hlen).2 a [] c h with h2 | h2
                  · rcases List.mem_cons.mp h2 with rfl | h2
                    · exact Or.inl (List.mem_cons_of_mem _
                        (List.mem_append.mpr (Or.inr (List.mem_cons_self _ _))))
                    · exact Or.inl (List.mem_cons_of_mem _
                        (List.mem_append.mpr (Or.inr
                          (List.mem_cons_of_mem _ (by simpa using h2)))))
                  · exact Or.inr h2
            · rw [if_neg hse] at hc
              rcases List.mem_cons.mp hc with rfl | hc
              · exact Or.inl (List.mem_cons_self _ _)
              · rcases List.mem_append.mp hc with h | h
                · exact Or.inl (List.mem_cons_of_mem _
                    (List.mem_append.mpr (Or.inl h)))
                · rcases List.mem_cons.mp h with rfl | h
                  · exact Or.inl (List.mem_cons_of_mem _
                      (List.mem_append.mpr (Or.inr (List.mem_cons_self _ _))))
                  · exact hmem_none c h

/-- Rule 5 preserves tab-freeness. -/
theorem subSentUpper_noTab {l : List Char} (h : noTab l = true) :
    noTab (subSentUpperAux none l) = true := by
  simp only [noTab, List.all_eq_true] at h ⊢
  intro c hc
  rcases (subSentUpper_mem l.length l (Nat.le_refl _)).1 c hc with hm | hm
  · exact h c hm
  · subst hm; decide

/-- A sentence terminator is not an upper-case letter. -/
theorem sentEnd_not_upper {c : Char} (h : isSentEnd c = true) : isUpperAZ c = false := by
  simp only [isSentEnd, Bool.or_eq_true, decide_eq_true_eq] at h
  rcases h with (rfl | rfl) | rfl <;> decide

/-- `dropWhile` of an all-satisfying list is empty. -/
theorem dropWhile_all {p : Char → Bool} :
    ∀ {u : List Char}, (∀ c ∈ u, p c = true) → u.dropWhile p = [] := by
  intro u
  induction u with
  | nil => intro _; rfl
  | cons a u' ih =>
    intro h
    rw [List.dropWhile_cons, h a (List.mem_cons_self _ _)]
    simp only [if_pos]
    exact ih (fun c hc => h c (List.mem_cons_of_mem _ hc))

/-- Rule 5 preserves any pair chain that accepts a space after a sentence
terminator and before an upper-case letter. -/
theorem subSentUpper_chain {p : Char → Char → Bool}
    (hp1 : ∀ s, isSentEnd s = true → p s ' ' = true)
    (hp2 : ∀ c, isUpperAZ c = true → p ' ' c = true) :
    ∀ n l, l.length ≤ n →
      (chainOK p l = true → chainOK p (subSentUpperAux none l) = true) ∧
      (∀ s pend, isSentEnd s = true → chainOK p (s :: (pend ++ l)) = true →
        chainOK p (subSentUpperAux (some (s, pend)) l) = true) := by
  intro n
  induction n with
  | zero =>
    intro l hl
    have : l = [] := List.length_eq_zero.mp (by omega)
    subst this
    constructor
    · intro _; rfl
    · intro s pend _ hch
      show chainOK p (s :: pend) = true
      rw [List.append_nil] at hch
      exact hch
  | succ n ih =>
    intro l hl
    cases l with
    | nil =>
      constructor
      · intro _; rfl
      · intro s pend _ hch
        show chainOK p (s :: pend) = true
        rw [List.append_nil] at hch
        exact hch
    | cons a rest =>
      have hlen : rest.length ≤ n := by simp only [List.length_cons] at hl; omega
      constructor
      · intro hch
        have hch' := (Bool.and_eq_true _ _) ▸ (chainOK_cons p a rest ▸ hch)
        show chainOK p (if isSentEnd a then subSentUpperAux (some (a, [])) rest
          else a :: subSentUpperAux none rest) = true
        by_cases hse : isSentEnd a = true
        · rw [if_pos hse]
          apply (ih rest hlen).2 a [] hse
          rw [List.nil_append]
          exact hch
        · rw [if_neg hse, chainOK_cons,
            headOK_congr (subSentUpper_head rest), hch'.1,
            (ih rest hlen).1 hch'.2]
          rfl
      · intro s pend hse hch
        have hrest : chainOK p (a :: rest) = true := by
          have h1 : chainOK p (pend ++ a :: rest) = true :=
            (((Bool.and_eq_true _ _) ▸ (chainOK_cons p s _ ▸ hch))).2
          exact chainOK_append_right h1
        have hrest' := (Bool.and_eq_true _ _) ▸ (chainOK_cons p a rest ▸ hrest)
        show chainOK p (if isWS a then subSentUpperAux (some (s, pend ++ [a])) rest
          else if isUpperAZ a then s :: ' ' :: a :: subSentUpperAux none rest
          else if isSentEnd a then s :: (pend ++ subSentUpperAux (some (a, [])) rest)
          else s :: (pend ++ a :: subSentUpperAux none rest)) = true
        by_cases hws : isWS a = true
        · rw [if_pos hws]
          apply (ih rest hlen).2 s (pend ++ [a]) hse
          rw [show (pend ++ [a]) ++ rest = pend ++ a :: rest by simp]
          exact hch
        · rw [if_neg hws]
          by_cases hup : isUpperAZ a = true
          · rw [if_pos hup, chainOK_cons, chainOK_cons, chainOK_cons]
            rw [show headOK p s (' ' :: a :: subSentUpperAux none rest) = true from
              hp1 s hse]
            rw [show headOK p ' ' (a :: subSentUpperAux none rest) = true from
              hp2 a hup]
            rw [headOK_congr (subSentUpper_head rest), hrest'.1,
              (ih rest hlen).1 hrest'.2]
            rfl
          · rw [if_neg hup]
            by_cases hsea : isSentEnd a = true
            · rw [if_pos hsea]
              obtain ⟨t, ht⟩ := subSentUpperAux_some_head rest a []
              have hX : chainOK p (subSentUpperAux (some (a, [])) rest) = true := by
                apply (ih rest hlen).2 a [] hsea
                rw [List.nil_append]
                exact hrest
              have := @chainOK_append_congr p (s :: pend)
                (a :: rest) (subSentUpperAux (some (a, [])) rest)
                hch (by rw [ht]; rfl) hX
              exact this
            · rw [if_neg hsea]
              have hY : chainOK p (subSentUpperAux none rest) = true :=
                (ih rest hlen).1 hrest'.2
              have hch2 : chainOK p (((s :: pend) ++ [a]) ++ rest) = true := by
                rw [show ((s :: pend) ++ [a]) ++ rest = s :: (pend ++ a :: rest) by simp]
                exact hch
              have := @chainOK_append_congr p ((s :: pend) ++ [a])
                rest (subSentUpperAux none rest)
                hch2 (subSentUpper_head rest).symm hY
              rw [show ((s :: pend) ++ [a]) ++ subSentUpperAux none rest
                  = s :: (pend ++ a :: subSentUpperAux none rest) by simp] at this
              exact this

/-- Rule 5's output has exactly one space between a sentence terminator
and a following upper-case letter. -/
theorem subSentUpper_ok5 : ∀ n l, l.length ≤ n →
    (ok5 (subSentUpperAux none l) = true) ∧
    (∀ s pend, isSentEnd s = true → (∀ a ∈ pend, isWS a = true) →
      ok5 (subSentUpperAux (some (s, pend)) l) = true) := by
  intro n
  have hbase : ∀ s pend, isSentEnd s = true → (∀ a ∈ pend, isWS a = true) →
      ok5 (s :: pend) = true := by
    intro s pend hse hpend
    show (ok5cond s pend && ok5 pend) = true
    have hcond : ok5cond s pend = true := by
      unfold ok5cond
      rw [if_pos hse, drop_takeWhile_length, dropWhile_all hpend]
      rfl
    have htail : ok5 pend = true := by
      have := ok5_noSE_append pend (fun a ha => ws_not_sentEnd (hpend a ha))
        (v := []) rfl
      simpa using this
    rw [hcond, htail]
    rfl
  induction n with
  | zero =>
    intro l hl
    have : l = [] := List.length_eq_zero.mp (by omega)
    subst this
    exact ⟨rfl, fun s pend hse hpend => hbase s pend hse hpend⟩
  | succ n ih =>
    intro l hl
    cases l with
    | nil => exact ⟨rfl, fun s pend hse hpend => hbase s pend hse hpend⟩
    | cons a rest =>
      have hlen : rest.length ≤ n := by simp only [List.length_cons] at hl; omega
      constructor
      · show ok5 (if isSentEnd a then subSentUpperAux (some (a, [])) rest
          else a :: subSentUpperAux none rest) = true
        by_cases hse : isSentEnd a = true
        · rw [if_pos hse]
          exact (ih rest hlen).2 a [] hse (by intro x hx; cases hx)
        · rw [if_neg hse]
          show (ok5cond a (subSentUpperAux none rest)
            && ok5 (subSentUpperAux none rest)) = true
          have hcond : ok5cond a (subSentUpperAux none rest) = true := by
            unfold ok5cond
            rw [if_neg (by simp [hse])]
          rw [hcond, (ih rest hlen).1]
          rfl
      · intro s pend hse hpend
        show ok5 (if isWS a then subSentUpperAux (some (s, pend ++ [a])) rest
          else if isUpperAZ a then s :: ' ' :: a :: subSentUpperAux none rest
          else if isSentEnd a then s :: (pend ++ subSentUpperAux (some (a, [])) rest)
          else s :: (pend ++ a :: subSentUpperAux none rest)) = true
        by_cases hws : isWS a = true
        · rw [if_pos hws]
          apply (ih rest hlen).2 s (pend ++ [a]) hse
          intro x hx
          rcases List.mem_append.mp hx with h | h
          · exact hpend x h
          · rw [List.mem_singleton.mp h]; exact hws
        · have hws' : isWS a = false := by
            cases h : isWS a with
            | false => rfl
            | true => exact absurd h hws
          rw [if_neg hws]
          by_cases hup : isUpperAZ a = true
          · rw [if_pos hup]
            show (ok5cond s (' ' :: a :: subSentUpperAux none rest)
              && ok5 (' ' :: a :: subSentUpperAux none rest)) = true
            have hcond : ok5cond s (' ' :: a :: subSentUpperAux none rest) = true := by
              unfold ok5cond
              rw [if_pos hse, drop_takeWhile_length]
              rw [show (' ' :: a :: subSentUpperAux none rest).dropWhile isWS
                  = a :: subSentUpperAux none rest by
                rw [List.dropWhile_cons]
                simp only [show isWS ' ' = true by decide, if_pos]
                rw [List.dropWhile_cons, hws']
                simp]
              rw [show (' ' :: a :: subSentUpperAux none rest).takeWhile isWS
                  = [' '] by
                rw [List.takeWhile_cons]
                simp only [show isWS ' ' = true by decide, if_pos]
                rw [List.takeWhile_cons, hws']
                simp]
              simp [hup]
            rw [hcond]
            show (ok5cond ' ' (a :: subSentUpperAux none rest)
              && ok5 (a :: subSentUpperAux none rest)) = true
            rw [show ok5cond ' ' (a :: subSentUpperAux none rest) = true by
              unfold ok5cond
              rw [if_neg (by decide)]]
            show ok5 (a :: subSentUpperAux none rest) = true
            show (ok5cond a (subSentUpperAux none rest)
              && ok5 (subSentUpperAux none rest)) = true
            rw [show ok5cond a (subSentUpperAux none rest) = true by
              unfold ok5cond
              rw [if_neg (by simp [upper_not_sentEnd hup])]]
            rw [(ih rest hlen).1]
            rfl
          · rw [if_neg hup]
            by_cases hsea : isSentEnd a = true
            · rw [if_pos hsea]
              obtain ⟨t, ht⟩ := subSentUpperAux_some_head rest a []
              show (ok5cond s (pend ++ subSentUpperAux (some (a, [])) rest)
                && ok5 (pend ++ subSentUpperAux (some (a, [])) rest)) = true
              have hcond : ok5cond s (pend ++ subSentUpperAux (some (a, [])) rest)
                  = true := by
                unfold ok5cond
                rw [if_pos hse, drop_takeWhile_length, ht,
                  dropWhile_all_append pend hpend hws' t]
                simp [sentEnd_not_upper hsea]
              rw [hcond]
              show ok5 (pend ++ subSentUpperAux (some (a, [])) rest) = true
              exact ok5_noSE_append pend
                (fun x hx => ws_not_sentEnd (hpend x hx))
                ((ih rest hlen).2 a [] hsea (by intro x hx; cases hx))
            · rw [if_neg hsea]
              show (ok5cond s (pend ++ a :: subSentUpperAux none rest)
                && ok5 (pend ++ a :: subSentUpperAux none rest)) = true
              have hup' : isUpperAZ a = false := by
                cases h : isUpperAZ a with
                | false => rfl
                | true => exact absurd h hup
              have hcond : ok5cond s (pend ++ a :: subSentUpperAux none rest)
                  = true := by
                unfold ok5cond
                rw [if_pos hse, drop_takeWhile_length,
                  dropWhile_all_append pend hpend hws' _]
                simp [hup']
              rw [hcond]
              show ok5 (pend ++ a :: subSentUpperAux none rest) = true
              apply ok5_noSE_append pend (fun x hx => ws_not_sentEnd (hpend x hx))
              show (ok5cond a (subSentUpperAux none rest)
                && ok5 (subSentUpperAux none rest)) = true
              rw [show ok5cond a (subSentUpperAux none rest) = true by
                unfold ok5cond
                rw [if_neg (by simp [hsea])]]
              rw [(ih rest hlen).1]
              rfl

/-- Rule 5 preserves rule 2's fixed-point condition. -/
theorem subSentUpper_ok2 : ∀ n l, l.length ≤ n →
    (ok2 l = true → ok2 (subSentUpperAux none l) = true) ∧
    (∀ s pend, isSentEnd s = true → ok2 (pend ++ l) = true →
      ok2 (subSentUpperAux (some (s, pend)) l) = true) := by
  intro n
  have hcondSE : ∀ (s : Char) (x : List Char), isSentEnd s = true →
      ok2cond s x = true := by
    intro s x hse
    unfold ok2cond
    rw [if_neg (sentEnd_ne_nl hse)]
  induction n with
  | zero =>
    intro l hl
    have : l = [] := List.length_eq_zero.mp (by omega)
    subst this
    constructor
    · intro _; rfl
    · intro s pend hse hok
      show (ok2cond s pend && ok2 pend) = true
      rw [List.append_nil] at hok
      rw [hcondSE s pend hse, hok]
      rfl
  | succ n ih =>
    intro l hl
    cases l with
    | nil =>
      constructor
      · intro _; rfl
      · intro s pend hse hok
        show (ok2cond s pend && ok2 pend) = true
        rw [List.append_nil] at hok
        rw [hcondSE s pend hse, hok]
        rfl
    | cons a rest =>
      have hlen : rest.length ≤ n := by simp only [List.length_cons] at hl; omega
      constructor
      · intro hok
        have hok' := (Bool.and_eq_true _ _) ▸
          (show (ok2cond a rest && ok2 rest) = true from hok)
        show ok2 (if isSentEnd a then subSentUpperAux (some (a, [])) rest
          else a :: subSentUpperAux none rest) = true
        by_cases hse : isSentEnd a = true
        · rw [if_pos hse]
          apply (ih rest hlen).2 a [] hse
          rw [List.nil_append]
          exact hok'.2
        · rw [if_neg hse]
          show (ok2cond a (subSentUpperAux none rest)
            && ok2 (subSentUpperAux none rest)) = true
          have hcond : ok2cond a (subSentUpperAux none rest) = true := by
            by_cases ha : a = '\n'
            · unfold ok2cond
              rw [subSentUpper_takeWhile rest]
              unfold ok2cond at hok'
              exact hok'.1
            · unfold ok2cond
              rw [if_neg ha]
          rw [hcond, (ih rest hlen).1 hok'.2]
          rfl
      · intro s pend hse hok
        have harest : ok2 (a :: rest) = true := ok2_append_right hok
        have harest' := (Bool.and_eq_true _ _) ▸
          (show (ok2cond a rest && ok2 rest) = true from harest)
        show ok2 (if isWS a then subSentUpperAux (some (s, pend ++ [a])) rest
          else if isUpperAZ a then s :: ' ' :: a :: subSentUpperAux none rest
          else if isSentEnd a then s :: (pend ++ subSentUpperAux (some (a, [])) rest)
          else s :: (pend ++ a :: subSentUpperAux none rest)) = true
        by_cases hws : isWS a = true
        · rw [if_pos hws]
          apply (ih rest hlen).2 s (pend ++ [a]) hse
          rw [show (pend ++ [a]) ++ rest = pend ++ a :: rest by simp]
          exact hok
        · have hws' : isWS a = false := by
            cases h : isWS a with
            | false => rfl
            | true => exact absurd h hws
          have hanl : a ≠ '\n' := by
            intro he; subst he; exact hws (by decide)
          have hconda : ∀ x : List Char, ok2cond a x = true := by
            intro x
            unfold ok2cond
            rw [if_neg hanl]
          rw [if_neg hws]
          by_cases hup : isUpperAZ a = true
          · rw [if_pos hup]
            show (ok2cond s (' ' :: a :: subSentUpperAux none rest)
              && ok2 (' ' :: a :: subSentUpperAux none rest)) = true
            rw [hcondSE s _ hse]
            show ok2 (' ' :: a :: subSentUpperAux none rest) = true
            show (ok2cond ' ' (a :: subSentUpperAux none rest)
              && ok2 (a :: subSentUpperAux none rest)) = true
            rw [show ok2cond ' ' (a :: subSentUpperAux none rest) = true by
              unfold ok2cond
              rw [if_neg (by decide)]]
            show ok2 (a :: subSentUpperAux none rest) = true
            show (ok2cond a (subSentUpperAux none rest)
              && ok2 (subSentUpperAux none rest)) = true
            rw [hconda _, (ih rest hlen).1 harest'.2]
            rfl
          · rw [if_neg hup]
            by_cases hsea : isSentEnd a = true
            · rw [if_pos hsea]
              obtain ⟨t, ht⟩ := subSentUpperAux_some_head rest a []
              show (ok2cond s (pend ++ subSentUpperAux (some (a, [])) rest)
                && ok2 (pend ++ subSentUpperAux (some (a, [])) rest)) = true
              rw [hcondSE s _ hse]
              show ok2 (pend ++ subSentUpperAux (some (a, [])) rest) = true
              rw [ht, ok2_split hws']
              have hsplit_in := ok2_split hws' pend rest ▸ hok
              have hsp := (Bool.and_eq_true _ _) ▸ hsplit_in
              rw [hsp.1]
              have hX : ok2 (subSentUpperAux (some (a, [])) rest) = true := by
                apply (ih rest hlen).2 a [] hsea
                rw [List.nil_append]
                exact harest'.2
              rw [ht] at hX
              rw [hX]
              rfl
            · rw [if_neg hsea]
              show (ok2cond s (pend ++ a :: subSentUpperAux none rest)
                && ok2 (pend ++ a :: subSentUpperAux none rest)) = true
              rw [hcondSE s _ hse]
              show ok2 (pend ++ a :: subSentUpperAux none rest) = true
              rw [ok2_split hws']
              have hsplit_in := ok2_split hws' pend rest ▸ hok
              have hsp := (Bool.and_eq_true _ _) ▸ hsplit_in
              rw [hsp.1]
              show (true && ok2 (a :: subSentUpperAux none rest)) = true
              rw [Bool.true_and]
              show (ok2cond a (subSentUpperAux none rest)
                && ok2 (subSentUpperAux none rest)) = true
              rw [hconda _, (ih rest hlen).1 harest'.2]
              rfl

/-! ## What the final strip establishes and preserves -/

/-- The strip output is the middle of the input between two all-whitespace
margins. -/
theorem pyStrip_decomp (l : List Char) :
    ∃ A B, (∀ c ∈ A, isWS c = true) ∧ (∀ c ∈ B, isWS c = true) ∧
      A ++ (pyStrip l ++ B) = l := by
  refine ⟨l.takeWhile isWS, ((l.dropWhile isWS).reverse.takeWhile isWS).reverse,
    fun c hc => List.mem_takeWhile_imp hc,
    fun c hc => List.mem_takeWhile_imp (List.mem_reverse.mp hc), ?_⟩
  have hmid : pyStrip l ++ ((l.dropWhile isWS).reverse.takeWhile isWS).reverse
      = l.dropWhile isWS := by
    unfold pyStrip
    rw [← List.reverse_append, List.takeWhile_append_dropWhile, List.reverse_reverse]
  rw [hmid, List.takeWhile_append_dropWhile]

/-- The strip output does not start with whitespace. -/
theorem pyStrip_headNotWS (l : List Char) : headNotWS (pyStrip l) = true := by
  cases hm : pyStrip l with
  | nil => rfl
  | cons m t =>
    show (!isWS m) = true
    have hdw : pyStrip l ++ ((l.dropWhile isWS).reverse.takeWhile isWS).reverse
        = l.dropWhile isWS := by
      unfold pyStrip
      rw [← List.reverse_append, List.takeWhile_append_dropWhile,
        List.reverse_reverse]
    have hcons : l.dropWhile isWS
        = m :: (t ++ ((l.dropWhile isWS).reverse.takeWhile isWS).reverse) := by
      conv_lhs => rw [← hdw]
      rw [hm]
      rfl
    have := head_dropWhile_false isWS l hcons
    simp [this]

/-- The reversed strip output does not start with whitespace: the strip
output does not end with whitespace. -/
theorem pyStrip_rev_headNotWS (l : List Char) :
    headNotWS (pyStrip l).reverse = true := by
  have hrd : (pyStrip l).reverse = (l.dropWhile isWS).reverse.dropWhile isWS := by
    show (((l.dropWhile isWS).reverse.dropWhile isWS).reverse).reverse = _
    rw [List.reverse_reverse]
  rw [hrd]
  cases hh : (l.dropWhile isWS).reverse.dropWhile isWS with
  | nil => rfl
  | cons m t =>
    show (!isWS m) = true
    have := head_dropWhile_false isWS (l.dropWhile isWS).reverse hh
    simp [this]

/-- The strip output, when non-empty, ends in a non-whitespace character. -/
theorem pyStrip_snoc (l : List Char) :
    pyStrip l = [] ∨ ∃ u x, isWS x = false ∧ pyStrip l = u ++ [x] := by
  have h := pyStrip_rev_headNotWS l
  cases hr : (pyStrip l).reverse with
  | nil =>
    left
    have := congrArg List.reverse hr
    rw [List.reverse_reverse] at this
    exact this
  | cons x u =>
    right
    refine ⟨u.reverse, x, ?_, ?_⟩
    · rw [hr] at h
      have : (!isWS x) = true := h
      simp at this
      exact this
    · have := congrArg List.reverse hr
      rw [List.reverse_reverse] at this
      rw [this, List.reverse_cons]

/-- Strip preserves tab-freeness. -/
theorem pyStrip_noTab {l : List Char} (h : noTab l = true) :
    noTab (pyStrip l) = true := by
  obtain ⟨A, B, _, _, hdec⟩ := pyStrip_decomp l
  simp only [noTab, List.all_eq_true] at h ⊢
  intro c hc
  apply h
  rw [← hdec]
  exact List.mem_append.mpr (Or.inr (List.mem_append.mpr (Or.inl hc)))

/-- Strip preserves every pair chain. -/
theorem pyStrip_chain {p : Char → Char → Bool} {l : List Char}
    (h : chainOK p l = true) : chainOK p (pyStrip l) = true := by
  obtain ⟨A, B, _, _, hdec⟩ := pyStrip_decomp l
  rw [← hdec] at h
  exact chainOK_append_left (chainOK_append_right h)

/-- Strip preserves rule 2's fixed-point condition. -/
theorem pyStrip_ok2 {l : List Char} (h : ok2 l = true) :
    ok2 (pyStrip l) = true := by
  obtain ⟨A, B, _, _, hdec⟩ := pyStrip_decomp l
  rw [← hdec] at h
  have hMB : ok2 (pyStrip l ++ B) = true := ok2_append_right h
  rcases pyStrip_snoc l with hnil | ⟨u, x, hx, hux⟩
  · rw [hnil]; rfl
  · rw [hux] at hMB ⊢
    rw [List.append_assoc, List.singleton_append] at hMB
    have := ok2_split hx u B ▸ hMB
    exact ((Bool.and_eq_true _ _) ▸ this).1

/-- Strip preserves rule 5's fixed-point condition. -/
theorem pyStrip_ok5 {l : List Char} (h : ok5 l = true) :
    ok5 (pyStrip l) = true := by
  obtain ⟨A, B, _, _, hdec⟩ := pyStrip_decomp l
  rw [← hdec] at h
  have hMB : ok5 (pyStrip l ++ B) = true := ok5_append_right h
  rcases pyStrip_snoc l with hnil | ⟨u, x, hx, hux⟩
  · rw [hnil]; rfl
  · rw [hux] at hMB ⊢
    rw [List.append_assoc, List.singleton_append] at hMB
    have := ok5_split hx u B ▸ hMB
    exact ((Bool.and_eq_true _ _) ▸ this).1

/-! ## The cleaned text satisfies every rule's fixed-point condition -/

/-- Rule-respecting pair facts used along the pipeline. -/
theorem pDbl_nl (b : Char) : pDbl '\n' b = true := by
  show (!(isSpTab '\n' && isSpTab b)) = true
  rw [show isSpTab '\n' = false from rfl]
  simp

/-- A space or tab is whitespace. -/
theorem sptab_ws {c : Char} (h : isSpTab c = true) : isWS c = true := by
  simp only [isSpTab, Bool.or_eq_true, decide_eq_true_eq] at h
  rcases h with rfl | rfl <;> decide

/-- Punctuation is not a space or tab. -/
theorem punct_not_sptab {c : Char} (h : isPunctC c = true) : isSpTab c = false := by
  cases hs : isSpTab c with
  | false => rfl
  | true => rw [ws_not_punct (sptab_ws hs)] at h; cases h

/-- No adjacent space-tab pair ends in punctuation. -/
theorem pDbl_of_punct (a : Char) {b : Char} (h : isPunctC b = true) :
    pDbl a b = true := by
  show (!(isSpTab a && isSpTab b)) = true
  rw [punct_not_sptab h]
  simp

/-- No newline-space pair ends in punctuation. -/
theorem pNlSp_of_punct (a : Char) {b : Char} (h : isPunctC b = true) :
    pNlSp a b = true := by
  show (!(a = '\n' && b = ' ')) = true
  have hb : b ≠ ' ' := by
    intro he
    subst he
    rw [ws_not_punct (by decide)] at h
    cases h
  simp [hb]

/-- Every fixed-point condition holds of the cleaned text. -/
theorem clean_text_invariants (x : List Char) :
    noTab (clean_text x) = true ∧
    chainOK pDbl (clean_text x) = true ∧
    ok2 (clean_text x) = true ∧
    chainOK pNlSp (clean_text x) = true ∧
    chainOK pWsP (clean_text x) = true ∧
    ok5 (clean_text x) = true ∧
    headNotWS (clean_text x) = true ∧
    headNotWS (clean_text x).reverse = true := by
  have h1t : noTab (subSpTab x) = true := subSpTabAux_noTab x false
  have h1d : chainOK pDbl (subSpTab x) = true := subSpTabAux_chain x false
  have h2t : noTab (subNlRun (subSpTab x)) = true := subNlRun_noTab h1t
  have h2d : chainOK pDbl (subNlRun (subSpTab x)) = true :=
    subNlRun_chain pDbl_nl _ _ (Nat.le_refl _) h1d
  have h2o : ok2 (subNlRun (subSpTab x)) = true :=
    subNlRun_ok2 _ _ (Nat.le_refl _)
  have h3t : noTab (subNlSpace (subNlRun (subSpTab x))) = true :=
    subNlSpace_noTab h2t
  have h3d : chainOK pDbl (subNlSpace (subNlRun (subSpTab x))) = true :=
    subNlSpace_chain pDbl_nl _ h2d
  have h3o : ok2 (subNlSpace (subNlRun (subSpTab x))) = true :=
    subNlSpace_ok2 _ _ (Nat.le_refl _) h2o
  have h3n : chainOK pNlSp (subNlSpace (subNlRun (subSpTab x))) = true :=
    subNlSpace_pNlSp _ h2d
  have h4t : noTab (subWsPunct (subNlSpace (subNlRun (subSpTab x)))) = true :=
    subWsPunct_noTab h3t
  have h4d : chainOK pDbl (subWsPunct (subNlSpace (subNlRun (subSpTab x)))) = true :=
    subWsPunct_chain (fun a b hb => pDbl_of_punct a hb) _ _ []
      (Nat.le_refl _) (by rw [List.nil_append]; exact h3d)
  have h4n : chainOK pNlSp (subWsPunct (subNlSpace (subNlRun (subSpTab x)))) = true :=
    subWsPunct_chain (fun a b hb => pNlSp_of_punct a hb) _ _ []
      (Nat.le_refl _) (by rw [List.nil_append]; exact h3n)
  have h4o : ok2 (subWsPunct (subNlSpace (subNlRun (subSpTab x)))) = true :=
    subWsPunct_ok2 _ _ [] (Nat.le_refl _) (by rw [List.nil_append]; exact h3o)
  have h4w : chainOK pWsP (subWsPunct (subNlSpace (subNlRun (subSpTab x)))) = true :=
    subWsPunct_pWsP _ _ [] (Nat.le_refl _) (by intro a ha; cases ha)
  have h5t : noTab (subSentUpper (subWsPunct (subNlSpace (subNlRun (subSpTab x)))))
      = true := subSentUpper_noTab h4t
  have h5d : chainOK pDbl
      (subSentUpper (subWsPunct (subNlSpace (subNlRun (subSpTab x))))) = true :=
    (subSentUpper_chain
      (fun s hs => by
        show (!(isSpTab s && isSpTab ' ')) = true
        rw [sentEnd_not_sptab hs]
        simp)
      (fun c hc => by
        show (!(isSpTab ' ' && isSpTab c)) = true
        rw [upper_not_sptab hc]
        simp) _ _ (Nat.le_refl _)).1 h4d
  have h5n : chainOK pNlSp
      (subSentUpper (subWsPunct (subNlSpace (subNlRun (subSpTab x))))) = true :=
    (subSentUpper_chain
      (fun s hs => by
        show (!(s = '\n' && (' ' = ' ' : Bool))) = true
        simp [sentEnd_ne_nl hs])
      (fun c _ => by
        show (!((' ' = '\n' : Bool) && (c = ' ' : Bool))) = true
        simp) _ _ (Nat.le_refl _)).1 h4n
  have h5w : chainOK pWsP
      (subSentUpper (subWsPunct (subNlSpace (subNlRun (subSpTab x))))) = true :=
    (subSentUpper_chain
      (fun s hs => by
        show (!(isWS s && isPunctC ' ')) = true
        rw [sentEnd_not_ws hs]
        simp)
      (fun c hc => by
        show (!(isWS ' ' && isPunctC c)) = true
        rw [upper_not_punct hc]
        simp) _ _ (Nat.le_refl _)).1 h4w
  have h5o : ok2 (subSentUpper (subWsPunct (subNlSpace (subNlRun (subSpTab x)))))
      = true := (subSentUpper_ok2 _ _ (Nat.le_refl _)).1 h4o
  have h5f : ok5 (subSentUpper (subWsPunct (subNlSpace (subNlRun (subSpTab x)))))
      = true := (subSentUpper_ok5 _ _ (Nat.le_refl _)).1
  refine ⟨pyStrip_noTab h5t, pyStrip_chain h5d, pyStrip_ok2 h5o,
    pyStrip_chain h5n, pyStrip_chain h5w, pyStrip_ok5 h5f,
    pyStrip_headNotWS _, pyStrip_rev_headNotWS _⟩

/-- A text satisfying every fixed-point condition is unchanged by the
cleaner. -/
theorem clean_text_fix {y : List Char}
    (ht : noTab y = true) (hd : chainOK pDbl y = true) (ho : ok2 y = true)
    (hn : chainOK pNlSp y = true) (hw : chainOK pWsP y = true)
    (hf : ok5 y = true) (hh : headNotWS y = true)
    (hr : headNotWS y.reverse = true) : clean_text y = y := by
  unfold clean_text
  rw [subSpTab_fix ht hd]
  rw [show subNlRun y = y from subNlRun_fix y.length y (Nat.le_refl _) ho]
  rw [subNlSpace_fix y hn]
  rw [subWsPunct_fix hw]
  rw [subSentUpper_fix hf]
  exact pyStrip_fix hh hr

/-- C3: `PDFProcessor._clean_text` is idempotent.  For every input string
x, clean(clean(x)) = clean(x), where clean applies the five normalization
substitutions — collapse space-tab runs, collapse newline runs, strip one
space after a newline, strip whitespace before punctuation, normalize the
gap between a sentence terminator and an upper-case letter to one space —
in source order and then strips the ends. -/
theorem claim_C3 (x : List Char) : clean_text (clean_text x) = clean_text x := by
  obtain ⟨ht, hd, ho, hn, hw, hf, hh, hr⟩ := clean_text_invariants x
  exact clean_text_fix ht hd ho hn hw hf hh hr

end DocSearch
